import Mathlib

/-!
# go-image-tools: arithmetic operators, filters, kernels, morphology and signatures

A shallow embedding of `src/ImageTools/ArithmeticOperators.go`,
`src/ImageTools/Filters.go`, `src/ImageTools/Morphology.go`,
`src/ImageTools/Signatures.go`, `src/ImageTools/kernels/Blurs.go` and
`src/ImageTools/kernels/Morphology.go`. Functions and package variables the sources
call and do not hold (`Normalise`, `SingleThreshold`, `SubImage`, `MeanStd`, the Sobel
kernels, `math.Pow`) are parameters of the functions that use them.

## Numbers

Go's `float32` and `float64` values are modelled by `GoFloat`: a rational number
(every finite binary floating-point value is one), the two infinities, or NaN.
The two signed zeros are identified; a non-zero value divided by zero gives the
infinity with the sign of the dividend, as it does for the zero with a plus sign.
Every arithmetic operation computes the exact rational result and then rounds it
with the rounding of its format, a field of `FloatEnv`; a product and the sum it
feeds are rounded one after the other (no fused multiply-add). Two environments are
given: `ieee` (binary32 and binary64, round to nearest, ties to even, gradual
underflow, overflow to infinity, correctly rounded square root) and `exactArith`
(no rounding, around a square-root function of the caller's choice).
Go's `int` is the 64-bit one.

## Control flow

A run-time panic (index out of range) is the `none` of `Option` inside the loops and
`Outcome.panic` at the level of an exported function. The goroutines of a grid
operator write pairwise distinct cells of a freshly made output grid and are joined
before the function returns, so they are run here one after the other, in index order.
The goroutines of `L2Norm` all add to one variable and hold no lock: each of them reads
the variable and later writes it, and the order of these memory accesses, which the Go
scheduler chooses, is a parameter of `L2Norm` and of the functions that call it. The
result of `GradientMagnitude` depends on the order of its receptions, which is a
parameter of it.
-/

namespace ImageTools

/-! ## Floating-point values -/

/-- A value of a Go floating-point type: finite, plus or minus infinity, or NaN. -/
inductive GoFloat where
  | fin (q : ℚ)
  | pinf
  | ninf
  | nan
  deriving DecidableEq, Repr

/-- A floating-point format: `rnd` sends an exact result to the nearest value of the
format as if the exponent range were unbounded above, and a rounded value whose
magnitude exceeds `maxFinite` overflows to an infinity. -/
structure Format where
  rnd : ℚ → ℚ
  maxFinite : Option ℚ

/-- The value a format stores for the exact result `q`. -/
def Format.round (f : Format) (q : ℚ) : GoFloat :=
  let y := f.rnd q
  match f.maxFinite with
  | none => .fin y
  | some m => if m < y then .pinf else if y < -m then .ninf else .fin y

/-- The arithmetic of one Go implementation: the `float32` format, the `float64`
format, and the value `math.Sqrt` returns on a non-negative finite argument. -/
structure FloatEnv where
  f32 : Format
  f64 : Format
  sqrt : ℚ → ℚ

/-- Power of two with an integer exponent. -/
def pow2 (z : ℤ) : ℚ :=
  if 0 ≤ z then ((2 ^ z.toNat : ℕ) : ℚ) else 1 / ((2 ^ (-z).toNat : ℕ) : ℚ)

/-- Worker of `natLog2`: halve `n` until it is below two, at most `fuel` times. -/
def natLog2Aux : ℕ → ℕ → ℕ
  | 0, _ => 0
  | fuel + 1, n => if n < 2 then 0 else natLog2Aux fuel (n / 2) + 1

/-- Floor of the binary logarithm of a natural number (0 at 0). -/
def natLog2 (n : ℕ) : ℕ := natLog2Aux n n

/-- Floor of the binary logarithm of the magnitude of a non-zero rational. -/
def ilog2 (q : ℚ) : ℤ :=
  let a : ℤ := (natLog2 q.num.natAbs : ℤ)
  let b : ℤ := (natLog2 q.den : ℤ)
  if pow2 (a - b) ≤ |q| then a - b else a - b - 1

/-- Nearest integer, a tie going to the even neighbour. -/
def halfEven (x : ℚ) : ℤ :=
  let f := ⌊x⌋
  let d := x - f
  if d < 1 / 2 then f else if 1 / 2 < d then f + 1 else if f % 2 = 0 then f else f + 1

/-- Round to nearest, ties to even, with `p` bits of precision and least normal
exponent `emin` (below it the spacing stays that of the subnormal numbers). -/
def roundNE (p : ℕ) (emin : ℤ) (q : ℚ) : ℚ :=
  if q = 0 then 0 else
    let e := max (ilog2 q) emin
    let u := pow2 (e - ((p : ℤ) - 1))
    (halfEven (q / u) : ℚ) * u

/-- Worker of `isqrt`: decide the bits of the root from bit `k - 1` down to bit 0. -/
def isqrtAux : ℕ → ℕ → ℕ → ℕ
  | 0, _, r => r
  | k + 1, n, r => if (r + 2 ^ k) * (r + 2 ^ k) ≤ n then isqrtAux k n (r + 2 ^ k) else isqrtAux k n r

/-- Floor of the square root of a natural number. -/
def isqrt (n : ℕ) : ℕ := isqrtAux (natLog2 n / 2 + 1) n 0

/-- Correctly rounded square root (round to nearest) of a non-negative rational with
`p` bits of precision; 0 on a non-positive argument. -/
def sqrtNE (p : ℕ) (q : ℚ) : ℚ :=
  if q ≤ 0 then 0 else
    let l := ilog2 q
    let e := (l - l % 2) / 2
    let u := pow2 (e - ((p : ℤ) - 1))
    let t := q / (u * u)
    let n := isqrt ⌊t⌋.toNat
    if ((n * n + n : ℕ) : ℚ) + 1 / 4 < t then ((n + 1 : ℕ) : ℚ) * u else (n : ℚ) * u

/-- The constant `math.MaxFloat32`, `0x1p127 * (1 + (1 - 0x1p-23))`. -/
def MaxFloat32 : ℚ := 2 ^ 128 - 2 ^ 104

/-- The largest finite binary64 value. -/
def MaxFloat64 : ℚ := 2 ^ 1024 - 2 ^ 971

/-- IEEE 754 binary32. -/
def binary32 : Format := ⟨roundNE 24 (-126), some MaxFloat32⟩

/-- IEEE 754 binary64. -/
def binary64 : Format := ⟨roundNE 53 (-1022), some MaxFloat64⟩

/-- Go's arithmetic: binary32 and binary64 with a correctly rounded `math.Sqrt`. -/
def ieee : FloatEnv := ⟨binary32, binary64, sqrtNE 53⟩

/-- Arithmetic without rounding and without overflow, around a given square-root
function (no function on the rationals is the exact one everywhere). -/
def exactArith (sqrt : ℚ → ℚ) : FloatEnv := ⟨⟨id, none⟩, ⟨id, none⟩, sqrt⟩

/-- Test `math.IsNaN`. -/
def GoFloat.isNaN : GoFloat → Bool
  | .nan => true
  | _ => false

/-- Test `x == 0` (false on NaN and on the infinities). -/
def GoFloat.isZero : GoFloat → Bool
  | .fin q => decide (q = 0)
  | _ => false

/-- Sum of two values of format `f`. -/
def fadd (f : Format) : GoFloat → GoFloat → GoFloat
  | .fin x, .fin y => f.round (x + y)
  | .nan, _ => .nan
  | _, .nan => .nan
  | .pinf, .ninf => .nan
  | .ninf, .pinf => .nan
  | .pinf, _ => .pinf
  | _, .pinf => .pinf
  | .ninf, _ => .ninf
  | _, .ninf => .ninf

/-- Difference of two values of format `f`. -/
def fsub (f : Format) : GoFloat → GoFloat → GoFloat
  | .fin x, .fin y => f.round (x - y)
  | .nan, _ => .nan
  | _, .nan => .nan
  | .pinf, .pinf => .nan
  | .ninf, .ninf => .nan
  | .pinf, _ => .pinf
  | _, .ninf => .pinf
  | .ninf, _ => .ninf
  | _, .pinf => .ninf

/-- Sign rule for a product or quotient one of whose operands is infinite: `pos` says
whether the two signs agree. -/
def infOfSign (pos : Bool) : GoFloat := if pos then .pinf else .ninf

/-- Product of two values of format `f` (infinity times zero is NaN). -/
def fmul (f : Format) : GoFloat → GoFloat → GoFloat
  | .fin x, .fin y => f.round (x * y)
  | .nan, _ => .nan
  | _, .nan => .nan
  | .pinf, .pinf => .pinf
  | .ninf, .ninf => .pinf
  | .pinf, .ninf => .ninf
  | .ninf, .pinf => .ninf
  | .pinf, .fin y => if y = 0 then .nan else infOfSign (decide (0 < y))
  | .ninf, .fin y => if y = 0 then .nan else infOfSign (decide (y < 0))
  | .fin x, .pinf => if x = 0 then .nan else infOfSign (decide (0 < x))
  | .fin x, .ninf => if x = 0 then .nan else infOfSign (decide (x < 0))

/-- Quotient of two values of format `f`: zero by zero and infinity by infinity are
NaN, a non-zero value by zero is an infinity, a finite value by an infinity is zero. -/
def fdiv (f : Format) : GoFloat → GoFloat → GoFloat
  | .fin x, .fin y =>
    if y = 0 then (if x = 0 then .nan else infOfSign (decide (0 < x))) else f.round (x / y)
  | .nan, _ => .nan
  | _, .nan => .nan
  | .fin _, .pinf => .fin 0
  | .fin _, .ninf => .fin 0
  | .pinf, .fin y => infOfSign (decide (0 ≤ y))
  | .ninf, .fin y => infOfSign (decide (y < 0))
  | .pinf, .pinf => .nan
  | .pinf, .ninf => .nan
  | .ninf, .pinf => .nan
  | .ninf, .ninf => .nan

/-- The function `math.Abs`. -/
def fabs : GoFloat → GoFloat
  | .fin q => .fin |q|
  | .pinf => .pinf
  | .ninf => .pinf
  | .nan => .nan

/-- The function `math.Sqrt`: NaN below zero, the identity on plus infinity and NaN. -/
def fsqrt (env : FloatEnv) : GoFloat → GoFloat
  | .fin q => if q < 0 then .nan else .fin (env.sqrt q)
  | .pinf => .pinf
  | .ninf => .nan
  | .nan => .nan

/-- The conversion `float32(x)` of a `float64` value. -/
def toFloat32 (env : FloatEnv) : GoFloat → GoFloat
  | .fin q => env.f32.round q
  | x => x

/-- The conversion `float64(x)` of a `float32` value, which is exact. -/
def toFloat64 (x : GoFloat) : GoFloat := x

/-- The conversion `float64(n)` of an `int`. -/
def intToFloat64 (env : FloatEnv) (n : ℤ) : GoFloat := env.f64.round (n : ℚ)

/-- Go's `int` on a 64-bit platform: the result of integer arithmetic wraps around. -/
def wrapInt (x : ℤ) : ℤ := (x + 2 ^ 63) % 2 ^ 64 - 2 ^ 63

/-! ## Grids and loops -/

/-- A value of type `[][]float32`: `image[i][j]` is the sample at column `i`, row `j`. -/
abbrev Image := List (List GoFloat)

/-- What an exported function does: it returns a value, it returns `nil` with an error
made by `errors.New`, or it panics. -/
inductive Outcome (α : Type) where
  | ok (v : α)
  | error (msg : String)
  | panic
  deriving DecidableEq, Repr

/-- Modelled from the spec: `Dimensions(grid) -> (width, height)`, a pure shape query
whose code is not part of the sources; the width is the length of the outer slice and
the height the length of its first element, as every caller uses them. -/
def Dimensions (image : Image) : ℕ × ℕ := (image.length, (image.headD []).length)

/-- The grid `make([][]float32, w)` all of whose elements are `make([]float32, h)`. -/
def make2D (w h : ℕ) : Image := List.replicate w (List.replicate h (.fin 0))

/-- The read `image[i][j]`; `none` is the index-out-of-range panic. -/
def getPx (image : Image) (i j : ℕ) : Option GoFloat :=
  match image[i]? with
  | none => none
  | some col => col[j]?

/-- The read `image[x][y]` with indices of type `int`. -/
def getPxInt (image : Image) (x y : ℤ) : Option GoFloat :=
  if 0 ≤ x ∧ 0 ≤ y then getPx image x.toNat y.toNat else none

/-- The write `image[i][j] = v`; `none` is the index-out-of-range panic. -/
def setPx (image : Image) (i j : ℕ) (v : GoFloat) : Option Image :=
  match image[i]? with
  | none => none
  | some col => if j < col.length then some (image.set i (col.set j v)) else none

/-- Run `body` on the indices of a list in turn, threading the state. -/
def loopOver {σ : Type} (body : ℕ → σ → Option σ) : List ℕ → σ → Option σ
  | [], s => some s
  | k :: ks, s =>
    match body k s with
    | none => none
    | some s' => loopOver body ks s'

/-- The loop `for k := 0; k < n; k++ { body }`. -/
def forRange {σ : Type} (n : ℕ) (body : ℕ → σ → Option σ) (s : σ) : Option σ :=
  loopOver body (List.range n) s

/-- How an iteration of a loop with a `break` ends. -/
inductive Ctl (σ : Type) where
  | next (s : σ)
  | brk (s : σ)

/-- Run `body` on the indices of a list in turn until it breaks. -/
def loopOverBrk {σ : Type} (body : ℕ → σ → Option (Ctl σ)) : List ℕ → σ → Option σ
  | [], s => some s
  | k :: ks, s =>
    match body k s with
    | none => none
    | some (.brk s') => some s'
    | some (.next s') => loopOverBrk body ks s'

/-- The loop `for k := 0; k < n; k++ { body }` whose body may `break`. -/
def forRangeBrk {σ : Type} (n : ℕ) (body : ℕ → σ → Option (Ctl σ)) (s : σ) : Option σ :=
  loopOverBrk body (List.range n) s

/-- The skeleton shared by the operators: make the `w` by `h` output grid, then for
every row `j` (one goroutine each) and every column `i` store `f i j` in
`outputImage[i][j]`, and wait for the goroutines. -/
def pixelLoop (w h : ℕ) (f : ℕ → ℕ → Option GoFloat) : Option Image :=
  forRange h (fun j out =>
    forRange w (fun i out =>
      match f i j with
      | none => none
      | some v => setPx out i j v) out) (make2D w h)

/-- The end of every operator: `Normalise` the grid when asked to. -/
def finish (Normalise : Image → Image) (normalise : Bool) : Option Image → Outcome Image
  | none => .panic
  | some out => .ok (if normalise then Normalise out else out)

/-- A grid with `w` columns, each of `h` samples. -/
def IsRect (g : Image) (w h : ℕ) : Prop := g.length = w ∧ ∀ col ∈ g, col.length = h

instance (g : Image) (w h : ℕ) : Decidable (IsRect g w h) := by
  unfold IsRect
  infer_instance

/-- The grid whose sample at `(i, j)` is `g i j`. -/
def tabulate (w h : ℕ) (g : ℕ → ℕ → GoFloat) : Image :=
  (List.range w).map (fun i => (List.range h).map (fun j => g i j))

/-! ## ArithmeticOperators.go -/

/-- The dimension checks that open the four binary operators. -/
def checkDims (a b : Image) : Outcome Unit :=
  if a.length ≠ b.length then .error "Width mismatch"
  else
    match a[0]?, b[0]? with
    | some a0, some b0 => if a0.length ≠ b0.length then .error "Height mismatch" else .ok ()
    | _, _ => .panic

/-- A binary operator: check the dimensions, combine the samples with `op`. -/
def binaryImage (op : GoFloat → GoFloat → GoFloat) (Normalise : Image → Image)
    (a b : Image) (normalise : Bool) : Outcome Image :=
  match checkDims a b with
  | .error msg => .error msg
  | .panic => .panic
  | .ok _ =>
    let (imageWidth, imageHeight) := Dimensions a
    finish Normalise normalise
      (pixelLoop imageWidth imageHeight (fun i j =>
        match getPx a i j, getPx b i j with
        | some x, some y => some (op x y)
        | _, _ => none))

/-- An operator on a grid and a scalar. -/
def scalarImage (op : GoFloat → GoFloat → GoFloat) (Normalise : Image → Image)
    (a : Image) (b : GoFloat) (normalise : Bool) : Outcome Image :=
  let (imageWidth, imageHeight) := Dimensions a
  finish Normalise normalise
    (pixelLoop imageWidth imageHeight (fun i j =>
      match getPx a i j with
      | some x => some (op x b)
      | none => none))

/-- The function `AddImage`: `outputImage[i][j] = a[i][j] + b[i][j]`. -/
def AddImage (env : FloatEnv) (Normalise : Image → Image) (a b : Image) (normalise : Bool) :
    Outcome Image :=
  binaryImage (fadd env.f32) Normalise a b normalise

/-- The function `AddScalar`: `outputImage[i][j] = a[i][j] + b`. -/
def AddScalar (env : FloatEnv) (Normalise : Image → Image) (a : Image) (b : GoFloat)
    (normalise : Bool) : Outcome Image :=
  scalarImage (fadd env.f32) Normalise a b normalise

/-- The function `SubtractImage`: `outputImage[i][j] = a[i][j] - b[i][j]`. -/
def SubtractImage (env : FloatEnv) (Normalise : Image → Image) (a b : Image)
    (normalise : Bool) : Outcome Image :=
  binaryImage (fsub env.f32) Normalise a b normalise

/-- The function `SubtractScalar`: `outputImage[i][j] = a[i][j] - b`. -/
def SubtractScalar (env : FloatEnv) (Normalise : Image → Image) (a : Image) (b : GoFloat)
    (normalise : Bool) : Outcome Image :=
  scalarImage (fsub env.f32) Normalise a b normalise

/-- The function `MultiplyImage`: `outputImage[i][j] = a[i][j] * b[i][j]`. -/
def MultiplyImage (env : FloatEnv) (Normalise : Image → Image) (a b : Image)
    (normalise : Bool) : Outcome Image :=
  binaryImage (fmul env.f32) Normalise a b normalise

/-- The function `MultiplyScalar`: `outputImage[i][j] = a[i][j] * b`. -/
def MultiplyScalar (env : FloatEnv) (Normalise : Image → Image) (a : Image) (b : GoFloat)
    (normalise : Bool) : Outcome Image :=
  scalarImage (fmul env.f32) Normalise a b normalise

/-- The body of the inner loop of `DivideImage`: on a zero denominator store 0 and
`break`, otherwise store the quotient. -/
def divideStep (env : FloatEnv) (a b : Image) (j i : ℕ) (out : Image) : Option (Ctl Image) :=
  match getPx b i j with
  | none => none
  | some y =>
    if y.isZero then
      match setPx out i j (.fin 0) with
      | none => none
      | some out' => some (.brk out')
    else
      match getPx a i j with
      | none => none
      | some x =>
        match setPx out i j (fdiv env.f32 x y) with
        | none => none
        | some out' => some (.next out')

/-- The function `DivideImage`. -/
def DivideImage (env : FloatEnv) (Normalise : Image → Image) (a b : Image)
    (normalise : Bool) : Outcome Image :=
  match checkDims a b with
  | .error msg => .error msg
  | .panic => .panic
  | .ok _ =>
    let (imageWidth, imageHeight) := Dimensions a
    finish Normalise normalise
      (forRange imageHeight (fun j out => forRangeBrk imageWidth (divideStep env a b j) out)
        (make2D imageWidth imageHeight))

/-- The function `Sqrt`:
`outputImage[i][j] = float32(math.Sqrt(math.Abs(float64(image[i][j]))))`. -/
def Sqrt (env : FloatEnv) (Normalise : Image → Image) (image : Image) (normalise : Bool) :
    Outcome Image :=
  let (imageWidth, imageHeight) := Dimensions image
  finish Normalise normalise
    (pixelLoop imageWidth imageHeight (fun i j =>
      match getPx image i j with
      | some x => some (toFloat32 env (fsqrt env (fabs (toFloat64 x))))
      | none => none))

/-! ## Filters.go -/

/-- The expression `int(math.Ceil(0.5 * float64(n)))`. -/
def halfCeil (n : ℕ) : ℕ := ⌈(1 / 2 : ℚ) * (n : ℚ)⌉.toNat

/-- The zero border and the copy of the image into it, the first loops of
`Convolution`. -/
def padImage (image : Image) (imageWidth imageHeight halfKernelWidth halfKernelHeight : ℕ) :
    Option Image :=
  forRange imageHeight (fun j padded =>
    forRange imageWidth (fun i padded =>
      match getPx image i j with
      | none => none
      | some v => setPx padded (i + halfKernelWidth) (j + halfKernelHeight) v) padded)
    (make2D (imageWidth + halfKernelWidth + halfKernelWidth)
      (imageHeight + halfKernelHeight + halfKernelHeight))

/-- The dot product `Convolution` computes at the pixel `(i, j)`: the accumulator, in
`float64`, after the loops over `kJ` and `kI`. -/
def dotAt (env : FloatEnv) (paddedImage kernel : Image)
    (kernelWidth kernelHeight halfKernelWidth halfKernelHeight i j : ℕ) : Option GoFloat :=
  forRange kernelHeight (fun kJ accumulator =>
    forRange kernelWidth (fun kI accumulator =>
      match getPxInt paddedImage
          ((i : ℤ) + ((kI : ℤ) - (halfKernelWidth : ℤ)) + (halfKernelWidth : ℤ))
          ((j : ℤ) + ((kJ : ℤ) - (halfKernelHeight : ℤ)) + (halfKernelHeight : ℤ)),
        getPx kernel kI kJ with
      | some imageValue, some kernelValue =>
        some (fadd env.f64 accumulator
          (fmul env.f64 (toFloat64 imageValue) (toFloat64 kernelValue)))
      | _, _ => none) accumulator) (.fin 0)

/-- The function `Convolution`. -/
def Convolution (env : FloatEnv) (Normalise : Image → Image) (image kernel : Image)
    (normalise : Bool) : Outcome Image :=
  let (imageWidth, imageHeight) := Dimensions image
  let (kernelWidth, kernelHeight) := Dimensions kernel
  let halfKernelWidth := halfCeil kernelWidth
  let halfKernelHeight := halfCeil kernelHeight
  match padImage image imageWidth imageHeight halfKernelWidth halfKernelHeight with
  | none => .panic
  | some paddedImage =>
    finish Normalise normalise
      (pixelLoop imageWidth imageHeight (fun i j =>
        match dotAt env paddedImage kernel kernelWidth kernelHeight
            halfKernelWidth halfKernelHeight i j with
        | none => none
        | some accumulator => some (toFloat32 env accumulator)))

/-! ## Signatures.go -/

/-- The two memory accesses of `accumulator += element * element` in the goroutine that
`L2Norm` starts for the element `i`: the read of `accumulator`, and the write of the
sum. -/
inductive Access where
  | read (i : ℕ)
  | write (i : ℕ)
  deriving DecidableEq, Repr

/-- The variable `accumulator` of `L2Norm` and, for every goroutine, the value it has
read from it. -/
structure L2State where
  accumulator : GoFloat
  seen : ℕ → GoFloat

/-- One memory access of a goroutine of `L2Norm`: the goroutine of the element `i` reads
`accumulator`, or it writes to `accumulator` the sum of the value it has read and of
`element * element`, with `element := float64(signature[i])`. -/
def L2Access (env : FloatEnv) (signature : List ℤ) (s : L2State) : Access → L2State
  | .read i => ⟨s.accumulator, fun k => if k = i then s.accumulator else s.seen k⟩
  | .write i =>
    let element := intToFloat64 env (signature.getD i 0)
    ⟨fadd env.f64 (s.seen i) (fmul env.f64 element element), s.seen⟩

/-- An order in which the memory accesses of the `n` goroutines of `L2Norm` can happen:
every goroutine reads once and writes once, and reads before it writes. Nothing orders
the accesses of two goroutines, which hold no lock. -/
def isSchedule (n : ℕ) (schedule : List Access) : Bool :=
  schedule.length == 2 * n &&
    (List.range n).all (fun i =>
      schedule.count (.read i) == 1 && schedule.count (.write i) == 1 &&
        decide (schedule.indexOf (.read i) < schedule.indexOf (.write i)))

/-- The function `L2Norm`: one goroutine per element adds the square of the element to
the variable `accumulator`, in `float64`, and after the wait group the square root of
`accumulator` is narrowed to `float32`. The goroutines share `accumulator` and are not
synchronised, so the value depends on the order `schedule` of their memory accesses,
which the Go scheduler chooses. -/
def L2Norm (env : FloatEnv) (signature : List ℤ) (schedule : List Access) : GoFloat :=
  let final := schedule.foldl (L2Access env signature) ⟨.fin 0, fun _ => .fin 0⟩
  toFloat32 env (fsqrt env final.accumulator)

/-- The slice `differenceVector` of `signatureDifference`: `sigA[i] - sigB[i]`. -/
def differenceVector (sigA sigB : List ℤ) : List ℤ :=
  List.zipWith (fun x y => wrapInt (x - y)) sigA sigB

/-- The orders of the memory accesses in the three calls of `L2Norm` that one call of
`signatureDifference` makes: on `differenceVector`, on `sigA` and on `sigB`. -/
structure NormSchedules where
  difference : List Access
  sigA : List Access
  sigB : List Access

/-- The unexported function `signatureDifference`, one direction of the distance. -/
def signatureDifference (env : FloatEnv) (sigA sigB : List ℤ) (schedules : NormSchedules) :
    GoFloat :=
  if sigA.length ≠ sigB.length then .fin MaxFloat32
  else
    let differenceL2 :=
      toFloat64 (L2Norm env (differenceVector sigA sigB) schedules.difference)
    let sigAL2 := toFloat64 (L2Norm env sigA schedules.sigA)
    let sigBL2 := toFloat64 (L2Norm env sigB schedules.sigB)
    let delta := fdiv env.f64 differenceL2 (fadd env.f64 sigAL2 sigBL2)
    if delta.isNaN then .fin 0 else delta

/-- The exported function `SignatureDifference`: the mean of the two directions, each
computed by a call of `signatureDifference` with the schedules of its own. -/
def SignatureDifference (env : FloatEnv) (sigA sigB : List ℤ) (ab ba : NormSchedules) :
    GoFloat :=
  let ab := signatureDifference env sigA sigB ab
  let ba := signatureDifference env sigB sigA ba
  toFloat32 env (fdiv env.f64 (fadd env.f64 ab ba) (.fin 2))


/-! ## Vocabulary of the statements -/

/-- The sample of a grid at `(i, j)`, 0 outside the grid. -/
def px (a : Image) (i j : ℕ) : GoFloat := (getPx a i j).getD (.fin 0)

/-- Change of sign. -/
def GoFloat.neg : GoFloat → GoFloat
  | .fin q => .fin (-q)
  | .pinf => .ninf
  | .ninf => .pinf
  | .nan => .nan

/-- A value that is plus infinity or a finite number not below zero. -/
def GoFloat.IsNonNeg (x : GoFloat) : Prop := x = .pinf ∨ ∃ q, x = .fin q ∧ 0 ≤ q

/-- A value that is plus infinity or a finite number not below one. -/
def GoFloat.GeOne (x : GoFloat) : Prop := x = .pinf ∨ ∃ q, x = .fin q ∧ 1 ≤ q

/-- The facts about the rounding of a format that the proofs rely on: zero is kept,
the sign is kept, rounding commutes with the change of sign, a magnitude of at least
one stays at least one, and the overflow threshold is not negative. -/
structure Format.Lawful (f : Format) : Prop where
  rnd_zero : f.rnd 0 = 0
  rnd_neg : ∀ q, f.rnd (-q) = -f.rnd q
  rnd_nonneg : ∀ q, 0 ≤ q → 0 ≤ f.rnd q
  one_le_rnd : ∀ q, 1 ≤ q → 1 ≤ f.rnd q
  rnd_le_neg_one : ∀ q, q ≤ -1 → f.rnd q ≤ -1
  max_nonneg : ∀ m, f.maxFinite = some m → 0 ≤ m

/-- The value `y` is within half a unit `u` of the square root of `q`, the unit being at
most `y / 2 ^ 52` (53 significant bits). -/
def NearSqrt (q y : ℚ) : Prop :=
  ∃ u : ℚ, 0 < u ∧ 2 ^ 52 * u ≤ y ∧ (y - u / 2) ^ 2 ≤ q ∧ q ≤ (y + u / 2) ^ 2

/-- The facts about an arithmetic that the proofs rely on: both formats are lawful; the
square root keeps zero, is never negative, is at least one on an argument that is at
least one, and is within half a unit in the last place of the true root; `float64`
holds every integer of magnitude below `2 ^ 53` exactly; and a value of magnitude
below `2 ^ 127` does not overflow `float32`. -/
structure FloatEnv.Lawful (env : FloatEnv) : Prop where
  f32 : env.f32.Lawful
  f64 : env.f64.Lawful
  sqrt_zero : env.sqrt 0 = 0
  sqrt_nonneg : ∀ q, 0 ≤ env.sqrt q
  one_le_sqrt : ∀ q, 1 ≤ q → 1 ≤ env.sqrt q
  sqrt_near : ∀ q, 0 < q → NearSqrt q (env.sqrt q)
  int_exact : ∀ n : ℤ, |n| < 2 ^ 53 → env.f64.round (n : ℚ) = .fin (n : ℚ)
  narrow_finite : ∀ q : ℚ, |q| < 2 ^ 127 → ∃ y, env.f32.round q = .fin y

/-- The outcome `r` is a grid of `w` columns and `h` rows whose sample at every
`(i, j)` is `g i j`. -/
def SamplesAre (r : Outcome Image) (w h : ℕ) (g : ℕ → ℕ → GoFloat) : Prop :=
  ∃ out, r = .ok out ∧ IsRect out w h ∧ ∀ i j, i < w → j < h → getPx out i j = some (g i j)

/-! ## The scan lines of DivideImage -/

/-- Whether `b[k][j]` is zero for some `k` with `lo ≤ k < hi`. -/
def zeroIn (b : Image) (j lo hi : ℕ) : Bool :=
  (List.range hi).any (fun k => decide (lo ≤ k) && (px b k j).isZero)

/-- What `DivideImage` stores at `(i, j)`: 0 from the first zero denominator of the scan
line `j` on, the quotient before it. -/
def divideSample (env : FloatEnv) (a b : Image) (i j : ℕ) : GoFloat :=
  if zeroIn b j 0 (i + 1) then .fin 0 else fdiv env.f32 (px a i j) (px b i j)

/-! ## SignatureVector -/

/-- The comparison `x < y` of two floating-point values (false when one is NaN). -/
def flt : GoFloat → GoFloat → Bool
  | .fin x, .fin y => decide (x < y)
  | .nan, _ => false
  | _, .nan => false
  | _, .ninf => false
  | .ninf, _ => true
  | .pinf, _ => false
  | .fin _, .pinf => true

/-- The comparison `x <= y` of two floating-point values (false when one is NaN). -/
def fle : GoFloat → GoFloat → Bool
  | .fin x, .fin y => decide (x ≤ y)
  | .nan, _ => false
  | _, .nan => false
  | .ninf, _ => true
  | _, .pinf => true
  | .pinf, _ => false
  | .fin _, .ninf => false

/-- The expression `int(math.Floor(x))` on a finite `x` (the result on an infinity or NaN
depends on the platform; it is 0 here). -/
def floorToInt : GoFloat → ℤ
  | .fin q => ⌊q⌋
  | _ => 0

/-- Run `body` on the elements of a list in turn, threading the state. -/
def loopEach {ι σ : Type} (body : ι → σ → Option σ) : List ι → σ → Option σ
  | [], s => some s
  | k :: ks, s =>
    match body k s with
    | none => none
    | some s' => loopEach body ks s'

/-- The loop `for k := lo; k < hi; k++ { body }` over natural numbers. -/
def forFromTo {σ : Type} (lo hi : ℕ) (body : ℕ → σ → Option σ) (s : σ) : Option σ :=
  loopOver body (List.range' lo (hi - lo)) s

/-- The loop `for k := lo; k < hi; k++ { body }` over integers. -/
def forInts {σ : Type} (lo hi : ℤ) (body : ℤ → σ → Option σ) (s : σ) : Option σ :=
  loopEach body ((List.range (hi - lo).toNat).map (fun k => lo + (k : ℤ))) s

/-- The chain of comparisons that turns the difference of two region averages into an
element of the signature. -/
def classify (difference : GoFloat) : ℤ :=
  if flt difference (.fin (-2)) then -2
  else if fle (.fin (-2)) difference && flt difference (.fin 0) then -1
  else if flt (.fin 0) difference && fle difference (.fin 2) then 1
  else if flt (.fin 2) difference then 2
  else 0

/-- The function `SignatureVector`. The functions `SubImage` and `MeanStd` are not part
of the sources and are parameters. -/
def SignatureVector (env : FloatEnv) (SubImage : Image → ℤ → ℤ → ℤ → ℤ → Image)
    (MeanStd : Image → GoFloat × GoFloat) (image : Image) : Outcome (List ℤ) :=
  let (width, height) := Dimensions image
  let xDistance := floorToInt (fdiv env.f64 (intToFloat64 env (width : ℤ)) (.fin 11))
  let yDistance := floorToInt (fdiv env.f64 (intToFloat64 env (height : ℤ)) (.fin 11))
  match forFromTo 1 10 (fun j average =>
      forFromTo 1 10 (fun i average =>
        setPx average i j
          (MeanStd (SubImage image (xDistance * (i : ℤ) - 2) (yDistance * (j : ℤ) - 2) 5 5)).1)
        average) (make2D 11 11) with
  | none => .panic
  | some average =>
    match forFromTo 1 10 (fun aJ signature =>
        forFromTo 1 10 (fun aI signature =>
          forInts (-1) 2 (fun nJ signature =>
            forInts (-1) 2 (fun nI signature =>
              if !(nI == 0 && nJ == 0) then
                match getPx average aI aJ,
                  getPxInt average ((aI : ℤ) + nI) ((aJ : ℤ) + nJ) with
                | some x, some y => some (signature ++ [classify (fsub env.f32 x y)])
                | _, _ => none
              else some signature) signature) signature) signature) [] with
    | none => .panic
    | some signature => .ok signature

/-- The 11 by 11 matrix of region averages that `SignatureVector` builds: the mean of
the region `(i, j)` for `1 ≤ i, j ≤ 9` and 0 on the border. -/
def averageMatrix (env : FloatEnv) (SubImage : Image → ℤ → ℤ → ℤ → ℤ → Image)
    (MeanStd : Image → GoFloat × GoFloat) (image : Image) (i j : ℕ) : GoFloat :=
  if 1 ≤ i ∧ i ≤ 9 ∧ 1 ≤ j ∧ j ≤ 9 then
    (MeanStd (SubImage image
      (floorToInt (fdiv env.f64 (intToFloat64 env ((Dimensions image).1 : ℤ)) (.fin 11))
        * (i : ℤ) - 2)
      (floorToInt (fdiv env.f64 (intToFloat64 env ((Dimensions image).2 : ℤ)) (.fin 11))
        * (j : ℤ) - 2) 5 5)).1
  else .fin 0

/-- The rank of the neighbour offset `(nI, nJ)` in the order of the loops, `nJ` outer and
`nI` inner, the offset `(0, 0)` being skipped. -/
def neighbourRank (nJ nI : ℤ) : ℕ :=
  if (3 * (nJ + 1) + (nI + 1)).toNat < 4 then (3 * (nJ + 1) + (nI + 1)).toNat
  else (3 * (nJ + 1) + (nI + 1)).toNat - 1

/-- The neighbour offsets `(nI, nJ)` in the order of the loops. -/
def neighbours : List (ℤ × ℤ) :=
  [(-1, -1), (0, -1), (1, -1), (-1, 0), (1, 0), (-1, 1), (0, 1), (1, 1)]

/-- The eight elements the region `(aI, aJ)` adds to the signature, for a matrix `M` of
averages. -/
def regionSignature (env : FloatEnv) (M : ℕ → ℕ → GoFloat) (aI aJ : ℕ) : List ℤ :=
  neighbours.map (fun n =>
    classify (fsub env.f32 (M aI aJ) (M ((aI : ℤ) + n.1).toNat ((aJ : ℤ) + n.2).toNat)))

/-- The signature as a list: the eight elements of every region, the regions taken with
`aJ` outer and `aI` inner. -/
def signatureOf (env : FloatEnv) (M : ℕ → ℕ → GoFloat) : List ℤ :=
  (List.range' 1 9).flatMap (fun aJ =>
    (List.range' 1 9).flatMap (fun aI => regionSignature env M aI aJ))

/-! ## The samples of a convolution -/

/-- The image extended by zeros: the sample at `(x, y)` inside the `w` by `h` bounds and 0
outside. -/
def zeroExt (image : Image) (w h : ℕ) (x y : ℤ) : GoFloat :=
  if 0 ≤ x ∧ x < w ∧ 0 ≤ y ∧ y < h then px image x.toNat y.toNat else .fin 0

/-- The `float64` accumulator after the loops over `kJ` (outer) and `kI` (inner) that add
`term kI kJ` to it, starting from 0: the sum as `Convolution` and `NormaliseKernel`
accumulate it. -/
def dotSum (env : FloatEnv) (term : ℕ → ℕ → GoFloat) (kernelWidth kernelHeight : ℕ) :
    GoFloat :=
  (List.range kernelHeight).foldl (fun accumulator kJ =>
    (List.range kernelWidth).foldl (fun accumulator kI =>
      fadd env.f64 accumulator (term kI kJ)) accumulator) (.fin 0)

/-- The sample `Convolution` stores at `(i, j)`: the dot product of the kernel with the
window of the zero-extended image that starts `halfCeil kw` columns and `halfCeil kh`
rows before `(i, j)`, accumulated in `float64` and narrowed to `float32`. -/
def convSample (env : FloatEnv) (image kernel : Image) (w h kw kh i j : ℕ) : GoFloat :=
  toFloat32 env (dotSum env (fun kI kJ =>
    fmul env.f64
      (toFloat64 (zeroExt image w h ((i : ℤ) + (kI : ℤ) - (halfCeil kw : ℤ))
        ((j : ℤ) + (kJ : ℤ) - (halfCeil kh : ℤ))))
      (toFloat64 (px kernel kI kJ))) kw kh)

/-- The function `SepConvolution`: `Convolution` with `kernelA`, then `Convolution` with
`kernelB` on the result, neither normalised, then `Normalise` when asked to. -/
def SepConvolution (env : FloatEnv) (Normalise : Image → Image) (image kernelA kernelB : Image)
    (normalise : Bool) : Outcome Image :=
  match Convolution env Normalise image kernelA false with
  | .error msg => .error msg
  | .panic => .panic
  | .ok image =>
    match Convolution env Normalise image kernelB false with
    | .error msg => .error msg
    | .panic => .panic
    | .ok image => .ok (if normalise then Normalise image else image)

/-! ## kernels/Blurs.go -/

/-- The constant `2 * math.Pi` as a `float64`: Go evaluates the constant expression
exactly and rounds it when it meets `float64(sigma)`. -/
def twoPi : ℚ := 884279719003555 / 2 ^ 47

/-- The function `NormaliseKernel`: sum the coefficients in `float64`, row by row, take
`inverseSum := 1 / sum`, and overwrite every coefficient by
`float32(float64(kernel[i][j]) * inverseSum)`. The bounds `len(kernel[0])` and
`len(kernel)` make an empty kernel panic. -/
def NormaliseKernel (env : FloatEnv) (kernel : Image) : Outcome Image :=
  match kernel[0]? with
  | none => .panic
  | some first =>
    match forRange first.length (fun j sum =>
        forRange kernel.length (fun i sum =>
          match getPx kernel i j with
          | none => none
          | some v => some (fadd env.f64 sum (toFloat64 v))) sum) (.fin 0) with
    | none => .panic
    | some sum =>
      let inverseSum := fdiv env.f64 (.fin 1) sum
      match forRange first.length (fun j kernel =>
          forRange kernel.length (fun i kernel =>
            match getPx kernel i j with
            | none => none
            | some v =>
              setPx kernel i j (toFloat32 env (fmul env.f64 (toFloat64 v) inverseSum)))
            kernel) kernel with
      | none => .panic
      | some kernel => .ok kernel

/-- The function `Gaussian`. The function `powE` is `math.Pow(math.E, ·)`, of the Go
library; a negative `size` makes `make` panic. -/
def Gaussian (env : FloatEnv) (powE : GoFloat → GoFloat) (size : ℤ) (sigma : GoFloat) :
    Outcome Image :=
  if size < 0 then .panic else
    match pixelLoop size.toNat size.toNat (fun i j =>
        let a := fdiv env.f64 (.fin 1)
          (fmul env.f64 (fmul env.f64 (.fin twoPi) (toFloat64 sigma)) (toFloat64 sigma))
        let b := powE (fmul env.f64 (.fin (-1))
          (fdiv env.f64
            (fadd env.f64
              (fmul env.f64 (intToFloat64 env (i : ℤ)) (intToFloat64 env (i : ℤ)))
              (fmul env.f64 (intToFloat64 env (j : ℤ)) (intToFloat64 env (j : ℤ))))
            (fmul env.f64 (fmul env.f64 (.fin 2) (toFloat64 sigma)) (toFloat64 sigma))))
        some (toFloat32 env (fmul env.f64 a b))) with
    | none => .panic
    | some kernel => NormaliseKernel env kernel

/-- A stand-in for `math.Pow(math.E, ·)`, of the Go library, where a statement needs a
concrete function: like it, it is 1 at 0, positive on every finite argument, 0 at minus
infinity, and it keeps plus infinity and NaN. -/
def powEStandIn (env : FloatEnv) : GoFloat → GoFloat
  | .fin q => env.f64.round (if q ≤ 0 then 1 / (1 - q) else 1 + q)
  | .pinf => .pinf
  | .ninf => .fin 0
  | .nan => .nan

/-- The number a finite value stands for (0 for the infinities and NaN). -/
def GoFloat.toRat : GoFloat → ℚ
  | .fin q => q
  | _ => 0

/-- The exact sum of `t i j` over the `w` by `h` grid. -/
def gridSum (t : ℕ → ℕ → ℚ) (w h : ℕ) : ℚ :=
  ((List.range h).map (fun j => ((List.range w).map (fun i => t i j)).sum)).sum

/-- The sample `NormaliseKernel` stores at `(i, j)` of a `w` by `h` kernel. -/
def normalisedSample (env : FloatEnv) (kernel : Image) (w h i j : ℕ) : GoFloat :=
  toFloat32 env (fmul env.f64 (toFloat64 (px kernel i j))
    (fdiv env.f64 (.fin 1) (dotSum env (fun i j => toFloat64 (px kernel i j)) w h)))

/-! ## kernels/Morphology.go and Morphology.go -/

/-- The function `BinaryErosionDilationStructuringElement`: every column `j` is made
and its `size` elements are set to 1.0 in turn; `none` is the panic of `make` on a
negative size. -/
def BinaryErosionDilationStructuringElement (size : ℤ) : Option Image :=
  if size < 0 then none else
    forRange size.toNat (fun j structuringElement =>
      forRange size.toNat (fun i structuringElement =>
        setPx structuringElement j i (.fin 1)) structuringElement)
      (make2D size.toNat size.toNat)

/-- The function `BinaryErosion`: the sums `Convolution` returns for the structuring
element, not normalised, cut by `SingleThreshold` at
`float32(size) * float32(size) * 0.75`. -/
def BinaryErosion (env : FloatEnv) (SingleThreshold : Image → GoFloat → Image)
    (Normalise : Image → Image) (image : Image) (size : ℤ) : Outcome Image :=
  match BinaryErosionDilationStructuringElement size with
  | none => .panic
  | some structuringElement =>
    match Convolution env Normalise image structuringElement false with
    | .error msg => .error msg
    | .panic => .panic
    | .ok summed =>
      .ok (SingleThreshold summed
        (fmul env.f32 (fmul env.f32 (env.f32.round (size : ℚ)) (env.f32.round (size : ℚ)))
          (.fin (3 / 4))))

/-- The function `BinaryDilation`: the sums `Convolution` returns for the structuring
element, normalised. -/
def BinaryDilation (env : FloatEnv) (Normalise : Image → Image) (image : Image) (size : ℤ) :
    Outcome Image :=
  match BinaryErosionDilationStructuringElement size with
  | none => .panic
  | some structuringElement => Convolution env Normalise image structuringElement true

/-- The function `BinaryOpening`: erode, then dilate. -/
def BinaryOpening (env : FloatEnv) (SingleThreshold : Image → GoFloat → Image)
    (Normalise : Image → Image) (image : Image) (size : ℤ) : Outcome Image :=
  match BinaryErosion env SingleThreshold Normalise image size with
  | .error msg => .error msg
  | .panic => .panic
  | .ok image => BinaryDilation env Normalise image size

/-- Modelled from the spec: `SingleThreshold(grid, t)` binarises by one cut point; the
sample is 1 where the sample of the grid is at least `t` and 0 elsewhere. -/
def SingleThreshold (image : Image) (t : GoFloat) : Image :=
  image.map (fun column => column.map (fun v => if fle t v then .fin 1 else .fin 0))

/-- Modelled from the spec: `Normalise(grid)` is the affine rescale into `[0, 1]`,
`(v - min) / (max - min)` in `float32`, with `min` and `max` the least and the greatest
sample of the grid. A grid whose samples are all equal has no range to rescale: the
spec asks for a finite, defined grid of equal samples there, which is the all-zero grid
of the same shape. -/
def Normalise (env : FloatEnv) (image : Image) : Image :=
  match image.flatten with
  | [] => image
  | first :: rest =>
    let min := rest.foldl (fun m v => if flt v m then v else m) first
    let max := rest.foldl (fun m v => if flt m v then v else m) first
    if (fsub env.f32 max min).isZero then
      image.map (fun column => column.map (fun _ => .fin 0))
    else
      image.map (fun column => column.map (fun v =>
        fdiv env.f32 (fsub env.f32 v min) (fsub env.f32 max min)))


/-- What the spec asks of `SingleThreshold`: it keeps the shape of the grid, its samples
are 0 or 1, and a sample is 1 only where the sample of the grid is at least the cut
point. -/
structure BinarisesAt (threshold : Image → GoFloat → Image) : Prop where
  shape : ∀ g t w h, IsRect g w h → IsRect (threshold g t) w h
  values : ∀ g t i j, px (threshold g t) i j = .fin 0 ∨ px (threshold g t) i j = .fin 1
  on_only_above : ∀ g t i j, px (threshold g t) i j = .fin 1 → fle t (px g i j) = true

/-- The plain sum of the samples of the zero-extended image in the `size` by `size`
window whose first column is `x` and whose first row is `y`. -/
def windowSum (image : Image) (w h size : ℕ) (x y : ℤ) : ℚ :=
  gridSum (fun kI kJ => (zeroExt image w h (x + (kI : ℤ)) (y + (kJ : ℤ))).toRat) size size

/-- The number of samples equal to 1 in that window. -/
def onCount (image : Image) (w h size : ℕ) (x y : ℤ) : ℕ :=
  ((List.range size).map (fun (kJ : ℕ) => ((List.range size).map (fun (kI : ℕ) =>
    if zeroExt image w h (x + (kI : ℤ)) (y + (kJ : ℤ)) = .fin 1 then 1 else 0)).sum)).sum

/-- The arithmetic does not round the numbers an erosion with a `size` by `size`
structuring element of a binary image meets: the integers from 0 to `size²` in both
formats, and the cut point `0.75 * size²` in `float32`. -/
def CountsExactly (env : FloatEnv) (size : ℕ) : Prop :=
  (∀ m : ℕ, m ≤ size * size →
      env.f64.round (m : ℚ) = .fin (m : ℚ) ∧ env.f32.round (m : ℚ) = .fin (m : ℚ))
    ∧ env.f32.round ((size : ℚ) * (size : ℚ) * (3 / 4))
        = .fin ((size : ℚ) * (size : ℚ) * (3 / 4))

/-! ## The goroutines -/

/-- A memory location a goroutine writes: the variable `accumulator` of `L2Norm`, which
the goroutines capture, or the sample `outputImage[i][j]` of a grid operator. -/
inductive Loc where
  | accumulator
  | sample (i j : ℕ)
  deriving DecidableEq, Repr

/-- The locations the goroutine that `L2Norm` starts for the element `i` writes: its
statement `accumulator += element * element` assigns the variable of the enclosing
function, whatever `i` is. -/
def L2NormWrites (_i : ℕ) : List Loc := [.accumulator]

/-- The locations the goroutine that a grid operator starts for the row `j` writes:
`outputImage[i][j]` for every column `i` of the image. -/
def rowWrites (imageWidth j : ℕ) : List Loc :=
  (List.range imageWidth).map (fun i => .sample i j)

/-! ## GradientMagnitude -/

/-- The value of `grid, _ := f(...)`: the grid, and `nil` when `f` returns an error. -/
def dropError : Outcome Image → Outcome Image
  | .error _ => .ok []
  | r => r

/-- The order of the events of the second stage of `GradientMagnitude`. The goroutine
that squares `a` and the one that squares `b` read the variables `a` and `b` of the
enclosing function when they run, and the function assigns the first grid it receives
from `ch2` to `a`. -/
inductive SquaresOrder where
  /-- The square of `a` is received first. -/
  | aFirst
  /-- The square of `b` is received first, after the other goroutine has read `a`. -/
  | bFirst
  /-- The square of `b` is received first and assigned to `a` before the other goroutine
  reads `a`. -/
  | bFirstBeforeRead
  deriving DecidableEq, Repr

/-- The function `GradientMagnitude`. The four kernels are the package variables
`kernels.SepSobelXPt1`, `SepSobelXPt2`, `SepSobelYPt1` and `SepSobelYPt2`; `xFirst`
says that the response to the first pair is the one received first from `ch1`, and
`order` is the order of the events of the second stage. A goroutine that panics stops
the program. -/
def GradientMagnitude (env : FloatEnv) (Normalise : Image → Image) (image : Image)
    (SepSobelXPt1 SepSobelXPt2 SepSobelYPt1 SepSobelYPt2 : Image) (xFirst : Bool)
    (order : SquaresOrder) : Outcome Image :=
  match SepConvolution env Normalise image SepSobelXPt1 SepSobelXPt2 true,
      SepConvolution env Normalise image SepSobelYPt1 SepSobelYPt2 true with
  | .ok gx, .ok gy =>
    let a := if xFirst then gx else gy
    let b := if xFirst then gy else gx
    let received : Outcome (Image × Image) :=
      match order with
      | .aFirst =>
        match dropError (MultiplyImage env Normalise a a false),
            dropError (MultiplyImage env Normalise b b false) with
        | .ok aa, .ok bb => .ok (aa, bb)
        | _, _ => .panic
      | .bFirst =>
        match dropError (MultiplyImage env Normalise a a false),
            dropError (MultiplyImage env Normalise b b false) with
        | .ok aa, .ok bb => .ok (bb, aa)
        | _, _ => .panic
      | .bFirstBeforeRead =>
        match dropError (MultiplyImage env Normalise b b false) with
        | .ok bb =>
          match dropError (MultiplyImage env Normalise bb bb false) with
          | .ok bbbb => .ok (bb, bbbb)
          | _ => .panic
        | _ => .panic
    match received with
    | .ok (a, b) =>
      match dropError (AddImage env Normalise a b false) with
      | .ok a =>
        match Sqrt env Normalise a false with
        | .ok b => .ok (Normalise b)
        | _ => .panic
      | _ => .panic
    | _ => .panic
  | _, _ => .panic

/-- The gradient magnitude in the words of the spec: the two Sobel responses, each
normalised, are squared, the squares are added, the root of the sum is taken and the
result is normalised. -/
def gradientMagnitudeSpec (env : FloatEnv) (Normalise : Image → Image) (image : Image)
    (SepSobelXPt1 SepSobelXPt2 SepSobelYPt1 SepSobelYPt2 : Image) : Outcome Image :=
  match SepConvolution env Normalise image SepSobelXPt1 SepSobelXPt2 true,
      SepConvolution env Normalise image SepSobelYPt1 SepSobelYPt2 true with
  | .ok gx, .ok gy =>
    match dropError (MultiplyImage env Normalise gx gx false),
        dropError (MultiplyImage env Normalise gy gy false) with
    | .ok xx, .ok yy =>
      match dropError (AddImage env Normalise xx yy false) with
      | .ok sum =>
        match Sqrt env Normalise sum false with
        | .ok root => .ok (Normalise root)
        | _ => .panic
      | _ => .panic
    | _, _ => .panic
  | _, _ => .panic

/-- The sample at `(i, j)` of the grid a function returns, if it returns one. -/
def sampleOf (r : Outcome Image) (i j : ℕ) : Option GoFloat :=
  match r with
  | .ok g => getPx g i j
  | _ => none

/-! # Theorems -/

/-! ## The binary formats are lawful -/

theorem natLog2Aux_spec : ∀ (fuel n : ℕ), 1 ≤ n → n ≤ fuel →
    2 ^ natLog2Aux fuel n ≤ n ∧ n < 2 ^ (natLog2Aux fuel n + 1) := by
  intro fuel
  induction fuel with
  | zero => intro n h1 h2; omega
  | succ fuel ih =>
    intro n h1 h2
    unfold natLog2Aux
    by_cases hn : n < 2
    · simp only [hn, if_true]
      constructor <;> simp <;> omega
    · simp only [hn, if_false]
      obtain ⟨ih1, ih2⟩ := ih (n / 2) (by omega) (by omega)
      constructor
      · rw [pow_succ]; omega
      · rw [pow_succ] at ih2 ⊢; omega

theorem natLog2_spec (n : ℕ) (hn : 1 ≤ n) : 2 ^ natLog2 n ≤ n ∧ n < 2 ^ (natLog2 n + 1) :=
  natLog2Aux_spec n n hn (le_refl n)

theorem pow2_eq (z : ℤ) : pow2 z = (2 : ℚ) ^ z := by
  unfold pow2
  by_cases hz : 0 ≤ z
  · simp only [hz, if_true]
    obtain ⟨n, rfl⟩ := Int.eq_ofNat_of_zero_le hz
    simp
  · simp only [hz, if_false]
    have hz' : 0 ≤ -z := by omega
    obtain ⟨n, hn⟩ := Int.eq_ofNat_of_zero_le hz'
    have : z = -(n : ℤ) := by omega
    subst this
    simp

theorem pow2_pos (z : ℤ) : 0 < pow2 z := by
  rw [pow2_eq]; positivity

theorem pow2_add (a b : ℤ) : pow2 (a + b) = pow2 a * pow2 b := by
  simp only [pow2_eq]
  exact zpow_add₀ (by norm_num) a b

theorem pow2_zero : pow2 0 = 1 := by
  simp [pow2]

theorem pow2_neg_mul (a : ℤ) : pow2 (-a) * pow2 a = 1 := by
  rw [← pow2_add, neg_add_cancel, pow2_zero]

theorem pow2_mono (a b : ℤ) (h : a ≤ b) : pow2 a ≤ pow2 b := by
  simp only [pow2_eq]
  exact zpow_le_zpow_right₀ (by norm_num) h

theorem pow2_natCast (n : ℕ) : pow2 (n : ℤ) = (((2 : ℤ) ^ n : ℤ) : ℚ) := by
  rw [pow2_eq]; simp

theorem abs_eq_natAbs_div (q : ℚ) : |q| = (q.num.natAbs : ℚ) / (q.den : ℚ) := by
  conv_lhs => rw [← Rat.num_div_den q]
  rw [abs_div, Nat.cast_natAbs, Int.cast_abs]
  simp

theorem ilog2_spec (q : ℚ) (hq : q ≠ 0) : pow2 (ilog2 q) ≤ |q| ∧ |q| < pow2 (ilog2 q + 1) := by
  have hN : 1 ≤ q.num.natAbs := by
    have : q.num ≠ 0 := Rat.num_ne_zero.mpr hq
    omega
  have hD : 1 ≤ q.den := q.den_pos
  obtain ⟨a1, a2⟩ := natLog2_spec _ hN
  obtain ⟨b1, b2⟩ := natLog2_spec _ hD
  have hDq : (0 : ℚ) < (q.den : ℚ) := by exact_mod_cast hD
  have a1' : pow2 (natLog2 q.num.natAbs : ℤ) ≤ (q.num.natAbs : ℚ) := by
    rw [pow2_eq]; simp only [zpow_natCast]; exact_mod_cast a1
  have a2' : (q.num.natAbs : ℚ) < pow2 ((natLog2 q.num.natAbs : ℤ) + 1) := by
    rw [pow2_eq]
    have : ((natLog2 q.num.natAbs : ℤ) + 1) = ((natLog2 q.num.natAbs + 1 : ℕ) : ℤ) := by simp
    rw [this, zpow_natCast]; exact_mod_cast a2
  have b1' : pow2 (natLog2 q.den : ℤ) ≤ (q.den : ℚ) := by
    rw [pow2_eq]; simp only [zpow_natCast]; exact_mod_cast b1
  have b2' : (q.den : ℚ) < pow2 ((natLog2 q.den : ℤ) + 1) := by
    rw [pow2_eq]
    have : ((natLog2 q.den : ℤ) + 1) = ((natLog2 q.den + 1 : ℕ) : ℤ) := by simp
    rw [this, zpow_natCast]; exact_mod_cast b2
  have habs := abs_eq_natAbs_div q
  unfold ilog2
  simp only
  by_cases hc : pow2 ((natLog2 q.num.natAbs : ℤ) - (natLog2 q.den : ℤ)) ≤ |q|
  · simp only [hc, if_true, true_and]
    rw [habs, div_lt_iff₀ hDq]
    have e : (natLog2 q.num.natAbs : ℤ) - (natLog2 q.den : ℤ) + 1
        = ((natLog2 q.num.natAbs : ℤ) + 1) + (-(natLog2 q.den : ℤ)) := by ring
    rw [e, pow2_add]
    have e2 : pow2 (-(natLog2 q.den : ℤ)) * pow2 (natLog2 q.den : ℤ) = 1 :=
      pow2_neg_mul _
    have hp := pow2_pos (-(natLog2 q.den : ℤ))
    have hp2 := pow2_pos ((natLog2 q.num.natAbs : ℤ) + 1)
    calc (q.num.natAbs : ℚ) < pow2 ((natLog2 q.num.natAbs : ℤ) + 1) := a2'
      _ = pow2 ((natLog2 q.num.natAbs : ℤ) + 1)
            * (pow2 (-(natLog2 q.den : ℤ)) * pow2 (natLog2 q.den : ℤ)) := by rw [e2, mul_one]
      _ ≤ pow2 ((natLog2 q.num.natAbs : ℤ) + 1) * pow2 (-(natLog2 q.den : ℤ)) * (q.den : ℚ) := by
          rw [mul_assoc]
          apply mul_le_mul_of_nonneg_left _ hp2.le
          exact mul_le_mul_of_nonneg_left b1' hp.le
  · simp only [hc, if_false]
    have hc' := not_le.mp hc
    constructor
    · rw [habs, le_div_iff₀ hDq]
      have e : (natLog2 q.num.natAbs : ℤ) - (natLog2 q.den : ℤ) - 1
          = (natLog2 q.num.natAbs : ℤ) + (-((natLog2 q.den : ℤ) + 1)) := by ring
      rw [e, pow2_add]
      have e2 : pow2 (-((natLog2 q.den : ℤ) + 1)) * pow2 ((natLog2 q.den : ℤ) + 1) = 1 :=
        pow2_neg_mul _
      have hp := pow2_pos (-((natLog2 q.den : ℤ) + 1))
      have hp2 := pow2_pos (natLog2 q.num.natAbs : ℤ)
      calc pow2 (natLog2 q.num.natAbs : ℤ) * pow2 (-((natLog2 q.den : ℤ) + 1)) * (q.den : ℚ)
          ≤ pow2 (natLog2 q.num.natAbs : ℤ) * pow2 (-((natLog2 q.den : ℤ) + 1))
              * pow2 ((natLog2 q.den : ℤ) + 1) := by
            apply mul_le_mul_of_nonneg_left b2'.le
            exact (mul_pos hp2 hp).le
        _ = pow2 (natLog2 q.num.natAbs : ℤ) := by rw [mul_assoc, e2, mul_one]
        _ ≤ (q.num.natAbs : ℚ) := a1'
    · have e : (natLog2 q.num.natAbs : ℤ) - (natLog2 q.den : ℤ) - 1 + 1
          = (natLog2 q.num.natAbs : ℤ) - (natLog2 q.den : ℤ) := by ring
      rw [e]
      exact hc'

theorem ilog2_nonneg (q : ℚ) (hq : 1 ≤ |q|) : 0 ≤ ilog2 q := by
  have hq0 : q ≠ 0 := by
    intro h; rw [h] at hq; simp at hq; linarith
  obtain ⟨_, h2⟩ := ilog2_spec q hq0
  by_contra hneg
  have h3 : ilog2 q + 1 ≤ 0 := by omega
  have h4 := pow2_mono _ _ h3
  have h5 := pow2_zero
  linarith

theorem le_halfEven (x : ℚ) (N : ℤ) (h : (N : ℚ) ≤ x) : N ≤ halfEven x := by
  have hf : N ≤ ⌊x⌋ := Int.le_floor.mpr h
  unfold halfEven
  simp only
  split_ifs <;> omega

theorem halfEven_le (x : ℚ) (N : ℤ) (h : x ≤ (N : ℚ)) : halfEven x ≤ N := by
  have hf : ⌊x⌋ ≤ N := by
    have h' := (Int.floor_le x).trans h
    exact_mod_cast h'
  unfold halfEven
  simp only
  by_cases hd : x - ⌊x⌋ < 1 / 2
  · simp only [hd, if_true]; exact hf
  · have hne : (⌊x⌋ : ℚ) < x := by linarith
    have hlt : (⌊x⌋ : ℚ) < (N : ℚ) := lt_of_lt_of_le hne h
    have hlt' : ⌊x⌋ < N := by exact_mod_cast hlt
    simp only [hd, if_false]
    split_ifs <;> omega

theorem pow2_pred_eq (p : ℕ) (hp : 1 ≤ p) : pow2 ((p : ℤ) - 1) = (((2 : ℤ) ^ (p - 1) : ℤ) : ℚ) := by
  have e : (p : ℤ) - 1 = ((p - 1 : ℕ) : ℤ) := by omega
  rw [e, pow2_natCast]

theorem roundNE_zero (p : ℕ) (emin : ℤ) : roundNE p emin 0 = 0 := by
  simp [roundNE]

theorem roundNE_nonneg (p : ℕ) (emin : ℤ) (q : ℚ) (hq : 0 ≤ q) : 0 ≤ roundNE p emin q := by
  unfold roundNE
  by_cases h0 : q = 0
  · simp [h0]
  · simp only [h0, if_false]
    have hu := pow2_pos (max (ilog2 q) emin - ((p : ℤ) - 1))
    have hx : ((0 : ℤ) : ℚ) ≤ q / pow2 (max (ilog2 q) emin - ((p : ℤ) - 1)) := by
      simp only [Int.cast_zero]
      exact div_nonneg hq hu.le
    have hh := le_halfEven _ 0 hx
    have : (0 : ℚ) ≤ (halfEven (q / pow2 (max (ilog2 q) emin - ((p : ℤ) - 1))) : ℚ) := by
      exact_mod_cast hh
    exact mul_nonneg this hu.le

theorem roundNE_one_le (p : ℕ) (emin : ℤ) (hp : 1 ≤ p) (hemin : emin ≤ 0) (q : ℚ)
    (hq : 1 ≤ q) : 1 ≤ roundNE p emin q := by
  have h0 : q ≠ 0 := by linarith
  have habs : |q| = q := abs_of_nonneg (by linarith)
  have he := ilog2_nonneg q (by rw [habs]; exact hq)
  obtain ⟨hlo, _⟩ := ilog2_spec q h0
  rw [habs] at hlo
  unfold roundNE
  simp only [h0, if_false]
  have hmax : max (ilog2 q) emin = ilog2 q := max_eq_left (by omega)
  rw [hmax]
  have hu := pow2_pos (ilog2 q - ((p : ℤ) - 1))
  have hsplit : pow2 (ilog2 q) = pow2 ((p : ℤ) - 1) * pow2 (ilog2 q - ((p : ℤ) - 1)) := by
    rw [← pow2_add]; congr 1; ring
  have hK := pow2_pred_eq p hp
  have hx : (((2 : ℤ) ^ (p - 1) : ℤ) : ℚ) ≤ q / pow2 (ilog2 q - ((p : ℤ) - 1)) := by
    rw [le_div_iff₀ hu, ← hK, ← hsplit]
    exact hlo
  have hh := le_halfEven _ _ hx
  have hh' : (((2 : ℤ) ^ (p - 1) : ℤ) : ℚ)
      ≤ (halfEven (q / pow2 (ilog2 q - ((p : ℤ) - 1))) : ℚ) := by exact_mod_cast hh
  have h1 : pow2 0 ≤ pow2 (ilog2 q) := pow2_mono _ _ he
  rw [pow2_zero] at h1
  calc (1 : ℚ) ≤ pow2 (ilog2 q) := h1
    _ = (((2 : ℤ) ^ (p - 1) : ℤ) : ℚ) * pow2 (ilog2 q - ((p : ℤ) - 1)) := by rw [hsplit, hK]
    _ ≤ _ := mul_le_mul_of_nonneg_right hh' hu.le

theorem roundNE_le_neg_one (p : ℕ) (emin : ℤ) (hp : 1 ≤ p) (hemin : emin ≤ 0) (q : ℚ)
    (hq : q ≤ -1) : roundNE p emin q ≤ -1 := by
  have h0 : q ≠ 0 := by linarith
  have habs : |q| = -q := abs_of_nonpos (by linarith)
  have he := ilog2_nonneg q (by rw [habs]; linarith)
  obtain ⟨hlo, _⟩ := ilog2_spec q h0
  rw [habs] at hlo
  unfold roundNE
  simp only [h0, if_false]
  have hmax : max (ilog2 q) emin = ilog2 q := max_eq_left (by omega)
  rw [hmax]
  have hu := pow2_pos (ilog2 q - ((p : ℤ) - 1))
  have hsplit : pow2 (ilog2 q) = pow2 ((p : ℤ) - 1) * pow2 (ilog2 q - ((p : ℤ) - 1)) := by
    rw [← pow2_add]; congr 1; ring
  have hK := pow2_pred_eq p hp
  have hx : q / pow2 (ilog2 q - ((p : ℤ) - 1)) ≤ ((-((2 : ℤ) ^ (p - 1)) : ℤ) : ℚ) := by
    rw [div_le_iff₀ hu]
    push_cast
    rw [neg_mul]
    have := hK ▸ hsplit
    push_cast at this
    rw [← this]
    linarith
  have hh := halfEven_le _ _ hx
  have hh' : (halfEven (q / pow2 (ilog2 q - ((p : ℤ) - 1))) : ℚ)
      ≤ ((-((2 : ℤ) ^ (p - 1)) : ℤ) : ℚ) := by exact_mod_cast hh
  have h1 : pow2 0 ≤ pow2 (ilog2 q) := pow2_mono _ _ he
  rw [pow2_zero] at h1
  calc (halfEven (q / pow2 (ilog2 q - ((p : ℤ) - 1))) : ℚ) * pow2 (ilog2 q - ((p : ℤ) - 1))
      ≤ ((-((2 : ℤ) ^ (p - 1)) : ℤ) : ℚ) * pow2 (ilog2 q - ((p : ℤ) - 1)) :=
        mul_le_mul_of_nonneg_right hh' hu.le
    _ = -pow2 (ilog2 q) := by rw [hsplit, hK]; push_cast; ring
    _ ≤ -1 := by linarith

theorem isqrtAux_lt : ∀ (k n r : ℕ), n < (r + 2 ^ k) * (r + 2 ^ k) →
    n < (isqrtAux k n r + 1) * (isqrtAux k n r + 1) := by
  intro k
  induction k with
  | zero => intro n r h; simpa [isqrtAux] using h
  | succ k ih =>
    intro n r h
    unfold isqrtAux
    by_cases hc : (r + 2 ^ k) * (r + 2 ^ k) ≤ n
    · simp only [hc, if_true]
      apply ih
      have e : r + 2 ^ k + 2 ^ k = r + 2 ^ (k + 1) := by rw [pow_succ]; omega
      rw [e]
      exact h
    · simp only [hc, if_false]
      exact ih n r (not_le.mp hc)

theorem lt_isqrt_succ_sq (n : ℕ) : n < (isqrt n + 1) * (isqrt n + 1) := by
  unfold isqrt
  apply isqrtAux_lt
  rw [Nat.zero_add, ← pow_add]
  by_cases hn : n = 0
  · subst hn; positivity
  · obtain ⟨_, h2⟩ := natLog2_spec n (by omega)
    refine lt_of_lt_of_le h2 (Nat.pow_le_pow_right (by norm_num) ?_)
    omega

theorem le_isqrt (n m : ℕ) (h : m * m ≤ n) : m ≤ isqrt n := by
  by_contra hlt
  have h1 : isqrt n + 1 ≤ m := by omega
  have h2 := Nat.mul_le_mul h1 h1
  have h3 := lt_isqrt_succ_sq n
  omega

theorem sqrtNE_nonneg (p : ℕ) (q : ℚ) : 0 ≤ sqrtNE p q := by
  unfold sqrtNE
  by_cases h0 : q ≤ 0
  · simp [h0]
  · simp only [h0, if_false]
    have hu := pow2_pos ((ilog2 q - ilog2 q % 2) / 2 - ((p : ℤ) - 1))
    split_ifs
    · exact mul_nonneg (Nat.cast_nonneg _) hu.le
    · exact mul_nonneg (Nat.cast_nonneg _) hu.le

theorem sqrtNE_one_le (p : ℕ) (hp : 1 ≤ p) (q : ℚ) (hq : 1 ≤ q) : 1 ≤ sqrtNE p q := by
  have h0 : q ≠ 0 := by linarith
  have hpos : ¬ q ≤ 0 := by linarith
  have habs : |q| = q := abs_of_nonneg (by linarith)
  have hl := ilog2_nonneg q (by rw [habs]; exact hq)
  obtain ⟨hlo, _⟩ := ilog2_spec q h0
  rw [habs] at hlo
  unfold sqrtNE
  simp only [hpos, if_false]
  generalize he : (ilog2 q - ilog2 q % 2) / 2 = e
  have he0 : 0 ≤ e := by omega
  have he2 : e + e ≤ ilog2 q := by omega
  have hu := pow2_pos (e - ((p : ℤ) - 1))
  have hK := pow2_pred_eq p hp
  have hsplit : pow2 e = pow2 ((p : ℤ) - 1) * pow2 (e - ((p : ℤ) - 1)) := by
    rw [← pow2_add]; congr 1; ring
  have hKK : (((2 ^ (p - 1) * 2 ^ (p - 1) : ℕ) : ℤ) : ℚ)
      ≤ q / (pow2 (e - ((p : ℤ) - 1)) * pow2 (e - ((p : ℤ) - 1))) := by
    rw [le_div_iff₀ (mul_pos hu hu)]
    have h1 : pow2 (e + e) ≤ q := le_trans (pow2_mono _ _ he2) hlo
    rw [pow2_add, hsplit, hK] at h1
    push_cast at h1 ⊢
    linarith
  have hfl := Int.le_floor.mpr hKK
  have hnat : 2 ^ (p - 1) * 2 ^ (p - 1)
      ≤ ⌊q / (pow2 (e - ((p : ℤ) - 1)) * pow2 (e - ((p : ℤ) - 1)))⌋.toNat := by
    omega
  have hn := le_isqrt _ _ hnat
  have hnq : (((2 : ℤ) ^ (p - 1) : ℤ) : ℚ)
      ≤ ((isqrt ⌊q / (pow2 (e - ((p : ℤ) - 1)) * pow2 (e - ((p : ℤ) - 1)))⌋.toNat : ℕ) : ℚ) := by
    have : ((2 ^ (p - 1) : ℕ) : ℚ) ≤ _ := Nat.cast_le.mpr hn
    push_cast at this ⊢
    exact this
  have h1 : (1 : ℚ) ≤ pow2 e := by
    have := pow2_mono _ _ he0
    rwa [pow2_zero] at this
  have hbase : (1 : ℚ) ≤ ((isqrt ⌊q / (pow2 (e - ((p : ℤ) - 1))
      * pow2 (e - ((p : ℤ) - 1)))⌋.toNat : ℕ) : ℚ) * pow2 (e - ((p : ℤ) - 1)) := by
    calc (1 : ℚ) ≤ pow2 e := h1
      _ = (((2 : ℤ) ^ (p - 1) : ℤ) : ℚ) * pow2 (e - ((p : ℤ) - 1)) := by rw [hsplit, hK]
      _ ≤ _ := mul_le_mul_of_nonneg_right hnq hu.le
  split_ifs
  · push_cast
    nlinarith
  · exact hbase

theorem isqrtAux_sq_le : ∀ (k n r : ℕ), r * r ≤ n → isqrtAux k n r * isqrtAux k n r ≤ n := by
  intro k
  induction k with
  | zero => intro n r h; simpa [isqrtAux] using h
  | succ k ih =>
    intro n r h
    unfold isqrtAux
    by_cases hc : (r + 2 ^ k) * (r + 2 ^ k) ≤ n
    · simp only [hc, if_true]
      exact ih n _ hc
    · simp only [hc, if_false]
      exact ih n r h

theorem isqrt_sq_le (n : ℕ) : isqrt n * isqrt n ≤ n :=
  isqrtAux_sq_le _ n 0 (by simp)

/-- The square root of the binary formats is correctly rounded: the value returned for
`q > 0` is a multiple `y` of a unit `u` with at least `p` significant bits, and the true
root lies within half a unit of it. -/
theorem sqrtNE_spec (p : ℕ) (hp : 1 ≤ p) (q : ℚ) (hq : 0 < q) :
    ∃ u : ℚ, 0 < u ∧ (((2 : ℤ) ^ (p - 1) : ℤ) : ℚ) * u ≤ sqrtNE p q ∧
      (sqrtNE p q - u / 2) ^ 2 ≤ q ∧ q ≤ (sqrtNE p q + u / 2) ^ 2 := by
  have h0 : q ≠ 0 := ne_of_gt hq
  have hpos : ¬ q ≤ 0 := not_le.mpr hq
  have habs : |q| = q := abs_of_pos hq
  obtain ⟨hlo, _⟩ := ilog2_spec q h0
  rw [habs] at hlo
  unfold sqrtNE
  simp only [hpos, if_false]
  generalize he : (ilog2 q - ilog2 q % 2) / 2 = e
  have he2 : e + e ≤ ilog2 q := by omega
  generalize hU : pow2 (e - ((p : ℤ) - 1)) = U
  have hu : 0 < U := by rw [← hU]; exact pow2_pos _
  have hK := pow2_pred_eq p hp
  have hsplit : pow2 e = (((2 : ℤ) ^ (p - 1) : ℤ) : ℚ) * U := by
    rw [← hU, ← hK, ← pow2_add]; congr 1; ring
  generalize hT : q / (U * U) = t
  have hqt : q = t * (U * U) := by
    rw [← hT, div_mul_cancel₀]
    exact ne_of_gt (mul_pos hu hu)
  have ht0 : 0 < t := by rw [← hT]; exact div_pos hq (mul_pos hu hu)
  have hKt : ((((2 : ℤ) ^ (p - 1) : ℤ) : ℚ)) ^ 2 ≤ t := by
    rw [← hT, le_div_iff₀ (mul_pos hu hu)]
    have h1 : pow2 (e + e) ≤ q := le_trans (pow2_mono _ _ he2) hlo
    rw [pow2_add, hsplit] at h1
    nlinarith
  have hfl0 : 0 ≤ ⌊t⌋ := Int.floor_nonneg.mpr ht0.le
  generalize hN : ⌊t⌋.toNat = N
  have hNt : (N : ℚ) ≤ t := by
    have h1 : ((⌊t⌋ : ℤ) : ℚ) ≤ t := Int.floor_le t
    have h2 : ((N : ℕ) : ℤ) = ⌊t⌋ := by omega
    have h3 : ((N : ℕ) : ℚ) = ((⌊t⌋ : ℤ) : ℚ) := by rw [← h2]; simp
    rw [h3]; exact h1
  have htN : t < (N : ℚ) + 1 := by
    have h1 : t < ((⌊t⌋ : ℤ) : ℚ) + 1 := Int.lt_floor_add_one t
    have h2 : ((N : ℕ) : ℤ) = ⌊t⌋ := by omega
    have h3 : ((N : ℕ) : ℚ) = ((⌊t⌋ : ℤ) : ℚ) := by rw [← h2]; simp
    rw [h3]; exact h1
  have hn1 := isqrt_sq_le N
  have hn2 := lt_isqrt_succ_sq N
  generalize isqrt N = n at hn1 hn2 ⊢
  have hn1q : (n : ℚ) * n ≤ t := by
    have : ((n * n : ℕ) : ℚ) ≤ (N : ℚ) := Nat.cast_le.mpr hn1
    push_cast at this
    linarith
  have hn2q : t < ((n : ℚ) + 1) * ((n : ℚ) + 1) := by
    have h1 : N + 1 ≤ (n + 1) * (n + 1) := hn2
    have : ((N + 1 : ℕ) : ℚ) ≤ (((n + 1) * (n + 1) : ℕ) : ℚ) := Nat.cast_le.mpr h1
    push_cast at this
    linarith
  have hKn : (((2 : ℤ) ^ (p - 1) : ℤ) : ℚ) ≤ (n : ℚ) := by
    have hKnat : 2 ^ (p - 1) ≤ n := by
      by_contra hlt
      have h1 : n + 1 ≤ 2 ^ (p - 1) := by omega
      have h2 : (((n + 1 : ℕ) : ℚ)) ≤ ((2 ^ (p - 1) : ℕ) : ℚ) := Nat.cast_le.mpr h1
      push_cast at h2 hKt
      nlinarith
    have : ((2 ^ (p - 1) : ℕ) : ℚ) ≤ (n : ℚ) := Nat.cast_le.mpr hKnat
    push_cast at this ⊢
    exact this
  have hK1 : (1 : ℚ) ≤ (((2 : ℤ) ^ (p - 1) : ℤ) : ℚ) := by
    have : (1 : ℚ) ≤ (2 : ℚ) ^ (p - 1) := one_le_pow₀ (by norm_num)
    push_cast
    exact this
  have hUU : 0 < U * U := mul_pos hu hu
  refine ⟨U, hu, ?_⟩
  by_cases hc : ((n * n + n : ℕ) : ℚ) + 1 / 4 < t
  · simp only [hc, if_true]
    have hU0 : (0 : ℚ) ≤ (n : ℚ) := Nat.cast_nonneg n
    have hstep : (((2 : ℤ) ^ (p - 1) : ℤ) : ℚ) * U ≤ ((n + 1 : ℕ) : ℚ) * U := by
      apply mul_le_mul_of_nonneg_right _ hu.le
      push_cast at hKn ⊢
      linarith
    refine ⟨hstep, ?_, ?_⟩ <;> push_cast at hc ⊢
    · rw [hqt]
      have e1 : (((n : ℚ) + 1) * U - U / 2) ^ 2
          = ((n : ℚ) * n + n + 1 / 4) * (U * U) := by ring
      rw [e1]
      exact (mul_le_mul_of_nonneg_right hc.le hUU.le)
    · rw [hqt]
      have e1 : (((n : ℚ) + 1) * U + U / 2) ^ 2
          = (((n : ℚ) + 1) * ((n : ℚ) + 1) + ((n : ℚ) + 1) + 1 / 4) * (U * U) := by ring
      rw [e1]
      apply mul_le_mul_of_nonneg_right _ hUU.le
      have : (0 : ℚ) ≤ (n : ℚ) := Nat.cast_nonneg n
      linarith
  · simp only [hc, if_false]
    push_cast at hc
    have hc' := not_lt.mp hc
    refine ⟨mul_le_mul_of_nonneg_right hKn hu.le, ?_, ?_⟩
    · rw [hqt]
      have e1 : ((n : ℚ) * U - U / 2) ^ 2
          = ((n : ℚ) * n - n + 1 / 4) * (U * U) := by ring
      rw [e1]
      apply mul_le_mul_of_nonneg_right _ hUU.le
      have : (1 : ℚ) ≤ (n : ℚ) := le_trans hK1 hKn
      linarith
    · rw [hqt]
      have e1 : ((n : ℚ) * U + U / 2) ^ 2
          = ((n : ℚ) * n + n + 1 / 4) * (U * U) := by ring
      rw [e1]
      exact mul_le_mul_of_nonneg_right hc' hUU.le

theorem pow2_lt_of_lt (a b : ℤ) (h : pow2 a < pow2 b) : a < b := by
  by_contra hge
  have := pow2_mono b a (by omega)
  linarith

theorem halfEven_intCast (z : ℤ) : halfEven (z : ℚ) = z := by
  simp [halfEven]

theorem abs_roundNE_le (p : ℕ) (emin : ℤ) (q : ℚ) (hq : q ≠ 0) :
    |roundNE p emin q| ≤ pow2 (max (ilog2 q) emin + 1) := by
  obtain ⟨_, hhi⟩ := ilog2_spec q hq
  have hle : ilog2 q ≤ max (ilog2 q) emin := le_max_left _ _
  unfold roundNE
  simp only [hq, if_false]
  generalize max (ilog2 q) emin = e at hle ⊢
  have hu := pow2_pos (e - ((p : ℤ) - 1))
  have hP := pow2_natCast p
  have hsplit : pow2 (e + 1) = pow2 (p : ℤ) * pow2 (e - ((p : ℤ) - 1)) := by
    rw [← pow2_add]; congr 1; ring
  have hq' : |q| < pow2 (e + 1) := lt_of_lt_of_le hhi (pow2_mono _ _ (by omega))
  rw [hsplit, hP] at hq'
  obtain ⟨hq1, hq2⟩ := abs_lt.mp hq'
  have hx1 : ((-((2 : ℤ) ^ p) : ℤ) : ℚ) ≤ q / pow2 (e - ((p : ℤ) - 1)) := by
    rw [le_div_iff₀ hu]
    push_cast at hq1 ⊢
    linarith
  have hx2 : q / pow2 (e - ((p : ℤ) - 1)) ≤ (((2 : ℤ) ^ p : ℤ) : ℚ) := by
    rw [div_le_iff₀ hu]
    linarith
  have h1 := le_halfEven _ _ hx1
  have h2 := halfEven_le _ _ hx2
  have h3 : |(halfEven (q / pow2 (e - ((p : ℤ) - 1))) : ℚ)| ≤ (((2 : ℤ) ^ p : ℤ) : ℚ) := by
    rw [abs_le]
    constructor
    · have : ((-((2 : ℤ) ^ p) : ℤ) : ℚ) ≤ (halfEven (q / pow2 (e - ((p : ℤ) - 1))) : ℚ) := by
        exact_mod_cast h1
      push_cast at this ⊢
      linarith
    · exact_mod_cast h2
  rw [hsplit, hP, abs_mul, abs_of_pos hu]
  exact mul_le_mul_of_nonneg_right h3 hu.le

theorem roundNE_intCast (p : ℕ) (emin : ℤ) (hemin : emin ≤ 0) (n : ℤ)
    (hn : |n| < 2 ^ p) : roundNE p emin (n : ℚ) = (n : ℚ) := by
  by_cases h0 : n = 0
  · subst h0; simp [roundNE]
  · have hq0 : (n : ℚ) ≠ 0 := by exact_mod_cast h0
    have h1 : (1 : ℚ) ≤ |(n : ℚ)| := by
      have : (1 : ℤ) ≤ |n| := Int.one_le_abs h0
      exact_mod_cast this
    have he := ilog2_nonneg (n : ℚ) h1
    obtain ⟨hlo, _⟩ := ilog2_spec (n : ℚ) hq0
    have hlt : pow2 (ilog2 (n : ℚ)) < pow2 (p : ℤ) := by
      rw [pow2_natCast]
      have : |(n : ℚ)| < (((2 : ℤ) ^ p : ℤ) : ℚ) := by exact_mod_cast hn
      exact lt_of_le_of_lt hlo this
    have hep := pow2_lt_of_lt _ _ hlt
    unfold roundNE
    simp only [hq0, if_false]
    have hmax : max (ilog2 (n : ℚ)) emin = ilog2 (n : ℚ) := max_eq_left (by omega)
    rw [hmax]
    obtain ⟨k, hk⟩ := Int.eq_ofNat_of_zero_le (show 0 ≤ (p : ℤ) - 1 - ilog2 (n : ℚ) by omega)
    have hu : pow2 (ilog2 (n : ℚ) - ((p : ℤ) - 1)) * pow2 (k : ℤ) = 1 := by
      have : ilog2 (n : ℚ) - ((p : ℤ) - 1) = -(k : ℤ) := by omega
      rw [this]
      exact pow2_neg_mul _
    have hupos := pow2_pos (ilog2 (n : ℚ) - ((p : ℤ) - 1))
    have hu2 : (2 : ℚ) ^ k * pow2 (ilog2 (n : ℚ) - ((p : ℤ) - 1)) = 1 := by
      have e := pow2_natCast k
      push_cast at e
      rw [← e, mul_comm]
      exact hu
    have hdiv : (n : ℚ) / pow2 (ilog2 (n : ℚ) - ((p : ℤ) - 1)) = ((n * 2 ^ k : ℤ) : ℚ) := by
      rw [div_eq_iff (ne_of_gt hupos)]
      push_cast
      rw [mul_assoc, hu2, mul_one]
    rw [hdiv, halfEven_intCast]
    push_cast
    rw [mul_assoc, hu2, mul_one]

theorem binary64_int_exact (n : ℤ) (hn : |n| < 2 ^ 53) : binary64.round (n : ℚ) = .fin n := by
  have h := roundNE_intCast 53 (-1022) (by norm_num) n hn
  have hq : |(n : ℚ)| < 2 ^ 53 := by exact_mod_cast hn
  obtain ⟨h1, h2⟩ := abs_lt.mp hq
  unfold Format.round binary64
  simp only [h]
  have e1 : ¬ MaxFloat64 < (n : ℚ) := by
    have : (2 : ℚ) ^ 53 ≤ MaxFloat64 := by norm_num [MaxFloat64]
    linarith
  have e2 : ¬ (n : ℚ) < -MaxFloat64 := by
    have : (2 : ℚ) ^ 53 ≤ MaxFloat64 := by norm_num [MaxFloat64]
    linarith
  simp [e1, e2]

theorem binary32_finite (q : ℚ) (hq : |q| < 2 ^ 127) : ∃ y, binary32.round q = .fin y := by
  by_cases h0 : q = 0
  · subst h0
    exact ⟨0, by norm_num [Format.round, binary32, roundNE, MaxFloat32]⟩
  · obtain ⟨hlo, _⟩ := ilog2_spec q h0
    have hlt : pow2 (ilog2 q) < pow2 127 := by
      have e : pow2 127 = 2 ^ 127 := by rw [pow2_eq]; norm_num
      rw [e]
      exact lt_of_le_of_lt hlo hq
    have hl := pow2_lt_of_lt _ _ hlt
    have hb := abs_roundNE_le 24 (-126) q h0
    have hm : pow2 (max (ilog2 q) (-126) + 1) ≤ pow2 127 :=
      pow2_mono _ _ (by
        have : max (ilog2 q) (-126) ≤ 126 := max_le (by omega) (by norm_num)
        omega)
    have e : pow2 127 = 2 ^ 127 := by rw [pow2_eq]; norm_num
    rw [e] at hm
    have hy := le_trans hb hm
    obtain ⟨h1, h2⟩ := abs_le.mp hy
    have hM : (2 : ℚ) ^ 127 ≤ MaxFloat32 := by norm_num [MaxFloat32]
    refine ⟨roundNE 24 (-126) q, ?_⟩
    unfold Format.round binary32
    have e1 : ¬ MaxFloat32 < roundNE 24 (-126) q := by linarith
    have e2 : ¬ roundNE 24 (-126) q < -MaxFloat32 := by linarith
    simp [e1, e2]

theorem halfEven_neg (x : ℚ) : halfEven (-x) = -halfEven x := by
  by_cases hint : x = (⌊x⌋ : ℚ)
  · have e : -x = ((-⌊x⌋ : ℤ) : ℚ) := by
      push_cast
      rw [← hint]
    rw [e, halfEven_intCast]
    conv_rhs => rw [hint, halfEven_intCast]
  · have h1 : (⌊x⌋ : ℚ) < x := lt_of_le_of_ne (Int.floor_le x) (fun h => hint h.symm)
    have h2 : x < (⌊x⌋ : ℚ) + 1 := Int.lt_floor_add_one x
    have hfl : ⌊-x⌋ = -⌊x⌋ - 1 := by
      rw [Int.floor_eq_iff]
      push_cast
      constructor <;> linarith
    unfold halfEven
    simp only [hfl]
    push_cast
    by_cases c1 : x - (⌊x⌋ : ℚ) < 1 / 2
    · have c2 : ¬ (-x - (-(⌊x⌋ : ℚ) - 1) < 1 / 2) := by linarith
      have c3 : 1 / 2 < -x - (-(⌊x⌋ : ℚ) - 1) := by linarith
      simp only [c1, c2, c3, if_true, if_false]
      omega
    · by_cases c4 : 1 / 2 < x - (⌊x⌋ : ℚ)
      · have c2 : -x - (-(⌊x⌋ : ℚ) - 1) < 1 / 2 := by linarith
        simp only [c1, c4, c2, if_true, if_false]
        omega
      · have c2 : ¬ (-x - (-(⌊x⌋ : ℚ) - 1) < 1 / 2) := by linarith
        have c3 : ¬ (1 / 2 < -x - (-(⌊x⌋ : ℚ) - 1)) := by linarith
        simp only [c1, c4, c2, c3, if_false]
        split_ifs <;> omega

theorem ilog2_neg (q : ℚ) : ilog2 (-q) = ilog2 q := by
  unfold ilog2
  simp only [Rat.neg_num, Rat.neg_den, Int.natAbs_neg, abs_neg]

theorem roundNE_neg (p : ℕ) (emin : ℤ) (q : ℚ) : roundNE p emin (-q) = -roundNE p emin q := by
  unfold roundNE
  by_cases h0 : q = 0
  · simp [h0]
  · have h1 : ¬ -q = 0 := by simpa using h0
    simp only [h0, h1, if_false, ilog2_neg, neg_div, halfEven_neg]
    push_cast
    ring

theorem binary32_lawful : binary32.Lawful where
  rnd_zero := roundNE_zero 24 (-126)
  rnd_neg := roundNE_neg 24 (-126)
  rnd_nonneg := roundNE_nonneg 24 (-126)
  one_le_rnd := roundNE_one_le 24 (-126) (by norm_num) (by norm_num)
  rnd_le_neg_one := roundNE_le_neg_one 24 (-126) (by norm_num) (by norm_num)
  max_nonneg := by
    intro m hm
    simp only [binary32, Option.some.injEq] at hm
    rw [← hm]
    norm_num [MaxFloat32]

theorem binary64_lawful : binary64.Lawful where
  rnd_zero := roundNE_zero 53 (-1022)
  rnd_neg := roundNE_neg 53 (-1022)
  rnd_nonneg := roundNE_nonneg 53 (-1022)
  one_le_rnd := roundNE_one_le 53 (-1022) (by norm_num) (by norm_num)
  rnd_le_neg_one := roundNE_le_neg_one 53 (-1022) (by norm_num) (by norm_num)
  max_nonneg := by
    intro m hm
    simp only [binary64, Option.some.injEq] at hm
    rw [← hm]
    norm_num [MaxFloat64]

/-- Go's arithmetic is lawful. -/
theorem ieee_lawful : ieee.Lawful where
  f32 := binary32_lawful
  f64 := binary64_lawful
  sqrt_zero := by simp [ieee, sqrtNE]
  sqrt_nonneg := sqrtNE_nonneg 53
  one_le_sqrt := sqrtNE_one_le 53 (by norm_num)
  sqrt_near := by
    intro q hq
    obtain ⟨u, h1, h2, h3, h4⟩ := sqrtNE_spec 53 (by norm_num) q hq
    refine ⟨u, h1, ?_, h3, h4⟩
    have e : (((2 : ℤ) ^ (53 - 1) : ℤ) : ℚ) = 2 ^ 52 := by norm_num
    rw [e] at h2
    exact h2
  int_exact := binary64_int_exact
  narrow_finite := binary32_finite

theorem exact_format_lawful : Format.Lawful ⟨id, none⟩ where
  rnd_zero := rfl
  rnd_neg := fun _ => rfl
  rnd_nonneg := fun _ h => h
  one_le_rnd := fun _ h => h
  rnd_le_neg_one := fun _ h => h
  max_nonneg := by intro m hm; cases hm

/-- Exact arithmetic is lawful around a square-root function that is. -/
theorem exactArith_lawful (sqrt : ℚ → ℚ) (h0 : sqrt 0 = 0) (hnn : ∀ q, 0 ≤ sqrt q)
    (h1 : ∀ q, 1 ≤ q → 1 ≤ sqrt q) (hnear : ∀ q, 0 < q → NearSqrt q (sqrt q)) :
    (exactArith sqrt).Lawful where
  f32 := exact_format_lawful
  f64 := exact_format_lawful
  sqrt_zero := h0
  sqrt_nonneg := hnn
  one_le_sqrt := h1
  sqrt_near := hnear
  int_exact := fun _ _ => rfl
  narrow_finite := fun q _ => ⟨q, rfl⟩

/-! ## Loops -/

theorem loopOver_range' {σ : Type} (body : ℕ → σ → Option σ) (P : ℕ → σ → Prop) :
    ∀ (n a : ℕ) (s : σ), P a s →
      (∀ k s, a ≤ k → k < a + n → P k s → ∃ s', body k s = some s' ∧ P (k + 1) s') →
      ∃ s', loopOver body (List.range' a n) s = some s' ∧ P (a + n) s' := by
  intro n
  induction n with
  | zero => intro a s h _; exact ⟨s, rfl, by simpa using h⟩
  | succ n ih =>
    intro a s h step
    obtain ⟨s1, hb, h1⟩ := step a s (le_refl a) (by omega) h
    obtain ⟨s2, hl, h2⟩ := ih (a + 1) s1 h1 (fun k t hk hk' hP => step k t (by omega) (by omega) hP)
    refine ⟨s2, ?_, ?_⟩
    · rw [List.range'_succ]
      simp only [loopOver, hb]
      exact hl
    · have e : a + (n + 1) = a + 1 + n := by omega
      rw [e]
      exact h2

/-- Loop rule: an invariant indexed by the number of iterations done. -/
theorem forRange_rule {σ : Type} (n : ℕ) (body : ℕ → σ → Option σ) (P : ℕ → σ → Prop) (s : σ)
    (h0 : P 0 s) (step : ∀ k s, k < n → P k s → ∃ s', body k s = some s' ∧ P (k + 1) s') :
    ∃ s', forRange n body s = some s' ∧ P n s' := by
  have h := loopOver_range' body P n 0 s h0
    (fun k t _ hk hP => step k t (by omega) hP)
  simpa [forRange, List.range_eq_range'] using h

theorem loopOverBrk_inv {σ : Type} (body : ℕ → σ → Option (Ctl σ)) (P : σ → Prop) :
    ∀ (l : List ℕ) (s : σ), P s →
      (∀ k s, k ∈ l → P s →
        (∃ s', body k s = some (.next s') ∧ P s') ∨ (∃ s', body k s = some (.brk s') ∧ P s')) →
      ∃ s', loopOverBrk body l s = some s' ∧ P s' := by
  intro l
  induction l with
  | nil => intro s h _; exact ⟨s, rfl, h⟩
  | cons k ks ih =>
    intro s h step
    rcases step k s (List.mem_cons_self k ks) h with ⟨s1, hb, h1⟩ | ⟨s1, hb, h1⟩
    · obtain ⟨s2, hl, h2⟩ := ih s1 h1 (fun k' t hk hP => step k' t (List.mem_cons_of_mem k hk) hP)
      exact ⟨s2, by simp only [loopOverBrk, hb]; exact hl, h2⟩
    · exact ⟨s1, by simp only [loopOverBrk, hb], h1⟩

/-! ## Grids -/

theorem tabulate_length (w h : ℕ) (g : ℕ → ℕ → GoFloat) : (tabulate w h g).length = w := by
  simp [tabulate]

theorem tabulate_getElem? (w h : ℕ) (g : ℕ → ℕ → GoFloat) (i : ℕ) (hi : i < w) :
    (tabulate w h g)[i]? = some ((List.range h).map (fun j => g i j)) := by
  simp [tabulate, List.getElem?_range hi]

theorem isRect_tabulate (w h : ℕ) (g : ℕ → ℕ → GoFloat) : IsRect (tabulate w h g) w h := by
  refine ⟨tabulate_length w h g, ?_⟩
  intro col hcol
  simp only [tabulate, List.mem_map, List.mem_range] at hcol
  obtain ⟨i, _, rfl⟩ := hcol
  simp

theorem getPx_tabulate (w h : ℕ) (g : ℕ → ℕ → GoFloat) (i j : ℕ) (hi : i < w) (hj : j < h) :
    getPx (tabulate w h g) i j = some (g i j) := by
  simp [getPx, tabulate_getElem? w h g i hi, List.getElem?_range hj]

theorem tabulate_congr (w h : ℕ) (g g' : ℕ → ℕ → GoFloat)
    (hg : ∀ i j, i < w → j < h → g i j = g' i j) : tabulate w h g = tabulate w h g' := by
  unfold tabulate
  apply List.map_congr_left
  intro i hi
  apply List.map_congr_left
  intro j hj
  exact hg i j (List.mem_range.mp hi) (List.mem_range.mp hj)

theorem make2D_eq_tabulate (w h : ℕ) : make2D w h = tabulate w h (fun _ _ => .fin 0) := by
  unfold make2D tabulate
  apply List.ext_getElem
  · simp
  · intro n h1 h2
    simp only [List.getElem_replicate, List.getElem_map, List.getElem_range]
    apply List.ext_getElem
    · simp
    · intro m h3 h4
      simp

theorem setPx_tabulate (w h : ℕ) (g : ℕ → ℕ → GoFloat) (i j : ℕ) (v : GoFloat)
    (hi : i < w) (hj : j < h) :
    setPx (tabulate w h g) i j v
      = some (tabulate w h (fun i' j' => if i' = i ∧ j' = j then v else g i' j')) := by
  unfold setPx
  rw [tabulate_getElem? w h g i hi]
  simp only [List.length_map, List.length_range, hj, if_true, Option.some.injEq]
  unfold tabulate
  apply List.ext_getElem
  · simp
  · intro n h1 h2
    simp only [List.getElem_set, List.getElem_map, List.getElem_range]
    by_cases hn : i = n
    · subst hn
      simp only [if_true]
      apply List.ext_getElem
      · simp
      · intro m h3 h4
        simp only [List.getElem_set, List.getElem_map, List.getElem_range]
        by_cases hm : j = m
        · subst hm; simp
        · have : ¬ m = j := fun e => hm e.symm
          simp [hm, this]
    · have : ¬ n = i := fun e => hn e.symm
      simp only [hn, if_false]
      apply List.map_congr_left
      intro m _
      simp [this]

theorem getPx_of_isRect (a : Image) (w h i j : ℕ) (ha : IsRect a w h) (hi : i < w) (hj : j < h) :
    ∃ x, getPx a i j = some x := by
  obtain ⟨hl, hc⟩ := ha
  have hi' : i < a.length := by omega
  have hcol : (a[i]).length = h := hc _ (List.getElem_mem hi')
  refine ⟨(a[i])[j], ?_⟩
  simp [getPx, List.getElem?_eq_getElem hi', List.getElem?_eq_getElem (hcol ▸ hj)]

theorem pixelLoop_eq (w h : ℕ) (f : ℕ → ℕ → Option GoFloat) (g : ℕ → ℕ → GoFloat)
    (hf : ∀ i j, i < w → j < h → f i j = some (g i j)) :
    pixelLoop w h f = some (tabulate w h g) := by
  unfold pixelLoop
  obtain ⟨out, hout, hP⟩ := forRange_rule h
    (fun j out => forRange w (fun i out =>
      match f i j with
      | none => none
      | some v => setPx out i j v) out)
    (fun k out => out = tabulate w h (fun i j => if j < k then g i j else .fin 0))
    (make2D w h)
    (by simp [make2D_eq_tabulate])
    (by
      intro k s hk hs
      obtain ⟨out, hout, hP⟩ := forRange_rule w
        (fun i out => match f i k with
          | none => none
          | some v => setPx out i k v)
        (fun m out => out = tabulate w h
          (fun i j => if j < k ∨ (j = k ∧ i < m) then g i j else .fin 0))
        s
        (by rw [hs]; apply tabulate_congr; intro i j _ _; simp)
        (by
          intro m t hm ht
          simp only [hf m k hm hk]
          rw [ht, setPx_tabulate w h _ m k _ hm hk]
          refine ⟨_, rfl, ?_⟩
          apply tabulate_congr
          intro i j _ _
          by_cases h1 : i = m ∧ j = k
          · obtain ⟨rfl, rfl⟩ := h1
            simp
          · simp only [h1, if_false]
            by_cases h2 : j < k
            · simp [h2]
            · by_cases h3 : j = k
              · subst h3
                have : i ≠ m := fun e => h1 ⟨e, rfl⟩
                have e1 : (i < m + 1) = (i < m) := by
                  apply propext; constructor <;> intro <;> omega
                simp [e1]
              · simp [h2, h3])
      refine ⟨out, hout, ?_⟩
      rw [hP]
      apply tabulate_congr
      intro i j hi _
      have e1 : (j < k ∨ j = k ∧ i < w) = (j < k + 1) := by
        apply propext; constructor <;> intro <;> omega
      simp [e1])
  rw [hout, hP]
  congr 1
  apply tabulate_congr
  intro i j _ hj
  simp [hj]

/-! ## Shapes -/

theorem getPx_eq_px (a : Image) (w h i j : ℕ) (ha : IsRect a w h) (hi : i < w) (hj : j < h) :
    getPx a i j = some (px a i j) := by
  obtain ⟨x, hx⟩ := getPx_of_isRect a w h i j ha hi hj
  simp [px, hx]

theorem tabulate_px (a : Image) (w h : ℕ) (ha : IsRect a w h) : tabulate w h (px a) = a := by
  obtain ⟨hl, hc⟩ := ha
  apply List.ext_getElem
  · simp [tabulate, hl]
  · intro n h1 h2
    have hcol : (a[n]).length = h := hc _ (List.getElem_mem h2)
    simp only [tabulate, List.getElem_map, List.getElem_range]
    apply List.ext_getElem
    · simp [hcol]
    · intro m h3 h4
      simp [px, getPx, List.getElem?_eq_getElem h2, List.getElem?_eq_getElem h4]

theorem Dimensions_of_isRect (a : Image) (w h : ℕ) (ha : IsRect a w h) (hw : 0 < w) :
    Dimensions a = (w, h) := by
  obtain ⟨hl, hc⟩ := ha
  cases a with
  | nil => simp at hl; omega
  | cons c cs =>
    have := hc c (List.mem_cons_self c cs)
    simp [Dimensions, ← hl, this]

theorem checkDims_of_isRect (a b : Image) (wa ha wb hb : ℕ) (hra : IsRect a wa ha)
    (hrb : IsRect b wb hb) (hwa : 0 < wa) (hwb : 0 < wb) :
    checkDims a b = if wa ≠ wb then .error "Width mismatch"
      else if ha ≠ hb then .error "Height mismatch" else .ok () := by
  obtain ⟨hla, hca⟩ := hra
  obtain ⟨hlb, hcb⟩ := hrb
  cases a with
  | nil => simp at hla; omega
  | cons c cs =>
    cases b with
    | nil => simp at hlb; omega
    | cons d ds =>
      have h1 := hca c (List.mem_cons_self c cs)
      have h2 := hcb d (List.mem_cons_self d ds)
      simp only [checkDims, hla, hlb, h1, h2, List.getElem?_cons_zero]

theorem setPx_isRect (out : Image) (w h i j : ℕ) (v : GoFloat) (ho : IsRect out w h)
    (hi : i < w) (hj : j < h) : ∃ out', setPx out i j v = some out' ∧ IsRect out' w h := by
  obtain ⟨hl, hc⟩ := ho
  have hi' : i < out.length := by omega
  have hcol : (out[i]).length = h := hc _ (List.getElem_mem hi')
  refine ⟨out.set i ((out[i]).set j v), ?_, ?_, ?_⟩
  · simp [setPx, List.getElem?_eq_getElem hi', hcol, hj]
  · simp [hl]
  · intro col hcol'
    rcases List.mem_or_eq_of_mem_set hcol' with hm | rfl
    · exact hc col hm
    · simp [hcol]

theorem isRect_make2D (w h : ℕ) : IsRect (make2D w h) w h := by
  rw [make2D_eq_tabulate]
  exact isRect_tabulate w h _

/-! ## The operators of ArithmeticOperators.go on rectangular grids -/

theorem binaryImage_of_isRect (op : GoFloat → GoFloat → GoFloat) (Normalise : Image → Image)
    (a b : Image) (w h : ℕ) (normalise : Bool) (ha : IsRect a w h) (hb : IsRect b w h)
    (hw : 0 < w) :
    binaryImage op Normalise a b normalise
      = finish Normalise normalise
          (some (tabulate w h (fun i j => op (px a i j) (px b i j)))) := by
  unfold binaryImage
  rw [checkDims_of_isRect a b w h w h ha hb hw hw]
  simp only [ne_eq, not_true_eq_false, if_false, Dimensions_of_isRect a w h ha hw]
  rw [pixelLoop_eq w h _ (fun i j => op (px a i j) (px b i j))]
  intro i j hi hj
  simp only [getPx_eq_px a w h i j ha hi hj, getPx_eq_px b w h i j hb hi hj]

theorem scalarImage_of_isRect (op : GoFloat → GoFloat → GoFloat) (Normalise : Image → Image)
    (a : Image) (s : GoFloat) (w h : ℕ) (normalise : Bool) (ha : IsRect a w h) (hw : 0 < w) :
    scalarImage op Normalise a s normalise
      = finish Normalise normalise (some (tabulate w h (fun i j => op (px a i j) s))) := by
  unfold scalarImage
  simp only [Dimensions_of_isRect a w h ha hw]
  rw [pixelLoop_eq w h _ (fun i j => op (px a i j) s)]
  intro i j hi hj
  simp only [getPx_eq_px a w h i j ha hi hj]

theorem binaryImage_mismatch (op : GoFloat → GoFloat → GoFloat) (Normalise : Image → Image)
    (a b : Image) (wa ha wb hb : ℕ) (normalise : Bool) (hra : IsRect a wa ha)
    (hrb : IsRect b wb hb) (hwa : 0 < wa) (hwb : 0 < wb) (hne : wa ≠ wb ∨ ha ≠ hb) :
    ∃ msg, binaryImage op Normalise a b normalise = .error msg := by
  unfold binaryImage
  rw [checkDims_of_isRect a b wa ha wb hb hra hrb hwa hwb]
  by_cases h1 : wa = wb
  · have h2 : ha ≠ hb := by
      rcases hne with h | h
      · exact absurd h1 h
      · exact h
    exact ⟨"Height mismatch", by simp [h1, h2]⟩
  · exact ⟨"Width mismatch", by simp [h1]⟩

theorem DivideImage_mismatch (env : FloatEnv) (Normalise : Image → Image)
    (a b : Image) (wa ha wb hb : ℕ) (normalise : Bool) (hra : IsRect a wa ha)
    (hrb : IsRect b wb hb) (hwa : 0 < wa) (hwb : 0 < wb) (hne : wa ≠ wb ∨ ha ≠ hb) :
    ∃ msg, DivideImage env Normalise a b normalise = .error msg := by
  unfold DivideImage
  rw [checkDims_of_isRect a b wa ha wb hb hra hrb hwa hwb]
  by_cases h1 : wa = wb
  · have h2 : ha ≠ hb := by
      rcases hne with h | h
      · exact absurd h1 h
      · exact h
    exact ⟨"Height mismatch", by simp [h1, h2]⟩
  · exact ⟨"Width mismatch", by simp [h1]⟩

theorem divideStep_isRect (env : FloatEnv) (a b out : Image) (w h i j : ℕ)
    (ha : IsRect a w h) (hb : IsRect b w h) (ho : IsRect out w h) (hi : i < w) (hj : j < h) :
    (∃ s', divideStep env a b j i out = some (.next s') ∧ IsRect s' w h) ∨
      (∃ s', divideStep env a b j i out = some (.brk s') ∧ IsRect s' w h) := by
  unfold divideStep
  rw [getPx_eq_px b w h i j hb hi hj, getPx_eq_px a w h i j ha hi hj]
  by_cases hz : (px b i j).isZero = true
  · right
    obtain ⟨o, ho1, ho2⟩ := setPx_isRect out w h i j (.fin 0) ho hi hj
    exact ⟨o, by simp [hz, ho1], ho2⟩
  · left
    obtain ⟨o, ho1, ho2⟩ := setPx_isRect out w h i j (fdiv env.f32 (px a i j) (px b i j)) ho hi hj
    exact ⟨o, by simp [hz, ho1], ho2⟩

theorem DivideImage_of_isRect (env : FloatEnv) (Normalise : Image → Image)
    (a b : Image) (w h : ℕ) (normalise : Bool) (ha : IsRect a w h) (hb : IsRect b w h)
    (hw : 0 < w) :
    ∃ out, DivideImage env Normalise a b normalise = .ok out := by
  unfold DivideImage
  rw [checkDims_of_isRect a b w h w h ha hb hw hw]
  simp only [ne_eq, not_true_eq_false, if_false, Dimensions_of_isRect a w h ha hw]
  obtain ⟨out, hout, _⟩ := forRange_rule h
    (fun j out => forRangeBrk w (divideStep env a b j) out)
    (fun _ out => IsRect out w h) (make2D w h) (isRect_make2D w h)
    (by
      intro j s hj hs
      exact loopOverBrk_inv (divideStep env a b j) (fun out => IsRect out w h)
        (List.range w) s hs
        (fun i t hi ht => divideStep_isRect env a b t w h i j ha hb ht (List.mem_range.mp hi) hj))
  rw [hout]
  exact ⟨_, rfl⟩


theorem samplesAre_finish (Normalise : Image → Image) (w h : ℕ) (g : ℕ → ℕ → GoFloat) :
    SamplesAre (finish Normalise false (some (tabulate w h g))) w h g :=
  ⟨tabulate w h g, by simp [finish], isRect_tabulate w h g,
    fun i j hi hj => getPx_tabulate w h g i j hi hj⟩

/-! ## Claims about ArithmeticOperators.go -/

/-- C5: for non-empty rectangular grids `a` (`wa` by `ha`) and `b` (`wb` by `hb`), each of
`AddImage`, `SubtractImage`, `MultiplyImage` and `DivideImage` returns an error (with the
nil image) exactly when the widths or the heights differ, returns a grid when both
match, and never panics, whatever `normalise` is. -/
theorem binary_operators_report_dimension_mismatch (env : FloatEnv)
    (Normalise : Image → Image) (a b : Image) (wa ha wb hb : ℕ) (normalise : Bool)
    (hra : IsRect a wa ha) (hrb : IsRect b wb hb) (hwa : 0 < wa) (hwb : 0 < wb) :
    ∀ op ∈ [AddImage env Normalise, SubtractImage env Normalise,
        MultiplyImage env Normalise, DivideImage env Normalise],
      ((∃ msg, op a b normalise = .error msg) ↔ (wa ≠ wb ∨ ha ≠ hb)) ∧
      ((wa = wb ∧ ha = hb) → ∃ out, op a b normalise = .ok out) ∧
      op a b normalise ≠ .panic := by
  have key : ∀ r : Outcome Image,
      ((wa ≠ wb ∨ ha ≠ hb) → ∃ msg, r = .error msg) →
      ((wa = wb ∧ ha = hb) → ∃ out, r = .ok out) →
      ((∃ msg, r = .error msg) ↔ (wa ≠ wb ∨ ha ≠ hb)) ∧
      ((wa = wb ∧ ha = hb) → ∃ out, r = .ok out) ∧ r ≠ .panic := by
    intro r h1 h2
    by_cases hm : wa = wb ∧ ha = hb
    · obtain ⟨out, hout⟩ := h2 hm
      refine ⟨⟨?_, fun hne => h1 hne⟩, h2, by simp [hout]⟩
      rintro ⟨msg, hmsg⟩
      rw [hout] at hmsg
      cases hmsg
    · have hne : wa ≠ wb ∨ ha ≠ hb := by
        by_cases hw : wa = wb
        · exact Or.inr (fun hh => hm ⟨hw, hh⟩)
        · exact Or.inl hw
      obtain ⟨msg, hmsg⟩ := h1 hne
      exact ⟨⟨fun _ => hne, fun _ => ⟨msg, hmsg⟩⟩, h2, by simp [hmsg]⟩
  have bin : ∀ opf : GoFloat → GoFloat → GoFloat,
      ((wa ≠ wb ∨ ha ≠ hb) → ∃ msg, binaryImage opf Normalise a b normalise = .error msg) ∧
      ((wa = wb ∧ ha = hb) → ∃ out, binaryImage opf Normalise a b normalise = .ok out) := by
    intro opf
    refine ⟨binaryImage_mismatch opf Normalise a b wa ha wb hb normalise hra hrb hwa hwb, ?_⟩
    rintro ⟨rfl, rfl⟩
    rw [binaryImage_of_isRect opf Normalise a b wa ha normalise hra hrb hwa]
    exact ⟨_, rfl⟩
  intro op hop
  simp only [List.mem_cons, List.mem_singleton, List.not_mem_nil, or_false] at hop
  rcases hop with rfl | rfl | rfl | rfl
  · exact key _ (bin (fadd env.f32)).1 (bin (fadd env.f32)).2
  · exact key _ (bin (fsub env.f32)).1 (bin (fsub env.f32)).2
  · exact key _ (bin (fmul env.f32)).1 (bin (fmul env.f32)).2
  · refine key _ (DivideImage_mismatch env Normalise a b wa ha wb hb normalise hra hrb hwa hwb) ?_
    rintro ⟨rfl, rfl⟩
    exact DivideImage_of_isRect env Normalise a b wa ha normalise hra hrb hwa

/-- Witness of C5: a 2 by 1 grid against a 1 by 1 grid is refused by `DivideImage` with an
error, and two 2 by 1 grids are accepted by `AddImage`. -/
theorem binary_operators_report_dimension_mismatch_witness :
    (∃ msg, DivideImage ieee id [[.fin 1], [.fin 2]] [[.fin 3]] true = .error msg) ∧
      (∃ out, AddImage ieee id [[.fin 1], [.fin 2]] [[.fin 3], [.fin 4]] false = .ok out) :=
  ⟨((binary_operators_report_dimension_mismatch ieee id [[.fin 1], [.fin 2]] [[.fin 3]]
      2 1 1 1 true (by decide) (by decide) (by decide) (by decide)
      (DivideImage ieee id) (by simp)).1).mpr (Or.inl (by decide)),
    ((binary_operators_report_dimension_mismatch ieee id [[.fin 1], [.fin 2]]
      [[.fin 3], [.fin 4]] 2 1 2 1 false (by decide) (by decide) (by decide) (by decide)
      (AddImage ieee id) (by simp)).2.1) ⟨rfl, rfl⟩⟩

/-- C6: on two grids of the same non-empty rectangular shape and without normalisation,
`AddImage`, `SubtractImage` and `MultiplyImage` return a grid of that shape whose
sample at `(i, j)` is the `float32` sum, difference and product of `a[i][j]` and
`b[i][j]`; `AddScalar`, `SubtractScalar` and `MultiplyScalar` do the same with the
scalar `s` in place of `b[i][j]`. -/
theorem elementwise_operators_samples (env : FloatEnv) (Normalise : Image → Image)
    (a b : Image) (s : GoFloat) (w h : ℕ) (ha : IsRect a w h) (hb : IsRect b w h)
    (hw : 0 < w) :
    SamplesAre (AddImage env Normalise a b false) w h
        (fun i j => fadd env.f32 (px a i j) (px b i j)) ∧
      SamplesAre (SubtractImage env Normalise a b false) w h
        (fun i j => fsub env.f32 (px a i j) (px b i j)) ∧
      SamplesAre (MultiplyImage env Normalise a b false) w h
        (fun i j => fmul env.f32 (px a i j) (px b i j)) ∧
      SamplesAre (AddScalar env Normalise a s false) w h
        (fun i j => fadd env.f32 (px a i j) s) ∧
      SamplesAre (SubtractScalar env Normalise a s false) w h
        (fun i j => fsub env.f32 (px a i j) s) ∧
      SamplesAre (MultiplyScalar env Normalise a s false) w h
        (fun i j => fmul env.f32 (px a i j) s) := by
  refine ⟨?_, ?_, ?_, ?_, ?_, ?_⟩
  · unfold AddImage
    rw [binaryImage_of_isRect _ Normalise a b w h false ha hb hw]
    exact samplesAre_finish Normalise w h _
  · unfold SubtractImage
    rw [binaryImage_of_isRect _ Normalise a b w h false ha hb hw]
    exact samplesAre_finish Normalise w h _
  · unfold MultiplyImage
    rw [binaryImage_of_isRect _ Normalise a b w h false ha hb hw]
    exact samplesAre_finish Normalise w h _
  · unfold AddScalar
    rw [scalarImage_of_isRect _ Normalise a s w h false ha hw]
    exact samplesAre_finish Normalise w h _
  · unfold SubtractScalar
    rw [scalarImage_of_isRect _ Normalise a s w h false ha hw]
    exact samplesAre_finish Normalise w h _
  · unfold MultiplyScalar
    rw [scalarImage_of_isRect _ Normalise a s w h false ha hw]
    exact samplesAre_finish Normalise w h _

/-- Witness of C6: two 2 by 2 grids and the scalar 3 in binary32 arithmetic. -/
theorem elementwise_operators_samples_witness :
    SamplesAre (AddImage ieee id [[.fin 1, .fin 2], [.fin 3, .fin 4]]
        [[.fin 5, .fin 6], [.fin 7, .fin 8]] false) 2 2
        (fun i j => fadd ieee.f32 (px [[.fin 1, .fin 2], [.fin 3, .fin 4]] i j)
          (px [[.fin 5, .fin 6], [.fin 7, .fin 8]] i j)) :=
  (elementwise_operators_samples ieee id [[.fin 1, .fin 2], [.fin 3, .fin 4]]
    [[.fin 5, .fin 6], [.fin 7, .fin 8]] (.fin 3) 2 2 (by decide) (by decide) (by decide)).1

/-- C7 fails on the code: with `a = [[6], [6], [6]]` and `b = [[2], [0], [3]]` (three
columns, one row) the zero denominator at column 1 ends the whole scan line, so the
sample at column 2 stays 0 although `b[2][0]` is 3 and `6 / 3` is 2. -/
theorem DivideImage_break_leaves_rest_of_row :
    DivideImage ieee id [[.fin 6], [.fin 6], [.fin 6]] [[.fin 2], [.fin 0], [.fin 3]] false
        = .ok [[.fin 3], [.fin 0], [.fin 0]] ∧
      fdiv ieee.f32 (.fin 6) (.fin 3) = .fin 2 := by
  decide!

/-- C8 fails on the code in binary32 arithmetic: adding 16777216 to the sample 1
rounds to 16777216, and subtracting it again leaves 0. -/
theorem addScalar_subtractScalar_not_exact :
    ¬ ∃ mid, AddScalar ieee id [[.fin 1]] (.fin 16777216) false = .ok mid ∧
      SubtractScalar ieee id mid (.fin 16777216) false = .ok [[.fin 1]] := by
  rintro ⟨mid, h1, h2⟩
  have e1 : AddScalar ieee id [[.fin 1]] (.fin 16777216) false = .ok [[.fin 16777216]] := by
    decide!
  have e2 : SubtractScalar ieee id [[.fin 16777216]] (.fin 16777216) false
      = .ok [[.fin 0]] := by
    decide!
  rw [e1] at h1
  cases h1
  rw [e2] at h2
  revert h2
  decide!

/-- C8 as amended: when the samples of `A` and the scalar `s` are finite and every sum
`A[i][j] + s` is a value of the `float32` format (the addition does not round), then
`SubtractScalar(AddScalar(A, s, false), s, false)` returns `A`. -/
theorem addScalar_subtractScalar_roundtrip (env : FloatEnv) (Normalise : Image → Image)
    (A : Image) (s : ℚ) (w h : ℕ) (hA : IsRect A w h) (hw : 0 < w)
    (hex : ∀ i j, i < w → j < h → ∃ x, getPx A i j = some (.fin x) ∧
      env.f32.round x = .fin x ∧ env.f32.round (x + s) = .fin (x + s)) :
    ∃ mid, AddScalar env Normalise A (.fin s) false = .ok mid ∧
      SubtractScalar env Normalise mid (.fin s) false = .ok A := by
  refine ⟨tabulate w h (fun i j => fadd env.f32 (px A i j) (.fin s)), ?_, ?_⟩
  · unfold AddScalar
    rw [scalarImage_of_isRect _ Normalise A (.fin s) w h false hA hw]
    simp [finish]
  · unfold SubtractScalar
    rw [scalarImage_of_isRect _ Normalise _ (.fin s) w h false (isRect_tabulate w h _) hw]
    simp only [finish, Bool.false_eq_true, if_false, Outcome.ok.injEq]
    rw [← tabulate_px A w h hA]
    apply tabulate_congr
    intro i j hi hj
    obtain ⟨x, hx, hr, hrs⟩ := hex i j hi hj
    have hp : px A i j = .fin x := by simp [px, hx]
    have hq : px (tabulate w h (fun i j => fadd env.f32 (px A i j) (.fin s))) i j
        = .fin (x + s) := by
      have e : px (tabulate w h (fun i j => fadd env.f32 (px A i j) (.fin s))) i j
          = fadd env.f32 (px A i j) (.fin s) := by
        unfold px
        rw [getPx_tabulate w h _ i j hi hj]
        rfl
      rw [e, hp]
      simp [fadd, hrs]
    rw [tabulate_px A w h hA, hq, hp]
    simp [fsub, hr]

/-- Witness of C8 as amended: the grid `[[1, 2]]` and the scalar 3 in binary32. -/
theorem addScalar_subtractScalar_roundtrip_witness :
    ∃ mid, AddScalar ieee id [[.fin 1, .fin 2]] (.fin 3) false = .ok mid ∧
      SubtractScalar ieee id mid (.fin 3) false = .ok [[.fin 1, .fin 2]] :=
  addScalar_subtractScalar_roundtrip ieee id [[.fin 1, .fin 2]] 3 1 2 (by decide) (by decide)
    (by
      intro i j hi hj
      have hi0 : i = 0 := by omega
      subst hi0
      have hj' : j = 0 ∨ j = 1 := by omega
      rcases hj' with rfl | rfl
      · exact ⟨1, rfl, by decide!, by decide!⟩
      · exact ⟨2, rfl, by decide!, by decide!⟩)

theorem fabs_neg (x : GoFloat) : fabs x.neg = fabs x := by
  cases x <;> simp [GoFloat.neg, fabs]

theorem round_isNonNeg (f : Format) (hf : f.Lawful) (q : ℚ) (hq : 0 ≤ q) :
    (f.round q).IsNonNeg := by
  have h1 := hf.rnd_nonneg q hq
  unfold Format.round
  cases hm : f.maxFinite with
  | none => exact Or.inr ⟨_, rfl, h1⟩
  | some m =>
    have h2 := hf.max_nonneg m hm
    simp only
    by_cases h3 : m < f.rnd q
    · simp [h3, GoFloat.IsNonNeg]
    · have h4 : ¬ f.rnd q < -m := by
        intro h5
        linarith
      simp only [h3, h4, if_false]
      exact Or.inr ⟨_, rfl, h1⟩

theorem sqrt_sample_isNonNeg (env : FloatEnv) (henv : env.Lawful) (x : GoFloat)
    (hx : x ≠ .nan) : (toFloat32 env (fsqrt env (fabs (toFloat64 x)))).IsNonNeg := by
  cases x with
  | fin q =>
    have h0 : ¬ |q| < 0 := not_lt.mpr (abs_nonneg q)
    simp only [toFloat64, fabs, fsqrt, h0, if_false, toFloat32]
    exact round_isNonNeg env.f32 henv.f32 _ (henv.sqrt_nonneg _)
  | pinf => exact Or.inl rfl
  | ninf => exact Or.inl rfl
  | nan => exact absurd rfl hx

/-- C9: on a non-empty rectangular grid and without normalisation `Sqrt` returns a grid
of the same shape whose sample at `(i, j)` is
`float32(math.Sqrt(math.Abs(float64(A[i][j]))))`; the result does not change when the
sign of any samples of `A` is flipped; no input is rejected. In a lawful arithmetic
every sample of the result that comes from a sample other than NaN is not negative,
and for a finite non-zero sample `q` of `A` the value `math.Sqrt` returns is within half
a unit in the last place of the square root of `|q|`. -/
theorem Sqrt_samples (env : FloatEnv) (Normalise : Image → Image) (A : Image) (w h : ℕ)
    (hA : IsRect A w h) (hw : 0 < w) :
    SamplesAre (Sqrt env Normalise A false) w h
        (fun i j => toFloat32 env (fsqrt env (fabs (toFloat64 (px A i j))))) ∧
      (∀ B, IsRect B w h →
        (∀ i j, i < w → j < h → px B i j = px A i j ∨ px B i j = (px A i j).neg) →
        Sqrt env Normalise B false = Sqrt env Normalise A false) ∧
      (env.Lawful → ∀ i j, i < w → j < h → px A i j ≠ .nan →
        (toFloat32 env (fsqrt env (fabs (toFloat64 (px A i j))))).IsNonNeg) ∧
      (env.Lawful → ∀ i j q, i < w → j < h → px A i j = .fin q → q ≠ 0 →
        ∃ y, fsqrt env (fabs (toFloat64 (px A i j))) = .fin y ∧ NearSqrt |q| y) := by
  have eval : ∀ B, IsRect B w h → Sqrt env Normalise B false
      = finish Normalise false (some (tabulate w h
          (fun i j => toFloat32 env (fsqrt env (fabs (toFloat64 (px B i j))))))) := by
    intro B hB
    unfold Sqrt
    simp only [Dimensions_of_isRect B w h hB hw]
    rw [pixelLoop_eq w h _ (fun i j => toFloat32 env (fsqrt env (fabs (toFloat64 (px B i j)))))]
    intro i j hi hj
    simp only [getPx_eq_px B w h i j hB hi hj]
  refine ⟨?_, ?_, ?_, ?_⟩
  · rw [eval A hA]
    exact samplesAre_finish Normalise w h _
  · intro B hB hflip
    rw [eval A hA, eval B hB]
    congr 2
    apply tabulate_congr
    intro i j hi hj
    rcases hflip i j hi hj with e | e
    · rw [e]
    · rw [e]
      simp only [toFloat64, fabs_neg]
  · intro henv i j _ _ hx
    exact sqrt_sample_isNonNeg env henv _ hx
  · intro henv i j q _ _ hq hq0
    have hpos : 0 < |q| := abs_pos.mpr hq0
    have hneg : ¬ |q| < 0 := not_lt.mpr hpos.le
    exact ⟨env.sqrt |q|, by simp only [hq, toFloat64, fabs, fsqrt, hneg, if_false],
      henv.sqrt_near _ hpos⟩

/-- Witness of C9: the grid `[[-4, 2]]`, whose result in binary32 is
`[[2, 11863283 / 8388608]]`. -/
theorem Sqrt_samples_witness :
    Sqrt ieee id [[.fin (-4), .fin 2]] false = .ok [[.fin 2, .fin (11863283 / 8388608)]] ∧
      SamplesAre (Sqrt ieee id [[.fin (-4), .fin 2]] false) 1 2
        (fun i j => toFloat32 ieee
          (fsqrt ieee (fabs (toFloat64 (px [[.fin (-4), .fin 2]] i j))))) :=
  ⟨by decide!, (Sqrt_samples ieee id [[.fin (-4), .fin 2]] 1 2 (by decide) (by decide)).1⟩

/-! ## Claims about Filters.go -/

/-- C10 fails on the code: `halfKernelWidth` is `ceil(kernelWidth / 2)`, which for an odd
width is one more than the distance from the kernel's first column to its centre, so
the window is one sample up and to the left of the centred one. The 1 by 1 kernel
`[[1]]` does not return a 2 by 2 image unchanged: it moves it by one sample in each
direction and loses the last column and row. -/
theorem Convolution_unit_kernel_shifts :
    Convolution ieee id [[.fin 1, .fin 2], [.fin 3, .fin 4]] [[.fin 1]] false
      = .ok [[.fin 0, .fin 0], [.fin 0, .fin 1]] := by
  decide!

/-! ## Facts about the arithmetic -/

theorem round_zero (f : Format) (hf : f.Lawful) : f.round 0 = .fin 0 := by
  unfold Format.round
  rw [hf.rnd_zero]
  cases hm : f.maxFinite with
  | none => rfl
  | some m =>
    have h := hf.max_nonneg m hm
    have h1 : ¬ m < 0 := not_lt.mpr h
    have h2 : ¬ (0 : ℚ) < -m := by linarith
    simp [h1, h2]

theorem round_neg (f : Format) (hf : f.Lawful) (q : ℚ) : f.round (-q) = (f.round q).neg := by
  unfold Format.round
  rw [hf.rnd_neg]
  cases hm : f.maxFinite with
  | none => rfl
  | some m =>
    have h0 := hf.max_nonneg m hm
    simp only
    by_cases c1 : m < f.rnd q
    · have c2 : ¬ m < -f.rnd q := by linarith
      have c3 : -f.rnd q < -m := by linarith
      simp [c1, c2, c3, GoFloat.neg]
    · by_cases c4 : f.rnd q < -m
      · have c2 : m < -f.rnd q := by linarith
        simp [c1, c4, c2, GoFloat.neg]
      · have c2 : ¬ m < -f.rnd q := by linarith
        have c3 : ¬ -f.rnd q < -m := by linarith
        simp [c1, c4, c2, c3, GoFloat.neg]

theorem round_ne_nan (f : Format) (q : ℚ) : f.round q ≠ .nan := by
  unfold Format.round
  cases f.maxFinite with
  | none => simp
  | some m =>
    simp only
    split_ifs <;> simp

theorem round_geOne (f : Format) (hf : f.Lawful) (q : ℚ) (hq : 1 ≤ q) : (f.round q).GeOne := by
  have h1 := hf.one_le_rnd q hq
  unfold Format.round
  cases hm : f.maxFinite with
  | none => exact Or.inr ⟨_, rfl, h1⟩
  | some m =>
    have h2 := hf.max_nonneg m hm
    simp only
    by_cases h3 : m < f.rnd q
    · simp [h3, GoFloat.GeOne]
    · have h4 : ¬ f.rnd q < -m := by
        intro h5
        linarith
      simp only [h3, h4, if_false]
      exact Or.inr ⟨_, rfl, h1⟩

theorem round_le_neg_one (f : Format) (hf : f.Lawful) (q : ℚ) (hq : q ≤ -1) :
    f.round q = .ninf ∨ ∃ y, f.round q = .fin y ∧ y ≤ -1 := by
  have h1 := hf.rnd_le_neg_one q hq
  unfold Format.round
  cases hm : f.maxFinite with
  | none => exact Or.inr ⟨_, rfl, h1⟩
  | some m =>
    have h2 := hf.max_nonneg m hm
    have h3 : ¬ m < f.rnd q := by
      intro h5
      linarith
    simp only [h3, if_false]
    by_cases h4 : f.rnd q < -m
    · simp [h4]
    · simp only [h4, if_false]
      exact Or.inr ⟨_, rfl, h1⟩

theorem geOne_ne_zero (x : GoFloat) (hx : x.GeOne) : x ≠ .fin 0 := by
  rintro rfl
  rcases hx with h | ⟨q, h, hq⟩
  · cases h
  · cases h
    linarith

theorem geOne_isNonNeg (x : GoFloat) (hx : x.GeOne) : x.IsNonNeg := by
  rcases hx with h | ⟨q, h, hq⟩
  · exact Or.inl h
  · exact Or.inr ⟨q, h, by linarith⟩

theorem fadd_comm (f : Format) (x y : GoFloat) : fadd f x y = fadd f y x := by
  cases x <;> cases y <;> simp [fadd, add_comm]

theorem fadd_geOne_left (f : Format) (hf : f.Lawful) (x y : GoFloat) (hx : x.GeOne)
    (hy : y.IsNonNeg) : (fadd f x y).GeOne := by
  rcases hx with rfl | ⟨a, rfl, ha⟩ <;> rcases hy with rfl | ⟨b, rfl, hb⟩
  · exact Or.inl rfl
  · exact Or.inl rfl
  · exact Or.inl rfl
  · exact round_geOne f hf _ (by linarith)

theorem fadd_geOne_right (f : Format) (hf : f.Lawful) (x y : GoFloat) (hx : x.IsNonNeg)
    (hy : y.GeOne) : (fadd f x y).GeOne := by
  rw [fadd_comm]
  exact fadd_geOne_left f hf y x hy hx

theorem fadd_zero_zero (f : Format) (hf : f.Lawful) : fadd f (.fin 0) (.fin 0) = .fin 0 := by
  simp [fadd, round_zero f hf]

theorem fdiv_zero_left (f : Format) (hf : f.Lawful) (y : GoFloat) :
    fdiv f (.fin 0) y = .nan ∨ fdiv f (.fin 0) y = .fin 0 := by
  cases y with
  | fin y =>
    by_cases hy : y = 0
    · left; simp [fdiv, hy]
    · right; simp [fdiv, hy, round_zero f hf]
  | pinf => right; rfl
  | ninf => right; rfl
  | nan => left; rfl

/-! ## The norm of a signature -/

theorem square_of_zero (env : FloatEnv) (henv : env.Lawful) :
    fmul env.f64 (intToFloat64 env 0) (intToFloat64 env 0) = .fin 0 := by
  simp [intToFloat64, round_zero env.f64 henv.f64, fmul]

theorem getD_of_all_zero (v : List ℤ) (hv : ∀ x ∈ v, x = 0) (i : ℕ) : v.getD i 0 = 0 := by
  by_cases h : i < v.length
  · rw [List.getD_eq_getElem v 0 h]
    exact hv _ (List.getElem_mem h)
  · exact List.getD_eq_default v 0 (not_lt.mp h)

/-- The goroutines of `L2Norm` leave `accumulator` at 0 on a vector of zeros, in
whatever order their memory accesses happen. -/
theorem L2Access_of_all_zero (env : FloatEnv) (henv : env.Lawful) (v : List ℤ)
    (hv : ∀ x ∈ v, x = 0) (schedule : List Access) :
    ∀ s : L2State, s.accumulator = .fin 0 → (∀ k, s.seen k = .fin 0) →
      (schedule.foldl (L2Access env v) s).accumulator = .fin 0 := by
  induction schedule with
  | nil => intro s h _; exact h
  | cons a rest ih =>
    intro s hacc hseen
    rw [List.foldl_cons]
    cases a with
    | read i =>
      apply ih
      · exact hacc
      · intro k
        show (if k = i then s.accumulator else s.seen k) = .fin 0
        split
        · exact hacc
        · exact hseen k
    | write i =>
      apply ih
      · show fadd env.f64 (s.seen i)
            (fmul env.f64 (intToFloat64 env (v.getD i 0)) (intToFloat64 env (v.getD i 0)))
          = .fin 0
        rw [getD_of_all_zero v hv i, square_of_zero env henv, hseen i,
          fadd_zero_zero env.f64 henv.f64]
      · exact hseen

theorem L2Norm_of_all_zero (env : FloatEnv) (henv : env.Lawful) (v : List ℤ)
    (hv : ∀ x ∈ v, x = 0) (schedule : List Access) : L2Norm env v schedule = .fin 0 := by
  unfold L2Norm
  simp only [L2Access_of_all_zero env henv v hv schedule ⟨.fin 0, fun _ => .fin 0⟩ rfl
    (fun _ => rfl), fsqrt, lt_self_iff_false, if_false, henv.sqrt_zero, toFloat32]
  exact round_zero env.f32 henv.f32

theorem wrapInt_zero : wrapInt 0 = 0 := by
  decide

theorem differenceVector_self (s : List ℤ) : ∀ x ∈ differenceVector s s, x = 0 := by
  unfold differenceVector
  induction s with
  | nil => simp
  | cons a as ih =>
    intro x hx
    simp only [List.zipWith_cons_cons, List.mem_cons, sub_self] at hx
    rcases hx with rfl | hx
    · exact wrapInt_zero
    · exact ih x hx

theorem oneWay_self (env : FloatEnv) (henv : env.Lawful) (s : List ℤ)
    (schedules : NormSchedules) : signatureDifference env s s schedules = .fin 0 := by
  unfold signatureDifference
  simp only [ne_eq, not_true_eq_false, if_false, toFloat64]
  rw [L2Norm_of_all_zero env henv _ (differenceVector_self s)]
  rcases fdiv_zero_left env.f64 henv.f64
    (fadd env.f64 (L2Norm env s schedules.sigA) (L2Norm env s schedules.sigB)) with h | h
  · simp [h, GoFloat.isNaN]
  · simp [h, GoFloat.isNaN]


/-! ## Claims about Signatures.go -/

/-- C1: in a lawful arithmetic (Go's is one) `SignatureDifference(s, s)` is exactly 0 for
every signature `s`, the empty one and the all-zero ones included, in whatever order
the memory accesses of the goroutines of `L2Norm` happen. -/
theorem SignatureDifference_self (env : FloatEnv) (henv : env.Lawful) (s : List ℤ)
    (ab ba : NormSchedules) : SignatureDifference env s s ab ba = .fin 0 := by
  unfold SignatureDifference
  simp only [oneWay_self env henv s, fadd_zero_zero env.f64 henv.f64]
  have h2 : (2 : ℚ) ≠ 0 := by norm_num
  simp only [fdiv, h2, if_false, zero_div, round_zero env.f64 henv.f64, toFloat32,
    round_zero env.f32 henv.f32]

/-- Witness of C1: a signature, the all-zero signature and the empty signature in Go's
arithmetic, with goroutines that run in turn and goroutines that all read before any
of them writes. -/
theorem SignatureDifference_self_witness :
    SignatureDifference ieee [1, -2] [1, -2]
        ⟨[.read 0, .write 0, .read 1, .write 1], [.read 0, .read 1, .write 0, .write 1],
          [.read 1, .read 0, .write 1, .write 0]⟩
        ⟨[.read 1, .write 1, .read 0, .write 0], [.read 0, .write 0, .read 1, .write 1],
          [.read 0, .read 1, .write 1, .write 0]⟩ = .fin 0 ∧
      SignatureDifference ieee [0, 0] [0, 0]
        ⟨[.read 0, .write 0, .read 1, .write 1], [.read 0, .write 0, .read 1, .write 1],
          [.read 0, .write 0, .read 1, .write 1]⟩
        ⟨[.read 0, .read 1, .write 0, .write 1], [.read 0, .read 1, .write 0, .write 1],
          [.read 0, .read 1, .write 0, .write 1]⟩ = .fin 0 ∧
      SignatureDifference ieee [] [] ⟨[], [], []⟩ ⟨[], [], []⟩ = .fin 0 :=
  ⟨SignatureDifference_self ieee ieee_lawful [1, -2] _ _,
    SignatureDifference_self ieee ieee_lawful [0, 0] _ _,
    SignatureDifference_self ieee ieee_lawful [] _ _⟩

/-- C2 fails on the code: the goroutines of `L2Norm` add to one variable without a lock,
so the value of a call depends on the order of their memory accesses. For `A = [1, 1]`
and `B = [-1, -1]` in Go's arithmetic, a call `SignatureDifference(B, A)` whose
goroutines all run in turn returns 1, and a call `SignatureDifference(A, B)` in which
the two goroutines of `L2Norm(sigA)` and of `L2Norm(sigB)` read `accumulator` before
either writes it, in one of the two directions, returns `5062973 / 4194304`. -/
theorem SignatureDifference_depends_on_the_schedule :
    isSchedule 2 [.read 0, .write 0, .read 1, .write 1] = true
    ∧ isSchedule 2 [.read 0, .read 1, .write 0, .write 1] = true
    ∧ SignatureDifference ieee [1, 1] [-1, -1]
        ⟨[.read 0, .write 0, .read 1, .write 1], [.read 0, .read 1, .write 0, .write 1],
          [.read 0, .read 1, .write 0, .write 1]⟩
        ⟨[.read 0, .write 0, .read 1, .write 1], [.read 0, .write 0, .read 1, .write 1],
          [.read 0, .write 0, .read 1, .write 1]⟩ = .fin (5062973 / 4194304)
    ∧ SignatureDifference ieee [-1, -1] [1, 1]
        ⟨[.read 0, .write 0, .read 1, .write 1], [.read 0, .write 0, .read 1, .write 1],
          [.read 0, .write 0, .read 1, .write 1]⟩
        ⟨[.read 0, .write 0, .read 1, .write 1], [.read 0, .write 0, .read 1, .write 1],
          [.read 0, .write 0, .read 1, .write 1]⟩ = .fin 1
    ∧ (5062973 / 4194304 : ℚ) ≠ 1 := by
  refine ⟨?_, ?_, ?_, ?_, ?_⟩
  · decide
  · decide
  · decide!
  · decide!
  · norm_num

/-- C3: for signatures of different lengths `SignatureDifference` returns
`math.MaxFloat32` in Go's arithmetic, in both argument orders; the result is a value,
so the call does not fail. No call of `L2Norm` is made, so no schedule matters. -/
theorem SignatureDifference_length_mismatch (A B : List ℤ) (h : A.length ≠ B.length)
    (ab ba ab' ba' : NormSchedules) :
    SignatureDifference ieee A B ab ba = .fin MaxFloat32 ∧
      SignatureDifference ieee B A ab' ba' = .fin MaxFloat32 := by
  have e : toFloat32 ieee (fdiv ieee.f64
      (fadd ieee.f64 (.fin MaxFloat32) (.fin MaxFloat32)) (.fin 2)) = .fin MaxFloat32 := by
    decide!
  unfold SignatureDifference signatureDifference
  simp only [ne_eq, h, Ne.symm h, not_false_eq_true, if_true]
  exact ⟨e, e⟩

/-- Witness of C3: a signature of three elements against one of two. -/
theorem SignatureDifference_length_mismatch_witness :
    SignatureDifference ieee [1, 0, -1] [2, 2] ⟨[], [], []⟩ ⟨[], [], []⟩ = .fin MaxFloat32 ∧
      SignatureDifference ieee [2, 2] [1, 0, -1] ⟨[], [], []⟩ ⟨[], [], []⟩
        = .fin MaxFloat32 :=
  SignatureDifference_length_mismatch [1, 0, -1] [2, 2] (by decide) _ _ _ _

/-- C4 fails on the code: the norm that `L2Norm` computes is not always the square root
of the sum of the squares, because its goroutines add to one variable without a lock.
For `A = [1, 0]` and `B = [0, 1]` in Go's arithmetic, when in `L2Norm(sigA)` and in
`L2Norm(sigB)` both goroutines read `accumulator` before either writes it and the
goroutine of the element whose value is 0 writes last, both norms are 0 although neither
vector is; the norm of the difference, whose goroutines run in turn, is not 0, and
`signatureDifference(A, B)` is plus infinity, not 0, where the sum of the two computed
norms is zero. -/
theorem signatureDifference_infinite_on_lost_updates :
    isSchedule 2 [.read 0, .write 0, .read 1, .write 1] = true
    ∧ isSchedule 2 [.read 0, .read 1, .write 0, .write 1] = true
    ∧ isSchedule 2 [.read 0, .read 1, .write 1, .write 0] = true
    ∧ L2Norm ieee [1, 0] [.read 0, .read 1, .write 0, .write 1] = .fin 0
    ∧ L2Norm ieee [0, 1] [.read 0, .read 1, .write 1, .write 0] = .fin 0
    ∧ L2Norm ieee (differenceVector [1, 0] [0, 1]) [.read 0, .write 0, .read 1, .write 1]
        = .fin (11863283 / 8388608)
    ∧ signatureDifference ieee [1, 0] [0, 1]
        ⟨[.read 0, .write 0, .read 1, .write 1], [.read 0, .read 1, .write 0, .write 1],
          [.read 0, .read 1, .write 1, .write 0]⟩ = .pinf := by
  refine ⟨?_, ?_, ?_, ?_, ?_, ?_, ?_⟩
  · decide
  · decide
  · decide
  · decide!
  · decide!
  · decide!
  · decide!

/-- C18: there are signatures of equal length with elements in -2 .. 2 on which the two
directions of `signatureDifference` return different values on the code. For
`A = [1, 1]` and `B = [-1, -1]` in Go's arithmetic, `signatureDifference(B, A)` is 1
when the goroutines of its calls of `L2Norm` run in turn, and `signatureDifference(A, B)`
is `11863283 / 8388608` when in `L2Norm(sigA)` and in `L2Norm(sigB)` both goroutines
read `accumulator` before either writes it. -/
theorem signatureDifference_directions_differ :
    ([1, 1] : List ℤ).length = ([-1, -1] : List ℤ).length
    ∧ (∀ x ∈ ([1, 1] : List ℤ), -2 ≤ x ∧ x ≤ 2)
    ∧ (∀ x ∈ ([-1, -1] : List ℤ), -2 ≤ x ∧ x ≤ 2)
    ∧ isSchedule 2 [.read 0, .write 0, .read 1, .write 1] = true
    ∧ isSchedule 2 [.read 0, .read 1, .write 0, .write 1] = true
    ∧ signatureDifference ieee [1, 1] [-1, -1]
        ⟨[.read 0, .write 0, .read 1, .write 1], [.read 0, .read 1, .write 0, .write 1],
          [.read 0, .read 1, .write 0, .write 1]⟩ = .fin (11863283 / 8388608)
    ∧ signatureDifference ieee [-1, -1] [1, 1]
        ⟨[.read 0, .write 0, .read 1, .write 1], [.read 0, .write 0, .read 1, .write 1],
          [.read 0, .write 0, .read 1, .write 1]⟩ = .fin 1
    ∧ signatureDifference ieee [1, 1] [-1, -1]
        ⟨[.read 0, .write 0, .read 1, .write 1], [.read 0, .read 1, .write 0, .write 1],
          [.read 0, .read 1, .write 0, .write 1]⟩
      ≠ signatureDifference ieee [-1, -1] [1, 1]
        ⟨[.read 0, .write 0, .read 1, .write 1], [.read 0, .write 0, .read 1, .write 1],
          [.read 0, .write 0, .read 1, .write 1]⟩ := by
  refine ⟨rfl, ?_, ?_, ?_, ?_, ?_, ?_, ?_⟩
  · decide
  · decide
  · decide
  · decide
  · decide!
  · decide!
  · decide!


/-! ## The scan lines of DivideImage -/

theorem zeroIn_iff (b : Image) (j lo hi : ℕ) :
    zeroIn b j lo hi = true ↔ ∃ k, lo ≤ k ∧ k < hi ∧ (px b k j).isZero = true := by
  simp only [zeroIn, List.any_eq_true, List.mem_range, Bool.and_eq_true, decide_eq_true_eq]
  constructor
  · rintro ⟨k, h1, h2, h3⟩; exact ⟨k, h2, h1, h3⟩
  · rintro ⟨k, h1, h2, h3⟩; exact ⟨k, h2, h1, h3⟩

theorem zeroIn_eq (b : Image) (j lo hi lo' hi' : ℕ)
    (h : ∀ k, (lo ≤ k ∧ k < hi ∧ (px b k j).isZero = true) ↔
      (lo' ≤ k ∧ k < hi' ∧ (px b k j).isZero = true)) :
    zeroIn b j lo hi = zeroIn b j lo' hi' := by
  rw [Bool.eq_iff_iff, zeroIn_iff, zeroIn_iff]
  constructor
  · rintro ⟨k, hk⟩; exact ⟨k, (h k).mp hk⟩
  · rintro ⟨k, hk⟩; exact ⟨k, (h k).mpr hk⟩

theorem divideRow (env : FloatEnv) (a b : Image) (w h j : ℕ) (ha : IsRect a w h)
    (hb : IsRect b w h) (hj : j < h) :
    ∀ (n lo : ℕ) (g : ℕ → ℕ → GoFloat), lo + n ≤ w → (∀ i, lo ≤ i → g i j = .fin 0) →
      loopOverBrk (divideStep env a b j) (List.range' lo n) (tabulate w h g)
        = some (tabulate w h (fun i' j' =>
            if j' = j ∧ lo ≤ i' ∧ i' < lo + n then
              (if zeroIn b j lo (i' + 1) then .fin 0
                else fdiv env.f32 (px a i' j) (px b i' j))
            else g i' j')) := by
  intro n
  induction n with
  | zero =>
    intro lo g _ _
    simp only [List.range'_zero, loopOverBrk, Option.some.injEq]
    apply tabulate_congr
    intro i' j' _ _
    have : ¬ (j' = j ∧ lo ≤ i' ∧ i' < lo + 0) := by omega
    simp only [this, if_false]
  | succ n ih =>
    intro lo g hlo hg
    have hlow : lo < w := by omega
    rw [List.range'_succ]
    simp only [loopOverBrk, divideStep]
    rw [getPx_eq_px b w h lo j hb hlow hj, getPx_eq_px a w h lo j ha hlow hj]
    by_cases hz : (px b lo j).isZero = true
    · simp only [hz, if_true]
      rw [setPx_tabulate w h g lo j _ hlow hj]
      simp only [Option.some.injEq]
      apply tabulate_congr
      intro i' j' _ _
      by_cases hc : j' = j ∧ lo ≤ i' ∧ i' < lo + (n + 1)
      · obtain ⟨rfl, h1, h2⟩ := hc
        have hzi : zeroIn b j' lo (i' + 1) = true :=
          (zeroIn_iff b j' lo (i' + 1)).mpr ⟨lo, le_refl lo, by omega, hz⟩
        simp only [h1, h2, and_self, if_true, hzi]
        by_cases he : i' = lo
        · simp [he]
        · simp only [he, false_and, if_false]
          exact hg i' h1
      · simp only [hc, if_false]
        have : ¬ (i' = lo ∧ j' = j) := by
          rintro ⟨rfl, rfl⟩
          exact hc ⟨rfl, le_refl _, by omega⟩
        simp [this]
    · simp only [hz, if_false, Bool.false_eq_true]
      rw [setPx_tabulate w h g lo j _ hlow hj]
      simp only
      rw [ih (lo + 1) _ (by omega) (by
        intro i hi
        have hne : ¬ i = lo := by omega
        simp only [hne, false_and, if_false]
        exact hg i (by omega))]
      simp only [Option.some.injEq]
      apply tabulate_congr
      intro i' j' _ _
      by_cases hc : j' = j ∧ lo ≤ i' ∧ i' < lo + (n + 1)
      · obtain ⟨rfl, h1, h2⟩ := hc
        simp only [h1, h2, and_self, if_true]
        by_cases he : i' = lo
        · subst he
          have h3 : ¬ (j' = j' ∧ i' + 1 ≤ i' ∧ i' < i' + 1 + n) := by omega
          have hzi : zeroIn b j' i' (i' + 1) = false := by
            rw [Bool.eq_false_iff]
            intro hcon
            obtain ⟨k, k1, k2, k3⟩ := (zeroIn_iff b j' i' (i' + 1)).mp hcon
            have : k = i' := by omega
            subst this
            exact hz k3
          simp [h3, hzi]
        · have h3 : j' = j' ∧ lo + 1 ≤ i' ∧ i' < lo + 1 + n := ⟨rfl, by omega, by omega⟩
          simp only [h3, and_self, if_true]
          have hzz : zeroIn b j' (lo + 1) (i' + 1) = zeroIn b j' lo (i' + 1) := by
            apply zeroIn_eq
            intro k
            constructor
            · rintro ⟨k1, k2, k3⟩; exact ⟨by omega, k2, k3⟩
            · rintro ⟨k1, k2, k3⟩
              refine ⟨?_, k2, k3⟩
              by_contra hk
              have : k = lo := by omega
              subst this
              exact hz k3
          rw [hzz]
      · simp only [hc, if_false]
        have h3 : ¬ (j' = j ∧ lo + 1 ≤ i' ∧ i' < lo + 1 + n) := by
          rintro ⟨h1, h2, h3⟩
          exact hc ⟨h1, by omega, by omega⟩
        have h4 : ¬ (i' = lo ∧ j' = j) := by
          rintro ⟨rfl, rfl⟩
          exact hc ⟨rfl, le_refl _, by omega⟩
        simp [h3, h4]

theorem DivideImage_eq (env : FloatEnv) (Normalise : Image → Image) (a b : Image) (w h : ℕ)
    (ha : IsRect a w h) (hb : IsRect b w h) (hw : 0 < w) :
    DivideImage env Normalise a b false = .ok (tabulate w h (divideSample env a b)) := by
  unfold DivideImage
  rw [checkDims_of_isRect a b w h w h ha hb hw hw]
  simp only [ne_eq, not_true_eq_false, if_false, Dimensions_of_isRect a w h ha hw]
  obtain ⟨out, hout, hP⟩ := forRange_rule h
    (fun j out => forRangeBrk w (divideStep env a b j) out)
    (fun k out => out = tabulate w h (fun i j => if j < k then divideSample env a b i j else .fin 0))
    (make2D w h)
    (by simp [make2D_eq_tabulate])
    (by
      intro j s hj hs
      refine ⟨_, ?_, rfl⟩
      subst hs
      show forRangeBrk w (divideStep env a b j) _ = _
      unfold forRangeBrk
      rw [List.range_eq_range', divideRow env a b w h j ha hb hj w 0 _ (by omega) (by
        intro i _
        simp)]
      simp only [Option.some.injEq]
      apply tabulate_congr
      intro i' j' hi' _
      by_cases h1 : j' = j
      · subst h1
        simp [hi', divideSample]
      · have h2 : ¬ (j' = j ∧ 0 ≤ i' ∧ i' < 0 + w) := fun hc => h1 hc.1
        simp only [h2, if_false]
        by_cases h3 : j' < j
        · have h4 : j' < j + 1 := by omega
          simp only [h3, h4, if_true]
        · have h4 : ¬ j' < j + 1 := by omega
          simp only [h3, h4, if_false])
  rw [hout, hP]
  simp only [finish, Bool.false_eq_true, if_false, Outcome.ok.injEq]
  apply tabulate_congr
  intro i j _ hj
  simp [hj]

/-- C20: on two grids of the same non-empty rectangular shape and without normalisation,
`DivideImage` returns a grid of that shape in which, on every scan line `j`, the samples
before the first zero denominator `b[i0][j]` are the quotients `a[i][j] / b[i][j]` and
the samples from `i0` on are 0, also where `b[i][j]` is not zero; on a scan line without
a zero denominator every sample is the quotient. -/
theorem DivideImage_scan_line (env : FloatEnv) (Normalise : Image → Image) (a b : Image)
    (w h : ℕ) (ha : IsRect a w h) (hb : IsRect b w h) (hw : 0 < w) :
    ∃ out, DivideImage env Normalise a b false = .ok out ∧ IsRect out w h ∧
      ∀ j, j < h →
        (∀ i0, i0 < w → (px b i0 j).isZero = true →
          (∀ i, i < i0 → (px b i j).isZero = false) →
          (∀ i, i < i0 → getPx out i j = some (fdiv env.f32 (px a i j) (px b i j))) ∧
            (∀ i, i0 ≤ i → i < w → getPx out i j = some (.fin 0))) ∧
        ((∀ i, i < w → (px b i j).isZero = false) →
          ∀ i, i < w → getPx out i j = some (fdiv env.f32 (px a i j) (px b i j))) := by
  refine ⟨_, DivideImage_eq env Normalise a b w h ha hb hw, isRect_tabulate w h _, ?_⟩
  intro j hj
  have quot : ∀ i, i < w → (∀ k, k ≤ i → (px b k j).isZero = false) →
      getPx (tabulate w h (divideSample env a b)) i j
        = some (fdiv env.f32 (px a i j) (px b i j)) := by
    intro i hi hk
    rw [getPx_tabulate w h _ i j hi hj]
    have hz : zeroIn b j 0 (i + 1) = false := by
      rw [Bool.eq_false_iff]
      intro hcon
      obtain ⟨k, _, k2, k3⟩ := (zeroIn_iff b j 0 (i + 1)).mp hcon
      rw [hk k (by omega)] at k3
      cases k3
    simp [divideSample, hz]
  refine ⟨?_, ?_⟩
  · intro i0 hi0 hz hbefore
    refine ⟨?_, ?_⟩
    · intro i hi
      exact quot i (by omega) (fun k hk => hbefore k (by omega))
    · intro i h1 h2
      rw [getPx_tabulate w h _ i j h2 hj]
      have hzi : zeroIn b j 0 (i + 1) = true :=
        (zeroIn_iff b j 0 (i + 1)).mpr ⟨i0, Nat.zero_le _, by omega, hz⟩
      simp [divideSample, hzi]
  · intro hno i hi
    exact quot i hi (fun k hk => hno k (by omega))

/-- Witness of C20: `a = [[6], [6], [6]]` and `b = [[2], [0], [3]]`, three columns and
one row, whose result is `[[3], [0], [0]]`. -/
theorem DivideImage_scan_line_witness :
    DivideImage ieee id [[.fin 6], [.fin 6], [.fin 6]] [[.fin 2], [.fin 0], [.fin 3]] false
        = .ok [[.fin 3], [.fin 0], [.fin 0]] ∧
      ∃ out, DivideImage ieee id [[.fin 6], [.fin 6], [.fin 6]]
          [[.fin 2], [.fin 0], [.fin 3]] false = .ok out ∧ IsRect out 3 1 ∧
        ∀ j, j < 1 →
          (∀ i0, i0 < 3 → (px [[.fin 2], [.fin 0], [.fin 3]] i0 j).isZero = true →
            (∀ i, i < i0 → (px [[.fin 2], [.fin 0], [.fin 3]] i j).isZero = false) →
            (∀ i, i < i0 → getPx out i j = some (fdiv ieee.f32
                (px [[.fin 6], [.fin 6], [.fin 6]] i j)
                (px [[.fin 2], [.fin 0], [.fin 3]] i j))) ∧
              (∀ i, i0 ≤ i → i < 3 → getPx out i j = some (.fin 0))) ∧
          ((∀ i, i < 3 → (px [[.fin 2], [.fin 0], [.fin 3]] i j).isZero = false) →
            ∀ i, i < 3 → getPx out i j = some (fdiv ieee.f32
              (px [[.fin 6], [.fin 6], [.fin 6]] i j)
              (px [[.fin 2], [.fin 0], [.fin 3]] i j))) :=
  ⟨by decide!, DivideImage_scan_line ieee id [[.fin 6], [.fin 6], [.fin 6]]
    [[.fin 2], [.fin 0], [.fin 3]] 3 1 (by decide) (by decide) (by decide)⟩

/-! ## SignatureVector -/

theorem loopOver_append {β : Type} (body : ℕ → List β → Option (List β)) (f : ℕ → List β) :
    ∀ (l : List ℕ) (s : List β), (∀ k ∈ l, ∀ t, body k t = some (t ++ f k)) →
      loopOver body l s = some (s ++ l.flatMap f) := by
  intro l
  induction l with
  | nil => intro s _; simp [loopOver]
  | cons k ks ih =>
    intro s h
    simp only [loopOver, h k (List.mem_cons_self k ks) s, List.flatMap_cons]
    rw [ih _ (fun k' hk' t => h k' (List.mem_cons_of_mem _ hk') t), List.append_assoc]

theorem getPxInt_tabulate (w h : ℕ) (g : ℕ → ℕ → GoFloat) (x y : ℤ) (hx : 0 ≤ x)
    (hx' : x < w) (hy : 0 ≤ y) (hy' : y < h) :
    getPxInt (tabulate w h g) x y = some (g x.toNat y.toNat) := by
  unfold getPxInt
  simp only [hx, hy, and_self, if_true]
  exact getPx_tabulate w h g _ _ (by omega) (by omega)

theorem averageMatrix_border (env : FloatEnv) (SubImage : Image → ℤ → ℤ → ℤ → ℤ → Image)
    (MeanStd : Image → GoFloat × GoFloat) (image : Image) (i j : ℕ)
    (h : ¬ (1 ≤ i ∧ i ≤ 9 ∧ 1 ≤ j ∧ j ≤ 9)) :
    averageMatrix env SubImage MeanStd image i j = .fin 0 := by
  simp only [averageMatrix, h, if_false]

theorem averageMatrix_inner (env : FloatEnv) (SubImage : Image → ℤ → ℤ → ℤ → ℤ → Image)
    (MeanStd : Image → GoFloat × GoFloat) (image : Image) (i j : ℕ)
    (h : 1 ≤ i ∧ i ≤ 9 ∧ 1 ≤ j ∧ j ≤ 9) :
    averageMatrix env SubImage MeanStd image i j
      = (MeanStd (SubImage image
          (floorToInt (fdiv env.f64 (intToFloat64 env ((Dimensions image).1 : ℤ)) (.fin 11))
            * (i : ℤ) - 2)
          (floorToInt (fdiv env.f64 (intToFloat64 env ((Dimensions image).2 : ℤ)) (.fin 11))
            * (j : ℤ) - 2) 5 5)).1 := by
  simp only [averageMatrix, h, and_self, if_true]

theorem averages_row (env : FloatEnv) (SubImage : Image → ℤ → ℤ → ℤ → ℤ → Image)
    (MeanStd : Image → GoFloat × GoFloat) (image : Image) (j : ℕ) (hj1 : 1 ≤ j)
    (hj2 : j ≤ 9) :
    loopOver (fun i average =>
        setPx average i j
          (MeanStd (SubImage image
            (floorToInt (fdiv env.f64 (intToFloat64 env ((Dimensions image).1 : ℤ)) (.fin 11))
              * (i : ℤ) - 2)
            (floorToInt (fdiv env.f64 (intToFloat64 env ((Dimensions image).2 : ℤ)) (.fin 11))
              * (j : ℤ) - 2) 5 5)).1) (List.range' 1 9)
        (tabulate 11 11 (fun i' j' =>
          if j' < j then averageMatrix env SubImage MeanStd image i' j' else .fin 0))
      = some (tabulate 11 11 (fun i' j' =>
          if j' < j + 1 then averageMatrix env SubImage MeanStd image i' j' else .fin 0)) := by
  obtain ⟨out, hout, hP⟩ := loopOver_range'
    (fun i average =>
        setPx average i j
          (MeanStd (SubImage image
            (floorToInt (fdiv env.f64 (intToFloat64 env ((Dimensions image).1 : ℤ)) (.fin 11))
              * (i : ℤ) - 2)
            (floorToInt (fdiv env.f64 (intToFloat64 env ((Dimensions image).2 : ℤ)) (.fin 11))
              * (j : ℤ) - 2) 5 5)).1)
    (fun m out => out = tabulate 11 11 (fun i' j' =>
      if j' < j ∨ (j' = j ∧ i' < m) then averageMatrix env SubImage MeanStd image i' j'
      else .fin 0))
    9 1
    (tabulate 11 11 (fun i' j' =>
      if j' < j then averageMatrix env SubImage MeanStd image i' j' else .fin 0))
    (by
      apply tabulate_congr
      intro i' j' _ _
      split_ifs with h1 h2 h2
      · rfl
      · exact absurd (Or.inl h1) h2
      · rcases h2 with h2 | h2
        · exact absurd h2 h1
        · exact (averageMatrix_border env SubImage MeanStd image i' j' (by omega)).symm
      · rfl)
    (by
      intro i t hi1 hi2 ht
      refine ⟨_, ?_, rfl⟩
      beta_reduce
      rw [ht, setPx_tabulate 11 11 _ i j _ (by omega) (by omega)]
      congr 1
      apply tabulate_congr
      intro i' j' _ _
      by_cases h1 : i' = i ∧ j' = j
      · obtain ⟨rfl, rfl⟩ := h1
        have h2 : j' < j' ∨ j' = j' ∧ i' < i' + 1 := Or.inr ⟨rfl, by omega⟩
        rw [if_pos ⟨rfl, rfl⟩, if_pos h2,
          averageMatrix_inner env SubImage MeanStd image i' j' (by omega)]
      · rw [if_neg h1]
        split_ifs with h2 h3 h3
        · rfl
        · exact absurd (show j' < j ∨ j' = j ∧ i' < i + 1 by omega) h3
        · exact absurd (show j' < j ∨ j' = j ∧ i' < i by omega) h2
        · rfl)
  rw [hout, hP]
  congr 1
  apply tabulate_congr
  intro i' j' hi' _
  split_ifs with h2 h3 h3
  · rfl
  · exact absurd (show j' < j + 1 by omega) h3
  · exact (averageMatrix_border env SubImage MeanStd image i' j' (by omega)).symm
  · rfl

theorem averages_eq (env : FloatEnv) (SubImage : Image → ℤ → ℤ → ℤ → ℤ → Image)
    (MeanStd : Image → GoFloat × GoFloat) (image : Image) :
    forFromTo 1 10 (fun j average =>
      forFromTo 1 10 (fun i average =>
        setPx average i j
          (MeanStd (SubImage image
            (floorToInt (fdiv env.f64 (intToFloat64 env ((Dimensions image).1 : ℤ)) (.fin 11))
              * (i : ℤ) - 2)
            (floorToInt (fdiv env.f64 (intToFloat64 env ((Dimensions image).2 : ℤ)) (.fin 11))
              * (j : ℤ) - 2) 5 5)).1)
        average) (make2D 11 11)
      = some (tabulate 11 11 (averageMatrix env SubImage MeanStd image)) := by
  have e : 10 - 1 = 9 := rfl
  simp only [forFromTo, e]
  obtain ⟨out, hout, hP⟩ := loopOver_range' _
    (fun k out => out = tabulate 11 11 (fun i j =>
      if j < k then averageMatrix env SubImage MeanStd image i j else .fin 0))
    9 1 (make2D 11 11)
    (by
      rw [make2D_eq_tabulate]
      apply tabulate_congr
      intro i j _ _
      split_ifs with h1
      · exact (averageMatrix_border env SubImage MeanStd image i j (by omega)).symm
      · rfl)
    (by
      intro j s hj1 hj2 hs
      refine ⟨_, ?_, rfl⟩
      rw [hs]
      exact averages_row env SubImage MeanStd image j hj1 (by omega))
  rw [hout, hP]
  congr 1

theorem forInts_neg_one_two {σ : Type} (body : ℤ → σ → Option σ) (s : σ) :
    forInts (-1) 2 body s = loopEach body [-1, 0, 1] s := by
  rfl

theorem region_step (env : FloatEnv) (M : ℕ → ℕ → GoFloat) (aI aJ : ℕ) (h1 : 1 ≤ aI)
    (h2 : aI ≤ 9) (h3 : 1 ≤ aJ) (h4 : aJ ≤ 9) (signature : List ℤ) :
    forInts (-1) 2 (fun nJ signature =>
      forInts (-1) 2 (fun nI signature =>
        if !(nI == 0 && nJ == 0) then
          match getPx (tabulate 11 11 M) aI aJ,
            getPxInt (tabulate 11 11 M) ((aI : ℤ) + nI) ((aJ : ℤ) + nJ) with
          | some x, some y => some (signature ++ [classify (fsub env.f32 x y)])
          | _, _ => none
        else some signature) signature) signature
      = some (signature ++ regionSignature env M aI aJ) := by
  have hc : getPx (tabulate 11 11 M) aI aJ = some (M aI aJ) :=
    getPx_tabulate 11 11 M aI aJ (by omega) (by omega)
  have hn : ∀ nI nJ : ℤ, -1 ≤ nI → nI ≤ 1 → -1 ≤ nJ → nJ ≤ 1 →
      getPxInt (tabulate 11 11 M) ((aI : ℤ) + nI) ((aJ : ℤ) + nJ)
        = some (M ((aI : ℤ) + nI).toNat ((aJ : ℤ) + nJ).toNat) := by
    intro nI nJ a1 a2 a3 a4
    exact getPxInt_tabulate 11 11 M _ _ (by omega) (by omega) (by omega) (by omega)
  simp only [forInts_neg_one_two, loopEach, hc]
  rw [hn (-1) (-1) (by norm_num) (by norm_num) (by norm_num) (by norm_num),
    hn 0 (-1) (by norm_num) (by norm_num) (by norm_num) (by norm_num),
    hn 1 (-1) (by norm_num) (by norm_num) (by norm_num) (by norm_num),
    hn (-1) 0 (by norm_num) (by norm_num) (by norm_num) (by norm_num),
    hn 1 0 (by norm_num) (by norm_num) (by norm_num) (by norm_num),
    hn (-1) 1 (by norm_num) (by norm_num) (by norm_num) (by norm_num),
    hn 0 1 (by norm_num) (by norm_num) (by norm_num) (by norm_num),
    hn 1 1 (by norm_num) (by norm_num) (by norm_num) (by norm_num)]
  simp [regionSignature, neighbours]

theorem SignatureVector_eq (env : FloatEnv) (SubImage : Image → ℤ → ℤ → ℤ → ℤ → Image)
    (MeanStd : Image → GoFloat × GoFloat) (image : Image) :
    SignatureVector env SubImage MeanStd image
      = .ok (signatureOf env (averageMatrix env SubImage MeanStd image)) := by
  have hav := averages_eq env SubImage MeanStd image
  unfold SignatureVector
  rcases hD : Dimensions image with ⟨wd, ht⟩
  rw [hD] at hav
  simp only at hav ⊢
  rw [hav]
  simp only
  have e : 10 - 1 = 9 := rfl
  have hrow : ∀ aJ ∈ List.range' 1 9, ∀ t : List ℤ,
      forFromTo 1 10 (fun aI signature =>
        forInts (-1) 2 (fun nJ signature =>
          forInts (-1) 2 (fun nI signature =>
            if !(nI == 0 && nJ == 0) then
              match getPx (tabulate 11 11 (averageMatrix env SubImage MeanStd image)) aI aJ,
                getPxInt (tabulate 11 11 (averageMatrix env SubImage MeanStd image))
                  ((aI : ℤ) + nI) ((aJ : ℤ) + nJ) with
              | some x, some y => some (signature ++ [classify (fsub env.f32 x y)])
              | _, _ => none
            else some signature) signature) signature) t
        = some (t ++ (List.range' 1 9).flatMap (fun aI =>
            regionSignature env (averageMatrix env SubImage MeanStd image) aI aJ)) := by
    intro aJ haJ t
    have hJ := List.mem_range'_1.mp haJ
    simp only [forFromTo, e]
    apply loopOver_append
    intro aI haI s
    have hI := List.mem_range'_1.mp haI
    exact region_step env _ aI aJ (by omega) (by omega) (by omega) (by omega) s
  have hall : forFromTo 1 10 (fun aJ signature =>
      forFromTo 1 10 (fun aI signature =>
        forInts (-1) 2 (fun nJ signature =>
          forInts (-1) 2 (fun nI signature =>
            if !(nI == 0 && nJ == 0) then
              match getPx (tabulate 11 11 (averageMatrix env SubImage MeanStd image)) aI aJ,
                getPxInt (tabulate 11 11 (averageMatrix env SubImage MeanStd image))
                  ((aI : ℤ) + nI) ((aJ : ℤ) + nJ) with
              | some x, some y => some (signature ++ [classify (fsub env.f32 x y)])
              | _, _ => none
            else some signature) signature) signature) signature) ([] : List ℤ)
      = some ([] ++ (List.range' 1 9).flatMap (fun aJ =>
          (List.range' 1 9).flatMap (fun aI =>
            regionSignature env (averageMatrix env SubImage MeanStd image) aI aJ))) :=
    loopOver_append _ _ (List.range' 1 9) ([] : List ℤ) hrow
  rw [hall]
  rfl

theorem length_flatMap_const {α β : Type} (f : α → List β) (c : ℕ)
    (hc : ∀ a, (f a).length = c) : ∀ l : List α, (l.flatMap f).length = l.length * c := by
  intro l
  induction l with
  | nil => simp
  | cons a l ih =>
    simp only [List.flatMap_cons, List.length_append, hc, ih, List.length_cons]
    ring

theorem getElem?_flatMap_const {α β : Type} (f : α → List β) (c : ℕ)
    (hc : ∀ a, (f a).length = c) :
    ∀ (l : List α) (n k : ℕ), k < c →
      (l.flatMap f)[n * c + k]? = (l[n]?).bind (fun a => (f a)[k]?) := by
  intro l
  induction l with
  | nil => intro n k _; simp
  | cons a l ih =>
    intro n k hk
    simp only [List.flatMap_cons]
    cases n with
    | zero =>
      simp only [Nat.zero_mul, Nat.zero_add, List.getElem?_cons_zero, Option.some_bind]
      exact List.getElem?_append_left (by rw [hc]; exact hk)
    | succ n =>
      have hle : (f a).length ≤ (n + 1) * c + k := by
        rw [hc, Nat.add_mul, Nat.one_mul]
        omega
      rw [List.getElem?_append_right hle, List.getElem?_cons_succ]
      have e : (n + 1) * c + k - (f a).length = n * c + k := by
        rw [hc, Nat.add_mul, Nat.one_mul]
        omega
      rw [e]
      exact ih n k hk

theorem regionSignature_length (env : FloatEnv) (M : ℕ → ℕ → GoFloat) (aI aJ : ℕ) :
    (regionSignature env M aI aJ).length = 8 := by
  simp [regionSignature, neighbours]

theorem classify_values (d : GoFloat) :
    classify d = -2 ∨ classify d = -1 ∨ classify d = 0 ∨ classify d = 1 ∨ classify d = 2 := by
  unfold classify
  split_ifs <;> simp

/-- C14: whatever the image is and whatever `SubImage` and `MeanStd` return for its
regions (NaN and the infinities included), `SignatureVector` returns a vector of exactly
648 elements, each of them one of -2, -1, 0, 1, 2. -/
theorem SignatureVector_length_and_range (env : FloatEnv)
    (SubImage : Image → ℤ → ℤ → ℤ → ℤ → Image) (MeanStd : Image → GoFloat × GoFloat)
    (image : Image) :
    ∃ signature, SignatureVector env SubImage MeanStd image = .ok signature ∧
      signature.length = 648 ∧
      ∀ x ∈ signature, x = -2 ∨ x = -1 ∨ x = 0 ∨ x = 1 ∨ x = 2 := by
  refine ⟨_, SignatureVector_eq env SubImage MeanStd image, ?_, ?_⟩
  · unfold signatureOf
    rw [length_flatMap_const _ 72]
    · simp
    · intro aJ
      rw [length_flatMap_const _ 8 (fun aI => regionSignature_length env _ aI aJ)]
      simp
  · intro x hx
    unfold signatureOf at hx
    obtain ⟨aJ, _, hx⟩ := List.mem_flatMap.mp hx
    obtain ⟨aI, _, hx⟩ := List.mem_flatMap.mp hx
    unfold regionSignature at hx
    obtain ⟨n, _, rfl⟩ := List.mem_map.mp hx
    exact classify_values _

theorem classify_fin (q : ℚ) :
    classify (.fin q)
      = if q < -2 then -2 else if q < 0 then -1 else if q = 0 then 0 else if q ≤ 2 then 1
        else 2 := by
  unfold classify
  simp only [flt, fle]
  by_cases h1 : q < -2
  · simp [h1]
  · have h1' : -2 ≤ q := not_lt.mp h1
    by_cases h2 : q < 0
    · simp [h1, h1', h2]
    · have h2' : 0 ≤ q := not_lt.mp h2
      by_cases h3 : q = 0
      · subst h3
        norm_num
      · have h3' : 0 < q := lt_of_le_of_ne h2' (fun h => h3 h.symm)
        by_cases h4 : q ≤ 2
        · simp [h1, h2, h3, h3', h4]
        · have h4' : 2 < q := not_le.mp h4
          simp [h1, h2, h3, h3', h4, h4']

theorem neighbour_at_rank (env : FloatEnv) (M : ℕ → ℕ → GoFloat) (aI aJ : ℕ) (nI nJ : ℤ)
    (h5 : -1 ≤ nI) (h6 : nI ≤ 1) (h7 : -1 ≤ nJ) (h8 : nJ ≤ 1) (h9 : ¬ (nI = 0 ∧ nJ = 0)) :
    neighbourRank nJ nI < 8 ∧
      (regionSignature env M aI aJ)[neighbourRank nJ nI]?
        = some (classify (fsub env.f32 (M aI aJ)
            (M ((aI : ℤ) + nI).toNat ((aJ : ℤ) + nJ).toNat))) := by
  have hI : nI = -1 ∨ nI = 0 ∨ nI = 1 := by omega
  have hJ : nJ = -1 ∨ nJ = 0 ∨ nJ = 1 := by omega
  rcases hI with rfl | rfl | rfl <;> rcases hJ with rfl | rfl | rfl <;>
    first
    | (simp at h9; done)
    | exact ⟨by decide, rfl⟩

/-- C15: for every region `(aI, aJ)` with `1 ≤ aI, aJ ≤ 9` and every neighbour offset
`(nI, nJ)` other than `(0, 0)`, the element of the signature at index
`8 * (9 * (aJ - 1) + (aI - 1)) + k`, with `k` the rank of the offset in the order of the
loops, is `classify (M[aI][aJ] - M[aI + nI][aJ + nJ])`, where `M` is the 11 by 11 matrix
of region averages with a zero border and `classify` gives -2 below -2, -1 from -2 to
below 0, 1 above 0 up to 2, 2 above 2, and 0 otherwise (at 0 and at NaN). -/
theorem SignatureVector_element (env : FloatEnv)
    (SubImage : Image → ℤ → ℤ → ℤ → ℤ → Image) (MeanStd : Image → GoFloat × GoFloat)
    (image : Image) (aI aJ : ℕ) (nI nJ : ℤ) (h1 : 1 ≤ aI) (h2 : aI ≤ 9) (h3 : 1 ≤ aJ)
    (h4 : aJ ≤ 9) (h5 : -1 ≤ nI) (h6 : nI ≤ 1) (h7 : -1 ≤ nJ) (h8 : nJ ≤ 1)
    (h9 : ¬ (nI = 0 ∧ nJ = 0)) :
    (∃ signature, SignatureVector env SubImage MeanStd image = .ok signature ∧
      signature[8 * (9 * (aJ - 1) + (aI - 1)) + neighbourRank nJ nI]?
        = some (classify (fsub env.f32
            (averageMatrix env SubImage MeanStd image aI aJ)
            (averageMatrix env SubImage MeanStd image
              ((aI : ℤ) + nI).toNat ((aJ : ℤ) + nJ).toNat)))) ∧
      (∀ q : ℚ, classify (.fin q)
        = if q < -2 then -2 else if q < 0 then -1 else if q = 0 then 0
          else if q ≤ 2 then 1 else 2) ∧
      classify .nan = 0 ∧ classify .pinf = 2 ∧ classify .ninf = -2 := by
  refine ⟨⟨_, SignatureVector_eq env SubImage MeanStd image, ?_⟩, classify_fin,
    by decide, by decide, by decide⟩
  obtain ⟨hk, hel⟩ := neighbour_at_rank env (averageMatrix env SubImage MeanStd image)
    aI aJ nI nJ h5 h6 h7 h8 h9
  have hidx : 8 * (9 * (aJ - 1) + (aI - 1)) + neighbourRank nJ nI
      = (aJ - 1) * 72 + ((aI - 1) * 8 + neighbourRank nJ nI) := by omega
  unfold signatureOf
  rw [hidx, getElem?_flatMap_const _ 72 (fun aJ => by
      rw [length_flatMap_const _ 8 (fun aI => regionSignature_length env _ aI aJ)]
      simp) _ _ _ (by omega)]
  have hJ : (List.range' 1 9)[aJ - 1]? = some aJ := by
    rw [List.getElem?_range' 1 1 (by omega : aJ - 1 < 9)]
    congr 1
    omega
  have hI : (List.range' 1 9)[aI - 1]? = some aI := by
    rw [List.getElem?_range' 1 1 (by omega : aI - 1 < 9)]
    congr 1
    omega
  rw [hJ, Option.some_bind,
    getElem?_flatMap_const _ 8 (fun aI => regionSignature_length env _ aI aJ) _ _ _ hk,
    hI, Option.some_bind]
  exact hel

/-- Witness of C15: the region `(2, 3)` and its neighbour at offset `(1, -1)`, for an image
of 22 by 22 zeros, a `SubImage` that returns the one-sample grid holding `x - y`, and a
`MeanStd` that returns that sample as the mean; the index is 154 and the element is -2. -/
theorem SignatureVector_element_witness :
    ∃ signature, SignatureVector ieee (fun _ x y _ _ => [[.fin ((x - y : ℤ) : ℚ)]])
        (fun roi => (px roi 0 0, .fin 0)) (List.replicate 22 (List.replicate 22 (.fin 0)))
        = .ok signature ∧
      signature[8 * (9 * (3 - 1) + (2 - 1)) + neighbourRank (-1) 1]?
        = some (classify (fsub ieee.f32
            (averageMatrix ieee (fun _ x y _ _ => [[.fin ((x - y : ℤ) : ℚ)]])
              (fun roi => (px roi 0 0, .fin 0))
              (List.replicate 22 (List.replicate 22 (.fin 0))) 2 3)
            (averageMatrix ieee (fun _ x y _ _ => [[.fin ((x - y : ℤ) : ℚ)]])
              (fun roi => (px roi 0 0, .fin 0))
              (List.replicate 22 (List.replicate 22 (.fin 0)))
              ((2 : ℤ) + 1).toNat ((3 : ℤ) + -1).toNat))) :=
  (SignatureVector_element ieee (fun _ x y _ _ => [[.fin ((x - y : ℤ) : ℚ)]])
    (fun roi => (px roi 0 0, .fin 0)) (List.replicate 22 (List.replicate 22 (.fin 0)))
    2 3 1 (-1) (by decide) (by decide) (by decide) (by decide) (by decide) (by decide)
    (by decide) (by decide) (by decide)).1

/-! ## The samples of a convolution -/

theorem loopOver_foldl {σ : Type} (body : ℕ → σ → Option σ) (F : σ → ℕ → σ) :
    ∀ (l : List ℕ) (s : σ), (∀ k ∈ l, ∀ t, body k t = some (F t k)) →
      loopOver body l s = some (l.foldl F s) := by
  intro l
  induction l with
  | nil => intro s _; rfl
  | cons k ks ih =>
    intro s h
    simp only [loopOver, h k (List.mem_cons_self k ks) s, List.foldl_cons]
    exact ih _ (fun k' hk' t => h k' (List.mem_cons_of_mem _ hk') t)

theorem halfCeil_eq (n : ℕ) : halfCeil n = (n + 1) / 2 := by
  unfold halfCeil
  generalize hm : (n + 1) / 2 = m
  have h2 : m * 2 ≤ n + 1 ∧ n ≤ m * 2 := by omega
  obtain ⟨a, b⟩ := h2
  have a' : (m : ℚ) * 2 ≤ (n : ℚ) + 1 := by exact_mod_cast a
  have b' : (n : ℚ) ≤ (m : ℚ) * 2 := by exact_mod_cast b
  have h : ⌈(1 / 2 : ℚ) * (n : ℚ)⌉ = ((m : ℕ) : ℤ) := by
    rw [Int.ceil_eq_iff]
    simp only [Int.cast_natCast]
    constructor <;> linarith
  rw [h]
  exact Int.toNat_natCast m

theorem le_two_halfCeil (n : ℕ) : n ≤ halfCeil n + halfCeil n := by
  rw [halfCeil_eq]
  omega

theorem padImage_eq (image : Image) (w h hw hh : ℕ) (himg : IsRect image w h) :
    padImage image w h hw hh
      = some (tabulate (w + hw + hw) (h + hh + hh) (fun x y =>
          zeroExt image w h ((x : ℤ) - (hw : ℤ)) ((y : ℤ) - (hh : ℤ)))) := by
  unfold padImage
  obtain ⟨out, hout, hP⟩ := forRange_rule h
    (fun j padded =>
      forRange w (fun i padded =>
        match getPx image i j with
        | none => none
        | some v => setPx padded (i + hw) (j + hh) v) padded)
    (fun k out => out = tabulate (w + hw + hw) (h + hh + hh) (fun x y =>
      if (y : ℤ) - (hh : ℤ) < (k : ℤ) then
        zeroExt image w h ((x : ℤ) - (hw : ℤ)) ((y : ℤ) - (hh : ℤ)) else .fin 0))
    (make2D (w + hw + hw) (h + hh + hh))
    (by
      rw [make2D_eq_tabulate]
      apply tabulate_congr
      intro x y _ _
      split_ifs with h1
      · have : ¬ (0 ≤ (x : ℤ) - (hw : ℤ) ∧ (x : ℤ) - (hw : ℤ) < (w : ℤ)
            ∧ 0 ≤ (y : ℤ) - (hh : ℤ) ∧ (y : ℤ) - (hh : ℤ) < (h : ℤ)) := by omega
        simp only [zeroExt, this, if_false]
      · rfl)
    (by
      intro k s hk hs
      obtain ⟨out, hout, hP⟩ := forRange_rule w
        (fun i padded =>
          match getPx image i k with
          | none => none
          | some v => setPx padded (i + hw) (k + hh) v)
        (fun m out => out = tabulate (w + hw + hw) (h + hh + hh) (fun x y =>
          if (y : ℤ) - (hh : ℤ) < (k : ℤ)
              ∨ ((y : ℤ) - (hh : ℤ) = (k : ℤ) ∧ (x : ℤ) - (hw : ℤ) < (m : ℤ)) then
            zeroExt image w h ((x : ℤ) - (hw : ℤ)) ((y : ℤ) - (hh : ℤ)) else .fin 0))
        s
        (by
          rw [hs]
          apply tabulate_congr
          intro x y _ _
          split_ifs with h1 h2 h2
          · rfl
          · exact absurd (Or.inl h1) h2
          · have : ¬ (0 ≤ (x : ℤ) - (hw : ℤ) ∧ (x : ℤ) - (hw : ℤ) < (w : ℤ)
                ∧ 0 ≤ (y : ℤ) - (hh : ℤ) ∧ (y : ℤ) - (hh : ℤ) < (h : ℤ)) := by omega
            simp only [zeroExt, this, if_false]
          · rfl)
        (by
          intro m t hm ht
          refine ⟨_, ?_, rfl⟩
          beta_reduce
          rw [getPx_eq_px image w h m k himg hm hk]
          simp only []
          rw [ht, setPx_tabulate _ _ _ (m + hw) (k + hh) _ (by omega) (by omega)]
          congr 1
          apply tabulate_congr
          intro x y _ _
          by_cases h1 : x = m + hw ∧ y = k + hh
          · obtain ⟨rfl, rfl⟩ := h1
            have h2 : ((k + hh : ℕ) : ℤ) - (hh : ℤ) < (k : ℤ)
                ∨ (((k + hh : ℕ) : ℤ) - (hh : ℤ) = (k : ℤ)
                  ∧ ((m + hw : ℕ) : ℤ) - (hw : ℤ) < ((m + 1 : ℕ) : ℤ)) := by omega
            have h3 : 0 ≤ ((m + hw : ℕ) : ℤ) - (hw : ℤ)
                ∧ ((m + hw : ℕ) : ℤ) - (hw : ℤ) < (w : ℤ)
                ∧ 0 ≤ ((k + hh : ℕ) : ℤ) - (hh : ℤ)
                ∧ ((k + hh : ℕ) : ℤ) - (hh : ℤ) < (h : ℤ) := by omega
            have e1 : (((m + hw : ℕ) : ℤ) - (hw : ℤ)).toNat = m := by omega
            have e2 : (((k + hh : ℕ) : ℤ) - (hh : ℤ)).toNat = k := by omega
            rw [if_pos ⟨rfl, rfl⟩, if_pos h2]
            simp only [zeroExt, h3, and_self, if_true, e1, e2]
          · rw [if_neg h1]
            split_ifs with h2 h3 h3
            · rfl
            · exact absurd (show (y : ℤ) - (hh : ℤ) < (k : ℤ)
                ∨ ((y : ℤ) - (hh : ℤ) = (k : ℤ)
                  ∧ (x : ℤ) - (hw : ℤ) < ((m + 1 : ℕ) : ℤ)) by omega) h3
            · exact absurd (show (y : ℤ) - (hh : ℤ) < (k : ℤ)
                ∨ ((y : ℤ) - (hh : ℤ) = (k : ℤ)
                  ∧ (x : ℤ) - (hw : ℤ) < (m : ℤ)) by omega) h2
            · rfl)
      refine ⟨out, hout, ?_⟩
      rw [hP]
      apply tabulate_congr
      intro x y _ _
      split_ifs with h2 h3 h3
      · rfl
      · exact absurd (show (y : ℤ) - (hh : ℤ) < ((k + 1 : ℕ) : ℤ) by omega) h3
      · have : ¬ (0 ≤ (x : ℤ) - (hw : ℤ) ∧ (x : ℤ) - (hw : ℤ) < (w : ℤ)
            ∧ 0 ≤ (y : ℤ) - (hh : ℤ) ∧ (y : ℤ) - (hh : ℤ) < (h : ℤ)) := by omega
        simp only [zeroExt, this, if_false]
      · rfl)
  refine hout.trans ?_
  rw [hP]
  congr 1
  apply tabulate_congr
  intro x y _ _
  split_ifs with h1
  · rfl
  · have : ¬ (0 ≤ (x : ℤ) - (hw : ℤ) ∧ (x : ℤ) - (hw : ℤ) < (w : ℤ)
        ∧ 0 ≤ (y : ℤ) - (hh : ℤ) ∧ (y : ℤ) - (hh : ℤ) < (h : ℤ)) := by omega
    simp only [zeroExt, this, if_false]

theorem dotAt_eq (env : FloatEnv) (image kernel : Image) (w h kw kh hw hh i j : ℕ)
    (hk : IsRect kernel kw kh) (hi : i < w) (hj : j < h)
    (hkw : kw ≤ hw + hw) (hkh : kh ≤ hh + hh) :
    dotAt env (tabulate (w + hw + hw) (h + hh + hh) (fun x y =>
        zeroExt image w h ((x : ℤ) - (hw : ℤ)) ((y : ℤ) - (hh : ℤ)))) kernel kw kh hw hh i j
      = some (dotSum env (fun kI kJ =>
          fmul env.f64
            (toFloat64 (zeroExt image w h ((i : ℤ) + (kI : ℤ) - (hw : ℤ))
              ((j : ℤ) + (kJ : ℤ) - (hh : ℤ))))
            (toFloat64 (px kernel kI kJ))) kw kh) := by
  unfold dotAt dotSum forRange
  apply loopOver_foldl
  intro kJ hkJ acc
  have hkJ' : kJ < kh := List.mem_range.mp hkJ
  apply loopOver_foldl
  intro kI hkI acc'
  have hkI' : kI < kw := List.mem_range.mp hkI
  rw [getPxInt_tabulate _ _ _ _ _ (by omega) (by push_cast; omega) (by omega)
    (by push_cast; omega), getPx_eq_px kernel kw kh kI kJ hk hkI' hkJ']
  have e1 : ((((i : ℤ) + ((kI : ℤ) - (hw : ℤ)) + (hw : ℤ)).toNat : ℕ) : ℤ) - (hw : ℤ)
      = (i : ℤ) + (kI : ℤ) - (hw : ℤ) := by omega
  have e2 : ((((j : ℤ) + ((kJ : ℤ) - (hh : ℤ)) + (hh : ℤ)).toNat : ℕ) : ℤ) - (hh : ℤ)
      = (j : ℤ) + (kJ : ℤ) - (hh : ℤ) := by omega
  simp only [e1, e2]

theorem Convolution_eq (env : FloatEnv) (Normalise : Image → Image) (image kernel : Image)
    (w h kw kh : ℕ) (normalise : Bool) (himg : IsRect image w h) (hw : 0 < w)
    (hk : IsRect kernel kw kh) (hkw : 0 < kw) :
    Convolution env Normalise image kernel normalise
      = finish Normalise normalise
          (some (tabulate w h (fun i j => convSample env image kernel w h kw kh i j))) := by
  unfold Convolution
  rw [Dimensions_of_isRect image w h himg hw, Dimensions_of_isRect kernel kw kh hk hkw]
  simp only []
  rw [padImage_eq image w h _ _ himg]
  simp only []
  congr 1
  apply pixelLoop_eq
  intro i j hi hj
  rw [dotAt_eq env image kernel w h kw kh _ _ i j hk hi hj (le_two_halfCeil kw)
    (le_two_halfCeil kh)]
  rfl

/-! ## Separable convolution -/

/-- C11 fails on the code: each call of `Convolution` moves the image by
`ceil(kernelWidth / 2)` columns and `ceil(kernelHeight / 2)` rows, so the two passes of
`SepConvolution` move it by one column and one row more than the single pass with the
outer product does. With `A = [[1, 2], [3, 4]]`, `kx = [[1]]` and `ky = [[1]]`, whose
outer product is `K = [[1]]`, the direct convolution keeps the sample `A[0][0]` at
`(1, 1)` and the separable one has lost it, under exact arithmetic as under the binary
formats. -/
theorem SepConvolution_differs_from_outer_product :
    SepConvolution (exactArith id) id [[.fin 1, .fin 2], [.fin 3, .fin 4]]
        [[.fin 1]] [[.fin 1]] false
      = .ok [[.fin 0, .fin 0], [.fin 0, .fin 0]]
    ∧ Convolution (exactArith id) id [[.fin 1, .fin 2], [.fin 3, .fin 4]]
        [[fmul (exactArith id).f32 (.fin 1) (.fin 1)]] false
      = .ok [[.fin 0, .fin 0], [.fin 0, .fin 1]]
    ∧ SepConvolution ieee id [[.fin 1, .fin 2], [.fin 3, .fin 4]]
        [[.fin 1]] [[.fin 1]] false
      = .ok [[.fin 0, .fin 0], [.fin 0, .fin 0]]
    ∧ Convolution ieee id [[.fin 1, .fin 2], [.fin 3, .fin 4]]
        [[fmul ieee.f32 (.fin 1) (.fin 1)]] false
      = .ok [[.fin 0, .fin 0], [.fin 0, .fin 1]] := by
  refine ⟨?_, ?_, ?_, ?_⟩ <;> decide!

/-! ## NormaliseKernel -/

theorem getElem?_zero_of_isRect (a : Image) (w h : ℕ) (ha : IsRect a w h) (hw : 0 < w) :
    ∃ first, a[0]? = some first ∧ first.length = h := by
  obtain ⟨hl, hc⟩ := ha
  cases a with
  | nil => simp at hl; omega
  | cons c cs => exact ⟨c, by simp, hc c (List.mem_cons_self c cs)⟩

theorem sumLoop_eq (env : FloatEnv) (kernel : Image) (w h : ℕ) (hk : IsRect kernel w h) :
    forRange h (fun j sum =>
        forRange w (fun i sum =>
          match getPx kernel i j with
          | none => none
          | some v => some (fadd env.f64 sum (toFloat64 v))) sum) (.fin 0)
      = some (dotSum env (fun i j => toFloat64 (px kernel i j)) w h) := by
  unfold dotSum forRange
  apply loopOver_foldl
  intro j hj acc
  apply loopOver_foldl
  intro i hi acc'
  rw [getPx_eq_px kernel w h i j hk (List.mem_range.mp hi) (List.mem_range.mp hj)]

theorem scaleLoop_eq (kernel : Image) (w h : ℕ) (new : ℕ → ℕ → GoFloat)
    (f : GoFloat → GoFloat) (hk : IsRect kernel w h)
    (hnew : ∀ i j, i < w → j < h → new i j = f (px kernel i j)) :
    forRange h (fun j kernel =>
        forRange kernel.length (fun i kernel =>
          match getPx kernel i j with
          | none => none
          | some v => setPx kernel i j (f v)) kernel) kernel
      = some (tabulate w h new) := by
  obtain ⟨out, hout, hP⟩ := forRange_rule h
    (fun j kernel =>
        forRange kernel.length (fun i kernel =>
          match getPx kernel i j with
          | none => none
          | some v => setPx kernel i j (f v)) kernel)
    (fun k out => out = tabulate w h (fun i j => if j < k then new i j else px kernel i j))
    kernel
    (by
      rw [← tabulate_px kernel w h hk]
      apply tabulate_congr
      intro i j _ _
      simp [tabulate_px kernel w h hk])
    (by
      intro k s hk' hs
      have hlen : s.length = w := by rw [hs]; exact tabulate_length _ _ _
      obtain ⟨out, hout, hP⟩ := forRange_rule w
        (fun i kernel =>
          match getPx kernel i k with
          | none => none
          | some v => setPx kernel i k (f v))
        (fun m out => out = tabulate w h (fun i j =>
          if j < k ∨ (j = k ∧ i < m) then new i j else px kernel i j))
        s
        (by
          rw [hs]
          apply tabulate_congr
          intro i j _ _
          have : (j < k ∨ (j = k ∧ i < 0)) ↔ j < k := by omega
          simp only [this])
        (by
          intro m t hm ht
          refine ⟨_, ?_, rfl⟩
          beta_reduce
          rw [ht, getPx_tabulate _ _ _ m k hm hk']
          have e : (if k < k ∨ (k = k ∧ m < m) then new m k else px kernel m k)
              = px kernel m k := if_neg (by omega)
          rw [e]
          simp only []
          rw [setPx_tabulate _ _ _ m k _ hm hk']
          congr 1
          apply tabulate_congr
          intro i j _ _
          by_cases h1 : i = m ∧ j = k
          · obtain ⟨rfl, rfl⟩ := h1
            have h2 : j < j ∨ (j = j ∧ i < i + 1) := by omega
            rw [if_pos ⟨rfl, rfl⟩, if_pos h2]
            exact (hnew i j hm hk').symm
          · rw [if_neg h1]
            have : (j < k ∨ (j = k ∧ i < m + 1)) ↔ (j < k ∨ (j = k ∧ i < m)) := by omega
            simp only [this])
      refine ⟨out, ?_, ?_⟩
      · beta_reduce
        rw [hlen]
        exact hout
      · rw [hP]
        apply tabulate_congr
        intro i j hi _
        have : (j < k ∨ (j = k ∧ i < w)) ↔ j < k + 1 := by omega
        simp only [this])
  refine hout.trans ?_
  rw [hP]
  congr 1
  apply tabulate_congr
  intro i j _ hj
  simp only [hj, if_true]

theorem NormaliseKernel_eq (env : FloatEnv) (kernel : Image) (w h : ℕ)
    (hk : IsRect kernel w h) (hw : 0 < w) :
    NormaliseKernel env kernel
      = .ok (tabulate w h (fun i j => normalisedSample env kernel w h i j)) := by
  obtain ⟨first, hfirst, hlen⟩ := getElem?_zero_of_isRect kernel w h hk hw
  unfold NormaliseKernel
  rw [hfirst]
  simp only [hlen, hk.1]
  rw [sumLoop_eq env kernel w h hk]
  simp only []
  rw [scaleLoop_eq kernel w h (fun i j => normalisedSample env kernel w h i j)
    (fun v => toFloat32 env (fmul env.f64 (toFloat64 v)
      (fdiv env.f64 (.fin 1) (dotSum env (fun i j => toFloat64 (px kernel i j)) w h))))
    hk (fun i j _ _ => rfl)]

theorem dotSum_congr (env : FloatEnv) (term term' : ℕ → ℕ → GoFloat) (kw kh : ℕ)
    (h : ∀ kI kJ, kI < kw → kJ < kh → term kI kJ = term' kI kJ) :
    dotSum env term kw kh = dotSum env term' kw kh := by
  unfold dotSum
  apply List.foldl_ext
  intro acc kJ hkJ
  apply List.foldl_ext
  intro acc' kI hkI
  rw [h kI kJ (List.mem_range.mp hkI) (List.mem_range.mp hkJ)]

theorem gridSum_congr (t t' : ℕ → ℕ → ℚ) (w h : ℕ)
    (ht : ∀ i j, i < w → j < h → t i j = t' i j) : gridSum t w h = gridSum t' w h := by
  unfold gridSum
  congr 1
  apply List.map_congr_left
  intro j hj
  congr 1
  apply List.map_congr_left
  intro i hi
  exact ht i j (List.mem_range.mp hi) (List.mem_range.mp hj)

theorem gridSum_div (t : ℕ → ℕ → ℚ) (w h : ℕ) (c : ℚ) :
    gridSum (fun i j => t i j / c) w h = gridSum t w h / c := by
  unfold gridSum
  simp only [div_eq_mul_inv, List.sum_map_mul_right]

theorem foldl_fadd_exact (l : List ℕ) (t : ℕ → ℚ) :
    ∀ a : ℚ, l.foldl (fun acc k => fadd ⟨id, none⟩ acc (.fin (t k))) (.fin a)
      = .fin (a + (l.map t).sum) := by
  induction l with
  | nil => intro a; simp
  | cons k ks ih =>
    intro a
    simp only [List.foldl_cons, List.map_cons, List.sum_cons]
    have e : fadd ⟨id, none⟩ (.fin a) (.fin (t k)) = .fin (a + t k) := rfl
    rw [e, ih, add_assoc]

theorem dotSum_exact (sqrt : ℚ → ℚ) (t : ℕ → ℕ → ℚ) (w h : ℕ) :
    dotSum (exactArith sqrt) (fun i j => .fin (t i j)) w h = .fin (gridSum t w h) := by
  unfold dotSum gridSum
  have key : ∀ (l : List ℕ) (a : ℚ),
      l.foldl (fun acc j => (List.range w).foldl
        (fun acc i => fadd (exactArith sqrt).f64 acc (.fin (t i j))) acc) (.fin a)
        = .fin (a + (l.map (fun j => ((List.range w).map (fun i => t i j)).sum)).sum) := by
    intro l
    induction l with
    | nil => intro a; simp
    | cons j js ih =>
      intro a
      simp only [List.foldl_cons, List.map_cons, List.sum_cons]
      have e := foldl_fadd_exact (List.range w) (fun i => t i j) a
      have e' : (exactArith sqrt).f64 = ⟨id, none⟩ := rfl
      rw [e', e, ← e', ih, add_assoc]
  have := key (List.range h) 0
  rw [zero_add] at this
  exact this

theorem NormaliseKernel_exact (sqrt : ℚ → ℚ) (kernel : Image) (w h : ℕ)
    (q : ℕ → ℕ → ℚ) (hk : IsRect kernel w h) (hw : 0 < w)
    (hq : ∀ i j, i < w → j < h → px kernel i j = .fin (q i j))
    (hS : gridSum q w h ≠ 0) :
    ∃ out, NormaliseKernel (exactArith sqrt) kernel = .ok out ∧ IsRect out w h
      ∧ (∀ i j, i < w → j < h → px out i j = .fin (q i j / gridSum q w h))
      ∧ gridSum (fun i j => (px out i j).toRat) w h = 1 := by
  have hsum : dotSum (exactArith sqrt) (fun i j => toFloat64 (px kernel i j)) w h
      = .fin (gridSum q w h) := by
    exact (dotSum_congr (exactArith sqrt) _ (fun i j => .fin (q i j)) w h
      (fun i j hi hj => hq i j hi hj)).trans (dotSum_exact sqrt q w h)
  have hpx : ∀ i j, i < w → j < h →
      px (tabulate w h (fun i j => normalisedSample (exactArith sqrt) kernel w h i j)) i j
        = .fin (q i j / gridSum q w h) := by
    intro i j hi hj
    unfold px
    rw [getPx_tabulate _ _ _ i j hi hj]
    simp only [Option.getD_some, normalisedSample]
    rw [hsum, show px kernel i j = .fin (q i j) from hq i j hi hj]
    have e1 : fdiv (exactArith sqrt).f64 (.fin 1) (.fin (gridSum q w h))
        = .fin (1 / gridSum q w h) := by
      simp only [fdiv, hS, if_false]
      rfl
    rw [e1]
    show GoFloat.fin (q i j * (1 / gridSum q w h)) = _
    congr 1
    field_simp
  refine ⟨_, NormaliseKernel_eq (exactArith sqrt) kernel w h hk hw, isRect_tabulate _ _ _,
    hpx, ?_⟩
  rw [gridSum_congr _ (fun i j => q i j / gridSum q w h) w h
    (fun i j hi hj => by rw [hpx i j hi hj]; rfl), gridSum_div]
  exact div_self hS

/-- C12: under exact arithmetic, for a non-empty `w` by `h` kernel of finite coefficients
`q i j` whose sum `S` is not zero, `NormaliseKernel` returns a `w` by `h` kernel whose
coefficient at `(i, j)` is `q i j / S`, and the coefficients it returns sum to 1. -/
theorem NormaliseKernel_divides_by_sum (sqrt : ℚ → ℚ) (kernel : Image) (w h : ℕ)
    (q : ℕ → ℕ → ℚ) (hk : IsRect kernel w h) (hw : 0 < w)
    (hq : ∀ i j, i < w → j < h → px kernel i j = .fin (q i j))
    (hS : gridSum q w h ≠ 0) :
    ∃ out, NormaliseKernel (exactArith sqrt) kernel = .ok out ∧ IsRect out w h
      ∧ (∀ i j, i < w → j < h → px out i j = .fin (q i j / gridSum q w h))
      ∧ gridSum (fun i j => (px out i j).toRat) w h = 1 :=
  NormaliseKernel_exact sqrt kernel w h q hk hw hq hS

/-- An instance of C12: `[[1, 3], [2, 2]]` has sum 8 and becomes
`[[1/8, 3/8], [1/4, 1/4]]`. -/
theorem NormaliseKernel_divides_by_sum_witness :
    ∃ out, NormaliseKernel (exactArith id) [[.fin 1, .fin 3], [.fin 2, .fin 2]] = .ok out
      ∧ IsRect out 2 2
      ∧ (∀ i j, i < 2 → j < 2 → px out i j
          = .fin ((if i = 0 then (if j = 0 then 1 else 3) else 2)
              / gridSum (fun i j => if i = 0 then (if j = 0 then 1 else 3) else 2) 2 2))
      ∧ gridSum (fun i j => (px out i j).toRat) 2 2 = 1 :=
  NormaliseKernel_divides_by_sum id [[.fin 1, .fin 3], [.fin 2, .fin 2]] 2 2
    (fun i j => if i = 0 then (if j = 0 then 1 else 3) else 2) (by decide) (by decide)
    (by
      intro i j hi hj
      interval_cases i <;> interval_cases j <;> decide!)
    (by decide!)
/-! ## Gaussian -/

theorem gridSum_pos (t : ℕ → ℕ → ℚ) (w h : ℕ) (hw : 0 < w) (hh : 0 < h)
    (ht : ∀ i j, i < w → j < h → 0 < t i j) : 0 < gridSum t w h := by
  unfold gridSum
  apply List.sum_pos
  · intro x hx
    obtain ⟨j, hj, rfl⟩ := List.mem_map.mp hx
    apply List.sum_pos
    · intro y hy
      obtain ⟨i, hi, rfl⟩ := List.mem_map.mp hy
      exact ht i j (List.mem_range.mp hi) (List.mem_range.mp hj)
    · simp; omega
  · simp; omega

theorem Gaussian_underflow (powE : GoFloat → GoFloat) (h0 : powE (.fin 0) = .fin 1) :
    Gaussian ieee powE 1 (.fin (2 ^ 100)) = .ok [[.nan]] := by
  have hloop : pixelLoop 1 1 (fun i j =>
        let a := fdiv ieee.f64 (.fin 1)
          (fmul ieee.f64 (fmul ieee.f64 (.fin twoPi)
            (toFloat64 (.fin (2 ^ 100)))) (toFloat64 (.fin (2 ^ 100))))
        let b := powE (fmul ieee.f64 (.fin (-1))
          (fdiv ieee.f64
            (fadd ieee.f64
              (fmul ieee.f64 (intToFloat64 ieee (i : ℤ)) (intToFloat64 ieee (i : ℤ)))
              (fmul ieee.f64 (intToFloat64 ieee (j : ℤ)) (intToFloat64 ieee (j : ℤ))))
            (fmul ieee.f64 (fmul ieee.f64 (.fin 2)
              (toFloat64 (.fin (2 ^ 100)))) (toFloat64 (.fin (2 ^ 100))))))
        some (toFloat32 ieee (fmul ieee.f64 a b)))
      = some (tabulate 1 1 (fun _ _ => .fin 0)) := by
    apply pixelLoop_eq
    intro i j hi hj
    obtain rfl : i = 0 := by omega
    obtain rfl : j = 0 := by omega
    have e1 : fmul ieee.f64 (.fin (-1))
        (fdiv ieee.f64
          (fadd ieee.f64
            (fmul ieee.f64 (intToFloat64 ieee ((0 : ℕ) : ℤ)) (intToFloat64 ieee ((0 : ℕ) : ℤ)))
            (fmul ieee.f64 (intToFloat64 ieee ((0 : ℕ) : ℤ)) (intToFloat64 ieee ((0 : ℕ) : ℤ))))
          (fmul ieee.f64 (fmul ieee.f64 (.fin 2)
            (toFloat64 (.fin (2 ^ 100)))) (toFloat64 (.fin (2 ^ 100))))) = .fin 0 := by
      decide!
    have e2 : toFloat32 ieee (fmul ieee.f64
        (fdiv ieee.f64 (.fin 1)
          (fmul ieee.f64 (fmul ieee.f64 (.fin twoPi)
            (toFloat64 (.fin (2 ^ 100)))) (toFloat64 (.fin (2 ^ 100)))))
        (.fin 1)) = .fin 0 := by
      decide!
    simp only [e1, h0, e2]
  have hnorm : NormaliseKernel ieee (tabulate 1 1 (fun _ _ => .fin 0)) = .ok [[.nan]] := by
    decide!
  unfold Gaussian
  have hneg : ¬ ((1 : ℤ) < 0) := by decide
  have e3 : (1 : ℤ).toNat = 1 := rfl
  simp only [hneg, if_false, e3]
  rw [hloop]
  exact hnorm

/-- C13 fails on the code: `NormaliseKernel`, whose comment promises a kernel whose
elements sum to 1, divides by the sum of the coefficients without testing it against
zero. With `sigma = 2^100` the density `1 / (2 * pi * sigma^2)` is below the least
positive `float32`, so the only coefficient of `Gaussian(1, sigma)` is stored as 0, the
sum is 0, `inverseSum` is `+Inf` and the coefficient returned is `0 * Inf`, a NaN: it is
not non-negative and the kernel does not sum to 1. The exponential is only evaluated at
0, where it is 1 (`Gaussian_underflow` is the same fact for every such function). -/
theorem Gaussian_wide_sigma_is_nan :
    Gaussian ieee (powEStandIn ieee) 1 (.fin (2 ^ 100)) = .ok [[.nan]] :=
  Gaussian_underflow (powEStandIn ieee) (by decide!)

/-- Under exact arithmetic, with an exponential that is positive and finite on finite
arguments, the sum of the coefficients is positive: for every `size ≥ 1` and every
finite `sigma > 0` the function `Gaussian` returns a `size` by `size` kernel all of
whose coefficients are finite and non-negative and whose coefficients sum to 1. -/
theorem Gaussian_exact_sums_to_one (sqrt : ℚ → ℚ) (powE : GoFloat → GoFloat) (size : ℕ)
    (sigma : ℚ) (hsize : 1 ≤ size) (hsigma : 0 < sigma)
    (hpow : ∀ q, ∃ y, 0 < y ∧ powE (.fin q) = .fin y) :
    ∃ out, Gaussian (exactArith sqrt) powE (size : ℤ) (.fin sigma) = .ok out
      ∧ IsRect out size size
      ∧ (∀ i j, i < size → j < size → ∃ y, 0 ≤ y ∧ px out i j = .fin y)
      ∧ gridSum (fun i j => (px out i j).toRat) size size = 1 := by
  choose e he using hpow
  have h2 : (2 : ℚ) * sigma * sigma ≠ 0 := by positivity
  have hpi : twoPi * sigma * sigma ≠ 0 := by
    have : 0 < twoPi := by norm_num [twoPi]
    positivity
  have hA : 0 < 1 / (twoPi * sigma * sigma) := by
    have : 0 < twoPi := by norm_num [twoPi]
    positivity
  let x : ℕ → ℕ → ℚ := fun i j =>
    -1 * (((i : ℤ) * (i : ℤ) + (j : ℤ) * (j : ℤ) : ℚ) / (2 * sigma * sigma))
  let q : ℕ → ℕ → ℚ := fun i j => 1 / (twoPi * sigma * sigma) * e (x i j)
  have hq : ∀ i j, 0 < q i j := fun i j => mul_pos hA (he (x i j)).1
  have hloop : pixelLoop size size (fun i j =>
        let a := fdiv (exactArith sqrt).f64 (.fin 1)
          (fmul (exactArith sqrt).f64 (fmul (exactArith sqrt).f64 (.fin twoPi)
            (toFloat64 (.fin sigma))) (toFloat64 (.fin sigma)))
        let b := powE (fmul (exactArith sqrt).f64 (.fin (-1))
          (fdiv (exactArith sqrt).f64
            (fadd (exactArith sqrt).f64
              (fmul (exactArith sqrt).f64 (intToFloat64 (exactArith sqrt) (i : ℤ))
                (intToFloat64 (exactArith sqrt) (i : ℤ)))
              (fmul (exactArith sqrt).f64 (intToFloat64 (exactArith sqrt) (j : ℤ))
                (intToFloat64 (exactArith sqrt) (j : ℤ))))
            (fmul (exactArith sqrt).f64 (fmul (exactArith sqrt).f64 (.fin 2)
              (toFloat64 (.fin sigma))) (toFloat64 (.fin sigma)))))
        some (toFloat32 (exactArith sqrt) (fmul (exactArith sqrt).f64 a b)))
      = some (tabulate size size (fun i j => .fin (q i j))) := by
    apply pixelLoop_eq
    intro i j _ _
    have e1 : fdiv (exactArith sqrt).f64 (.fin 1) (.fin (twoPi * sigma * sigma))
        = .fin (1 / (twoPi * sigma * sigma)) := by
      simp only [fdiv, hpi, if_false]
      rfl
    have e2 : fdiv (exactArith sqrt).f64
        (.fin ((i : ℤ) * (i : ℤ) + (j : ℤ) * (j : ℤ) : ℚ)) (.fin (2 * sigma * sigma))
        = .fin (((i : ℤ) * (i : ℤ) + (j : ℤ) * (j : ℤ) : ℚ) / (2 * sigma * sigma)) := by
      simp only [fdiv, h2, if_false]
      rfl
    show some (toFloat32 (exactArith sqrt) (fmul (exactArith sqrt).f64
      (fdiv (exactArith sqrt).f64 (.fin 1) (.fin (twoPi * sigma * sigma)))
      (powE (fmul (exactArith sqrt).f64 (.fin (-1))
        (fdiv (exactArith sqrt).f64
          (.fin ((i : ℤ) * (i : ℤ) + (j : ℤ) * (j : ℤ) : ℚ)) (.fin (2 * sigma * sigma))))))) = _
    rw [e1, e2]
    show some (toFloat32 (exactArith sqrt) (fmul (exactArith sqrt).f64
      (.fin (1 / (twoPi * sigma * sigma))) (powE (.fin (x i j))))) = _
    rw [(he (x i j)).2]
    rfl
  have hS : gridSum q size size ≠ 0 :=
    ne_of_gt (gridSum_pos q size size (by omega) (by omega) (fun i j _ _ => hq i j))
  obtain ⟨out, hout, hrect, hpx, hsum⟩ := NormaliseKernel_exact sqrt
    (tabulate size size (fun i j => .fin (q i j))) size size q (isRect_tabulate _ _ _)
    (by omega)
    (by
      intro i j hi hj
      unfold px
      rw [getPx_tabulate _ _ _ i j hi hj]
      rfl) hS
  refine ⟨out, ?_, hrect, ?_, hsum⟩
  · unfold Gaussian
    have hneg : ¬ ((size : ℤ) < 0) := by omega
    simp only [hneg, if_false, Int.toNat_natCast]
    rw [hloop]
    exact hout
  · intro i j hi hj
    refine ⟨_, ?_, hpx i j hi hj⟩
    exact div_nonneg (le_of_lt (hq i j))
      (le_of_lt (gridSum_pos q size size (by omega) (by omega) (fun i j _ _ => hq i j)))

/-- The 1 by 1 Gaussian kernel of `sigma = 1` under exact arithmetic, with the stand-in
for the exponential. -/
theorem Gaussian_exact_sums_to_one_witness :
    ∃ out, Gaussian (exactArith id) (powEStandIn (exactArith id)) ((1 : ℕ) : ℤ) (.fin 1)
        = .ok out
      ∧ IsRect out 1 1
      ∧ (∀ i j, i < 1 → j < 1 → ∃ y, 0 ≤ y ∧ px out i j = .fin y)
      ∧ gridSum (fun i j => (px out i j).toRat) 1 1 = 1 :=
  Gaussian_exact_sums_to_one id (powEStandIn (exactArith id)) 1 1 (by decide) (by norm_num)
    (fun q => ⟨if q ≤ 0 then 1 / (1 - q) else 1 + q, by
      split_ifs with h
      · exact div_pos one_pos (by linarith)
      · linarith [not_le.mp h], rfl⟩)

/-! ## Numbers the formats hold exactly -/

theorem roundNE_quarter (p : ℕ) (emin : ℤ) (hemin : emin ≤ -2) (n : ℤ)
    (hn : |n| < 2 ^ p) : roundNE p emin ((n : ℚ) / 4) = (n : ℚ) / 4 := by
  by_cases h0 : n = 0
  · subst h0; simp [roundNE]
  · have hn0 : (n : ℚ) ≠ 0 := by exact_mod_cast h0
    have hq0 : (n : ℚ) / 4 ≠ 0 := by positivity
    have h1 : (1 : ℚ) ≤ |(n : ℚ)| := by
      have : (1 : ℤ) ≤ |n| := Int.one_le_abs h0
      exact_mod_cast this
    have habs : |(n : ℚ) / 4| = |(n : ℚ)| / 4 := by
      rw [abs_div]
      norm_num
    obtain ⟨hlo, hhi⟩ := ilog2_spec ((n : ℚ) / 4) hq0
    have e4 : pow2 (-2) = 1 / 4 := by rw [pow2_eq]; norm_num
    have hge : -2 ≤ ilog2 ((n : ℚ) / 4) := by
      have : pow2 (-2) < pow2 (ilog2 ((n : ℚ) / 4) + 1) := by
        rw [e4]
        refine lt_of_le_of_lt ?_ hhi
        rw [habs]
        linarith
      have := pow2_lt_of_lt _ _ this
      omega
    have hlt : pow2 (ilog2 ((n : ℚ) / 4)) < pow2 ((p : ℤ) - 2) := by
      have e : pow2 ((p : ℤ) - 2) = pow2 (p : ℤ) * pow2 (-2) := by
        rw [← pow2_add]
        congr 1
      rw [e, e4, pow2_natCast]
      have : |(n : ℚ)| < (((2 : ℤ) ^ p : ℤ) : ℚ) := by exact_mod_cast hn
      refine lt_of_le_of_lt hlo ?_
      rw [habs]
      linarith
    have hep := pow2_lt_of_lt _ _ hlt
    unfold roundNE
    simp only [hq0, if_false]
    have hmax : max (ilog2 ((n : ℚ) / 4)) emin = ilog2 ((n : ℚ) / 4) :=
      max_eq_left (by omega)
    rw [hmax]
    obtain ⟨k, hk⟩ := Int.eq_ofNat_of_zero_le
      (show 0 ≤ (p : ℤ) - 3 - ilog2 ((n : ℚ) / 4) by omega)
    have hu : pow2 (ilog2 ((n : ℚ) / 4) - ((p : ℤ) - 1)) * (pow2 (k : ℤ) * 4) = 1 := by
      have e5 : pow2 (k : ℤ) * 4 = pow2 ((k : ℤ) + 2) := by
        rw [pow2_add]
        congr 1
      have : ilog2 ((n : ℚ) / 4) - ((p : ℤ) - 1) = -((k : ℤ) + 2) := by omega
      rw [e5, this]
      exact pow2_neg_mul _
    have hupos := pow2_pos (ilog2 ((n : ℚ) / 4) - ((p : ℤ) - 1))
    have hu2 : (2 : ℚ) ^ k * 4 * pow2 (ilog2 ((n : ℚ) / 4) - ((p : ℤ) - 1)) = 1 := by
      have e := pow2_natCast k
      push_cast at e
      rw [← e, mul_comm]
      exact hu
    have hdiv : (n : ℚ) / 4 / pow2 (ilog2 ((n : ℚ) / 4) - ((p : ℤ) - 1))
        = ((n * 2 ^ k : ℤ) : ℚ) := by
      rw [div_eq_iff (ne_of_gt hupos)]
      push_cast
      have : (n : ℚ) * 2 ^ k * pow2 (ilog2 ((n : ℚ) / 4) - ((p : ℤ) - 1))
          = (n : ℚ) / 4 * ((2 : ℚ) ^ k * 4 * pow2 (ilog2 ((n : ℚ) / 4) - ((p : ℤ) - 1))) := by
        ring
      rw [this, hu2, mul_one]
    rw [hdiv, halfEven_intCast]
    push_cast
    have : (n : ℚ) * 2 ^ k * pow2 (ilog2 ((n : ℚ) / 4) - ((p : ℤ) - 1))
        = (n : ℚ) / 4 * ((2 : ℚ) ^ k * 4 * pow2 (ilog2 ((n : ℚ) / 4) - ((p : ℤ) - 1))) := by
      ring
    rw [this, hu2, mul_one]

theorem binary32_int_exact (n : ℤ) (hn : |n| < 2 ^ 24) : binary32.round (n : ℚ) = .fin n := by
  have h := roundNE_intCast 24 (-126) (by norm_num) n hn
  have hq : |(n : ℚ)| < 2 ^ 24 := by exact_mod_cast hn
  obtain ⟨h1, h2⟩ := abs_lt.mp hq
  unfold Format.round binary32
  simp only [h]
  have hM : (2 : ℚ) ^ 24 ≤ MaxFloat32 := by norm_num [MaxFloat32]
  have e1 : ¬ MaxFloat32 < (n : ℚ) := by linarith
  have e2 : ¬ (n : ℚ) < -MaxFloat32 := by linarith
  simp [e1, e2]

theorem binary32_quarter_exact (n : ℤ) (hn : |n| < 2 ^ 24) :
    binary32.round ((n : ℚ) / 4) = .fin ((n : ℚ) / 4) := by
  have h := roundNE_quarter 24 (-126) (by norm_num) n hn
  have hq : |(n : ℚ)| < 2 ^ 24 := by exact_mod_cast hn
  obtain ⟨h1, h2⟩ := abs_lt.mp hq
  unfold Format.round binary32
  simp only [h]
  have hM : (2 : ℚ) ^ 24 ≤ MaxFloat32 := by norm_num [MaxFloat32]
  have e1 : ¬ MaxFloat32 < (n : ℚ) / 4 := by linarith
  have e2 : ¬ (n : ℚ) / 4 < -MaxFloat32 := by linarith
  simp [e1, e2]
/-! ## Morphology -/

theorem fillLoop_eq (w h : ℕ) (v : GoFloat) :
    forRange w (fun j structuringElement =>
      forRange h (fun i structuringElement =>
        setPx structuringElement j i v) structuringElement) (make2D w h)
      = some (tabulate w h (fun _ _ => v)) := by
  obtain ⟨out, hout, hP⟩ := forRange_rule w
    (fun j structuringElement =>
      forRange h (fun i structuringElement =>
        setPx structuringElement j i v) structuringElement)
    (fun k out => out = tabulate w h (fun a _ => if a < k then v else .fin 0))
    (make2D w h)
    (by
      rw [make2D_eq_tabulate]
      apply tabulate_congr
      intro a b _ _
      simp)
    (by
      intro k s hk hs
      obtain ⟨out, hout, hP⟩ := forRange_rule h
        (fun i structuringElement => setPx structuringElement k i v)
        (fun m out => out = tabulate w h (fun a b =>
          if a < k ∨ (a = k ∧ b < m) then v else .fin 0))
        s
        (by
          rw [hs]
          apply tabulate_congr
          intro a b _ _
          have : (a < k ∨ (a = k ∧ b < 0)) ↔ a < k := by omega
          simp only [this])
        (by
          intro m t hm ht
          refine ⟨_, ?_, rfl⟩
          beta_reduce
          rw [ht, setPx_tabulate _ _ _ k m _ hk hm]
          congr 1
          apply tabulate_congr
          intro a b _ _
          by_cases h1 : a = k ∧ b = m
          · obtain ⟨rfl, rfl⟩ := h1
            have h2 : a < a ∨ (a = a ∧ b < b + 1) := by omega
            rw [if_pos ⟨rfl, rfl⟩, if_pos h2]
          · rw [if_neg h1]
            have : (a < k ∨ (a = k ∧ b < m + 1)) ↔ (a < k ∨ (a = k ∧ b < m)) := by omega
            simp only [this])
      refine ⟨out, hout, ?_⟩
      rw [hP]
      apply tabulate_congr
      intro a b _ hb
      have : (a < k ∨ (a = k ∧ b < h)) ↔ a < k + 1 := by omega
      simp only [this])
  refine hout.trans ?_
  rw [hP]
  congr 1
  apply tabulate_congr
  intro a b ha _
  simp only [ha, if_true]

theorem structuringElement_eq (size : ℕ) :
    BinaryErosionDilationStructuringElement (size : ℤ)
      = some (tabulate size size (fun _ _ => .fin 1)) := by
  unfold BinaryErosionDilationStructuringElement
  have hneg : ¬ ((size : ℤ) < 0) := by omega
  simp only [hneg, if_false, Int.toNat_natCast]
  exact fillLoop_eq size size (.fin 1)

theorem getPx_map (g : Image) (f : GoFloat → GoFloat) (i j : ℕ) :
    getPx (g.map (fun column => column.map f)) i j = (getPx g i j).map f := by
  unfold getPx
  rw [List.getElem?_map]
  cases g[i]? with
  | none => rfl
  | some column => simp [List.getElem?_map]

theorem singleThreshold_binarises : BinarisesAt SingleThreshold where
  shape := by
    intro g t w h hg
    obtain ⟨hl, hc⟩ := hg
    refine ⟨by simp [SingleThreshold, hl], ?_⟩
    intro column hcol
    obtain ⟨c, hc', rfl⟩ := List.mem_map.mp hcol
    simp [hc c hc']
  values := by
    intro g t i j
    unfold px SingleThreshold
    rw [getPx_map]
    cases getPx g i j with
    | none => left; rfl
    | some v =>
      simp only [Option.map_some', Option.getD_some]
      split_ifs
      · right; rfl
      · left; rfl
  on_only_above := by
    intro g t i j
    unfold px SingleThreshold
    rw [getPx_map]
    cases getPx g i j with
    | none => intro h; simp at h
    | some v =>
      simp only [Option.map_some', Option.getD_some]
      split_ifs with h1
      · intro _; exact h1
      · intro h; simp at h

theorem exactArith_countsExactly (sqrt : ℚ → ℚ) (size : ℕ) :
    CountsExactly (exactArith sqrt) size :=
  ⟨fun _ _ => ⟨rfl, rfl⟩, rfl⟩

theorem ieee_countsExactly (size : ℕ) (hsize : size ≤ 2364) : CountsExactly ieee size := by
  have hsq : size * size ≤ 2364 * 2364 := Nat.mul_le_mul hsize hsize
  refine ⟨?_, ?_⟩
  · intro m hm
    have h1 : |(m : ℤ)| < 2 ^ 24 := by
      rw [abs_of_nonneg (by omega)]
      have : (m : ℤ) ≤ 2364 * 2364 := by exact_mod_cast le_trans hm hsq
      omega
    have h2 : |(m : ℤ)| < 2 ^ 53 := lt_trans h1 (by norm_num)
    have e1 := binary64_int_exact (m : ℤ) h2
    have e2 := binary32_int_exact (m : ℤ) h1
    simp only [Int.cast_natCast] at e1 e2
    exact ⟨e1, e2⟩
  · have h1 : |((3 * (size * size) : ℕ) : ℤ)| < 2 ^ 24 := by
      rw [abs_of_nonneg (by omega)]
      have : ((3 * (size * size) : ℕ) : ℤ) ≤ 3 * (2364 * 2364) := by
        exact_mod_cast Nat.mul_le_mul_left 3 hsq
      omega
    have e := binary32_quarter_exact _ h1
    have e3 : (((3 * (size * size) : ℕ) : ℤ) : ℚ) / 4 = (size : ℚ) * (size : ℚ) * (3 / 4) := by
      push_cast
      ring
    rw [e3] at e
    exact e

theorem zeroExt_binary (image : Image) (w h : ℕ)
    (hbin : ∀ i j, i < w → j < h → px image i j = .fin 0 ∨ px image i j = .fin 1)
    (x y : ℤ) : zeroExt image w h x y = .fin 0 ∨ zeroExt image w h x y = .fin 1 := by
  unfold zeroExt
  split_ifs with hc
  · exact hbin _ _ (by omega) (by omega)
  · left; rfl

theorem foldl_fadd_nat (f : Format) (n : ℕ)
    (hex : ∀ m : ℕ, m ≤ n → f.round (m : ℚ) = .fin (m : ℚ)) (t : ℕ → ℕ) :
    ∀ (l : List ℕ) (a : ℕ), a + (l.map t).sum ≤ n →
      l.foldl (fun acc k => fadd f acc (.fin (t k : ℚ))) (.fin (a : ℚ))
        = .fin ((a + (l.map t).sum : ℕ) : ℚ) := by
  intro l
  induction l with
  | nil => intro a _; simp
  | cons k ks ih =>
    intro a ha
    simp only [List.map_cons, List.sum_cons] at ha
    simp only [List.foldl_cons, List.map_cons, List.sum_cons]
    have e : fadd f (.fin (a : ℚ)) (.fin (t k : ℚ)) = .fin ((a + t k : ℕ) : ℚ) := by
      have := hex (a + t k) (by omega)
      push_cast at this ⊢
      exact this
    rw [e, ih (a + t k) (by omega)]
    congr 2
    omega

/-- The sum of the natural numbers `c i j` over the `kw` by `kh` grid. -/
theorem dotSum_nat (env : FloatEnv) (n : ℕ)
    (hex : ∀ m : ℕ, m ≤ n → env.f64.round (m : ℚ) = .fin (m : ℚ)) (c : ℕ → ℕ → ℕ)
    (kw kh : ℕ)
    (hb : ((List.range kh).map (fun j => ((List.range kw).map (fun i => c i j)).sum)).sum ≤ n) :
    dotSum env (fun i j => .fin (c i j : ℚ)) kw kh
      = .fin ((((List.range kh).map
          (fun j => ((List.range kw).map (fun i => c i j)).sum)).sum : ℕ) : ℚ) := by
  unfold dotSum
  have key : ∀ (l : List ℕ) (a : ℕ),
      a + (l.map (fun j => ((List.range kw).map (fun i => c i j)).sum)).sum ≤ n →
      l.foldl (fun acc j => (List.range kw).foldl
        (fun acc i => fadd env.f64 acc (.fin (c i j : ℚ))) acc) (.fin (a : ℚ))
        = .fin ((a + (l.map (fun j => ((List.range kw).map (fun i => c i j)).sum)).sum : ℕ)
            : ℚ) := by
    intro l
    induction l with
    | nil => intro a _; simp
    | cons j js ih =>
      intro a ha
      simp only [List.map_cons, List.sum_cons] at ha
      simp only [List.foldl_cons, List.map_cons, List.sum_cons]
      rw [foldl_fadd_nat env.f64 n hex (fun i => c i j) (List.range kw) a (by omega),
        ih _ (by omega)]
      congr 2
      omega
  have := key (List.range kh) 0 (by omega)
  simp only [Nat.cast_zero, zero_add] at this
  exact this

theorem natGrid_le (c : ℕ → ℕ → ℕ) (kw kh : ℕ) (hc : ∀ i j, c i j ≤ 1) :
    ((List.range kh).map (fun j => ((List.range kw).map (fun i => c i j)).sum)).sum
      ≤ kw * kh := by
  have h1 : ∀ j, ((List.range kw).map (fun i => c i j)).sum ≤ kw := by
    intro j
    have := List.sum_le_card_nsmul ((List.range kw).map (fun i => c i j)) 1 (by
      intro x hx
      obtain ⟨i, _, rfl⟩ := List.mem_map.mp hx
      exact hc i j)
    simpa using this
  have := List.sum_le_card_nsmul
    ((List.range kh).map (fun j => ((List.range kw).map (fun i => c i j)).sum)) kw (by
      intro x hx
      obtain ⟨j, _, rfl⟩ := List.mem_map.mp hx
      exact h1 j)
  simp only [List.length_map, List.length_range, smul_eq_mul] at this
  rw [Nat.mul_comm]
  exact this

theorem onCount_le (image : Image) (w h size : ℕ) (x y : ℤ) :
    onCount image w h size x y ≤ size * size :=
  natGrid_le (fun kI kJ =>
    if zeroExt image w h (x + (kI : ℤ)) (y + (kJ : ℤ)) = .fin 1 then 1 else 0) size size
    (fun i j => by beta_reduce; split_ifs <;> omega)

theorem cast_sum_map (l : List ℕ) (f : ℕ → ℕ) :
    (((l.map f).sum : ℕ) : ℚ) = (l.map (fun i => (f i : ℚ))).sum := by
  induction l with
  | nil => simp
  | cons k ks ih =>
    simp only [List.map_cons, List.sum_cons, Nat.cast_add, ih]

theorem onCount_eq_windowSum (image : Image) (w h size : ℕ)
    (hbin : ∀ i j, i < w → j < h → px image i j = .fin 0 ∨ px image i j = .fin 1)
    (x y : ℤ) : ((onCount image w h size x y : ℕ) : ℚ) = windowSum image w h size x y := by
  unfold onCount windowSum gridSum
  rw [cast_sum_map]
  congr 1
  apply List.map_congr_left
  intro kJ _
  rw [cast_sum_map]
  congr 1
  apply List.map_congr_left
  intro kI _
  rcases zeroExt_binary image w h hbin (x + (kI : ℤ)) (y + (kJ : ℤ)) with h0 | h1
  · simp [h0, GoFloat.toRat]
  · simp [h1, GoFloat.toRat]

theorem erosion_sums (env : FloatEnv) (Normalise : Image → Image) (image : Image)
    (w h size : ℕ) (normalise : Bool) (himg : IsRect image w h) (hw : 0 < w)
    (hsize : 1 ≤ size) (hex : CountsExactly env size)
    (hbin : ∀ i j, i < w → j < h → px image i j = .fin 0 ∨ px image i j = .fin 1) :
    Convolution env Normalise image (tabulate size size (fun _ _ => .fin 1)) normalise
      = finish Normalise normalise (some (tabulate w h (fun i j =>
          .fin ((onCount image w h size ((i : ℤ) - (halfCeil size : ℤ))
            ((j : ℤ) - (halfCeil size : ℤ)) : ℕ) : ℚ)))) := by
  rw [Convolution_eq env Normalise image _ w h size size normalise himg hw
    (isRect_tabulate _ _ _) (by omega)]
  congr 2
  apply tabulate_congr
  intro i j _ _
  have h1 : 1 ≤ size * size := Nat.mul_pos hsize hsize
  have hterm : ∀ kI kJ, kI < size → kJ < size →
      fmul env.f64
        (toFloat64 (zeroExt image w h ((i : ℤ) + (kI : ℤ) - (halfCeil size : ℤ))
          ((j : ℤ) + (kJ : ℤ) - (halfCeil size : ℤ))))
        (toFloat64 (px (tabulate size size (fun _ _ => .fin 1)) kI kJ))
      = .fin (((if zeroExt image w h ((i : ℤ) - (halfCeil size : ℤ) + (kI : ℤ))
          ((j : ℤ) - (halfCeil size : ℤ) + (kJ : ℤ)) = .fin 1 then 1 else 0 : ℕ)) : ℚ) := by
    intro kI kJ hkI hkJ
    have e1 : (i : ℤ) + (kI : ℤ) - (halfCeil size : ℤ)
        = (i : ℤ) - (halfCeil size : ℤ) + (kI : ℤ) := by ring
    have e2 : (j : ℤ) + (kJ : ℤ) - (halfCeil size : ℤ)
        = (j : ℤ) - (halfCeil size : ℤ) + (kJ : ℤ) := by ring
    have e3 : px (tabulate size size (fun _ _ => GoFloat.fin 1)) kI kJ = .fin 1 := by
      unfold px
      rw [getPx_tabulate _ _ _ kI kJ hkI hkJ]
      rfl
    rw [e1, e2, e3]
    rcases zeroExt_binary image w h hbin ((i : ℤ) - (halfCeil size : ℤ) + (kI : ℤ))
      ((j : ℤ) - (halfCeil size : ℤ) + (kJ : ℤ)) with h0 | h1'
    · rw [h0]
      have := (hex.1 0 (by omega)).1
      simp only [Nat.cast_zero] at this
      simp [toFloat64, fmul, this]
    · rw [h1']
      have := (hex.1 1 h1).1
      simp only [Nat.cast_one] at this
      simp [toFloat64, fmul, this]
  unfold convSample
  rw [dotSum_congr env _ _ size size hterm,
    dotSum_nat env (size * size) (fun m hm => (hex.1 m hm).1) _ size size
      (natGrid_le _ size size (fun i j => by split_ifs <;> omega))]
  exact (hex.1 _ (onCount_le image w h size ((i : ℤ) - (halfCeil size : ℤ))
    ((j : ℤ) - (halfCeil size : ℤ)))).2

theorem cutPoint_eq (env : FloatEnv) (size : ℕ) (hsize : 1 ≤ size)
    (hex : CountsExactly env size) :
    fmul env.f32 (fmul env.f32 (env.f32.round (((size : ℕ) : ℤ) : ℚ))
        (env.f32.round (((size : ℕ) : ℤ) : ℚ))) (.fin (3 / 4))
      = .fin ((size : ℚ) * (size : ℚ) * (3 / 4)) := by
  have h1 : size ≤ size * size := Nat.le_mul_of_pos_left size hsize
  have e1 := (hex.1 size h1).2
  have e2 := (hex.1 (size * size) (le_refl _)).2
  push_cast at e2
  simp only [Int.cast_natCast, e1, fmul, e2]
  exact hex.2

theorem natGrid_ne_zero (c : ℕ → ℕ → ℕ) (kw kh : ℕ)
    (hne : ((List.range kh).map (fun j => ((List.range kw).map (fun i => c i j)).sum)).sum ≠ 0) :
    ∃ i j, i < kw ∧ j < kh ∧ c i j ≠ 0 := by
  by_contra hall
  push_neg at hall
  apply hne
  apply List.sum_eq_zero
  intro x hx
  obtain ⟨j, hj, rfl⟩ := List.mem_map.mp hx
  apply List.sum_eq_zero
  intro y hy
  obtain ⟨i, hi, rfl⟩ := List.mem_map.mp hy
  exact hall i j (List.mem_range.mp hi) (List.mem_range.mp hj)

theorem onCount_ne_zero (image : Image) (w h size : ℕ) (x y : ℤ)
    (hne : onCount image w h size x y ≠ 0) :
    ∃ kI kJ : ℕ, kI < size ∧ kJ < size
      ∧ zeroExt image w h (x + (kI : ℤ)) (y + (kJ : ℤ)) = .fin 1 := by
  obtain ⟨i, j, hi, hj, hc⟩ := natGrid_ne_zero (fun kI kJ =>
    if zeroExt image w h (x + (kI : ℤ)) (y + (kJ : ℤ)) = .fin 1 then 1 else 0) size size hne
  refine ⟨i, j, hi, hj, ?_⟩
  by_contra hz
  exact hc (if_neg hz)

theorem two_halfCeil_le (n : ℕ) : halfCeil n + halfCeil n ≤ n + 1 := by
  rw [halfCeil_eq]
  omega

theorem BinaryErosion_eq (env : FloatEnv) (threshold : Image → GoFloat → Image)
    (Normalise : Image → Image) (image : Image) (w h size : ℕ) (himg : IsRect image w h)
    (hw : 0 < w) (hsize : 1 ≤ size) (hex : CountsExactly env size) :
    BinaryErosion env threshold Normalise image (size : ℤ)
      = .ok (threshold (tabulate w h (fun i j => convSample env image
          (tabulate size size (fun _ _ => .fin 1)) w h size size i j))
        (.fin ((size : ℚ) * (size : ℚ) * (3 / 4)))) := by
  unfold BinaryErosion
  rw [structuringElement_eq]
  simp only []
  rw [Convolution_eq env Normalise image _ w h size size false himg hw
    (isRect_tabulate _ _ _) (by omega)]
  simp only [finish, Bool.false_eq_true, if_false]
  rw [cutPoint_eq env size hsize hex]

theorem erosion_grid_eq (env : FloatEnv) (image : Image) (w h size : ℕ)
    (himg : IsRect image w h) (hw : 0 < w) (hsize : 1 ≤ size) (hex : CountsExactly env size)
    (hbin : ∀ i j, i < w → j < h → px image i j = .fin 0 ∨ px image i j = .fin 1) :
    tabulate w h (fun i j => convSample env image
        (tabulate size size (fun _ _ => .fin 1)) w h size size i j)
      = tabulate w h (fun i j =>
          .fin ((onCount image w h size ((i : ℤ) - (halfCeil size : ℤ))
            ((j : ℤ) - (halfCeil size : ℤ)) : ℕ) : ℚ)) := by
  have e1 := Convolution_eq env id image (tabulate size size (fun _ _ => .fin 1)) w h size size
    false himg hw (isRect_tabulate _ _ _) (by omega)
  have e2 := erosion_sums env id image w h size false himg hw hsize hex hbin
  rw [e1] at e2
  simpa [finish] using e2

/-- C17 amended: for a non-empty `w` by `h` image and `size ≥ 1`, in an arithmetic that
does not round the counts up to `size²` nor the cut point, `BinaryErosion` returns
`SingleThreshold(summed, 0.75 * size²)`, where `summed` is what `Convolution` returns,
not normalised, for the structuring element, a `size` by `size` kernel all of whose
coefficients are 1. When the image is binary, the sample of `summed` at `(i, j)` is the
plain sum of the samples of the zero-extended image in a `size` by `size` window whose
first column lies between `i - size` and `i` and whose first row lies between
`j - size` and `j`, a natural number `c ≤ size²`, and the eroded sample is 1 only if
`0.75 * size² ≤ c`. -/
theorem BinaryErosion_thresholds_window_count (env : FloatEnv)
    (threshold : Image → GoFloat → Image) (Normalise : Image → Image) (image : Image)
    (w h size : ℕ) (himg : IsRect image w h) (hw : 0 < w) (hsize : 1 ≤ size)
    (hex : CountsExactly env size) (hthreshold : BinarisesAt threshold) :
    ∃ ones summed,
      BinaryErosionDilationStructuringElement (size : ℤ) = some ones
      ∧ IsRect ones size size
      ∧ (∀ kI kJ, kI < size → kJ < size → px ones kI kJ = .fin 1)
      ∧ Convolution env Normalise image ones false = .ok summed
      ∧ IsRect summed w h
      ∧ BinaryErosion env threshold Normalise image (size : ℤ)
          = .ok (threshold summed (.fin ((size : ℚ) * (size : ℚ) * (3 / 4))))
      ∧ ((∀ i j, i < w → j < h → px image i j = .fin 0 ∨ px image i j = .fin 1) →
          ∀ i j, i < w → j < h → ∃ (c : ℕ) (x y : ℤ),
            (i : ℤ) - (size : ℤ) ≤ x ∧ x ≤ (i : ℤ)
            ∧ (j : ℤ) - (size : ℤ) ≤ y ∧ y ≤ (j : ℤ)
            ∧ px summed i j = .fin (c : ℚ)
            ∧ (c : ℚ) = windowSum image w h size x y
            ∧ c ≤ size * size
            ∧ (px (threshold summed (.fin ((size : ℚ) * (size : ℚ) * (3 / 4)))) i j = .fin 1 →
                (size : ℚ) * (size : ℚ) * (3 / 4) ≤ (c : ℚ))) := by
  refine ⟨tabulate size size (fun _ _ => .fin 1),
    tabulate w h (fun i j => convSample env image
      (tabulate size size (fun _ _ => .fin 1)) w h size size i j),
    structuringElement_eq size, isRect_tabulate _ _ _, ?_, ?_, isRect_tabulate _ _ _,
    BinaryErosion_eq env threshold Normalise image w h size himg hw hsize hex, ?_⟩
  · intro kI kJ hkI hkJ
    unfold px
    rw [getPx_tabulate _ _ _ kI kJ hkI hkJ]
    rfl
  · rw [Convolution_eq env Normalise image _ w h size size false himg hw
      (isRect_tabulate _ _ _) (by omega)]
    simp [finish]
  · intro hbin i j hi hj
    rw [erosion_grid_eq env image w h size himg hw hsize hex hbin]
    have hle : halfCeil size ≤ size := by
      rw [halfCeil_eq]
      omega
    refine ⟨onCount image w h size ((i : ℤ) - (halfCeil size : ℤ))
      ((j : ℤ) - (halfCeil size : ℤ)), (i : ℤ) - (halfCeil size : ℤ),
      (j : ℤ) - (halfCeil size : ℤ), by omega, by omega, by omega, by omega, ?_,
      onCount_eq_windowSum image w h size hbin _ _, onCount_le image w h size _ _, ?_⟩
    · unfold px
      rw [getPx_tabulate _ _ _ i j hi hj]
      rfl
    · intro hon
      have := hthreshold.on_only_above _ _ i j hon
      unfold px at this
      rw [getPx_tabulate _ _ _ i j hi hj] at this
      simpa [fle] using this

/-- An instance of the amended C17 in `float32` and `float64`: the erosion with `size = 2` of the
binary image `[[1, 1], [1, 0]]`. -/
theorem BinaryErosion_thresholds_window_count_witness :
    ∃ ones summed,
      BinaryErosionDilationStructuringElement ((2 : ℕ) : ℤ) = some ones
      ∧ IsRect ones 2 2
      ∧ (∀ kI kJ, kI < 2 → kJ < 2 → px ones kI kJ = .fin 1)
      ∧ Convolution ieee id [[.fin 1, .fin 1], [.fin 1, .fin 0]] ones false = .ok summed
      ∧ IsRect summed 2 2
      ∧ BinaryErosion ieee SingleThreshold id [[.fin 1, .fin 1], [.fin 1, .fin 0]]
            ((2 : ℕ) : ℤ)
          = .ok (SingleThreshold summed (.fin (((2 : ℕ) : ℚ) * ((2 : ℕ) : ℚ) * (3 / 4))))
      ∧ ∀ i j : ℕ, i < 2 → j < 2 → ∃ (c : ℕ) (x y : ℤ),
          (i : ℤ) - ((2 : ℕ) : ℤ) ≤ x ∧ x ≤ (i : ℤ)
          ∧ (j : ℤ) - ((2 : ℕ) : ℤ) ≤ y ∧ y ≤ (j : ℤ)
          ∧ px summed i j = .fin (c : ℚ)
          ∧ (c : ℚ) = windowSum [[.fin 1, .fin 1], [.fin 1, .fin 0]] 2 2 2 x y
          ∧ c ≤ 2 * 2
          ∧ (px (SingleThreshold summed (.fin (((2 : ℕ) : ℚ) * ((2 : ℕ) : ℚ) * (3 / 4)))) i j
                = .fin 1 →
              ((2 : ℕ) : ℚ) * ((2 : ℕ) : ℚ) * (3 / 4) ≤ (c : ℚ)) := by
  obtain ⟨ones, summed, h1, h2, h3, h4, h5, h6, h7⟩ :=
    BinaryErosion_thresholds_window_count ieee SingleThreshold id
      [[.fin 1, .fin 1], [.fin 1, .fin 0]] 2 2 2 (by decide) (by decide) (by decide)
      (ieee_countsExactly 2 (by decide)) singleThreshold_binarises
  refine ⟨ones, summed, h1, h2, h3, h4, h5, h6, h7 ?_⟩
  intro i j hi hj
  interval_cases i <;> interval_cases j <;> decide!

/-- C16 fails on the code: the erosion keeps a pixel whose window is three quarters
full, and the dilation turns on every pixel whose window meets the eroded set. The 3 by
3 image whose only off sample is the last one is opened with `size = 3` into the image
whose only on sample is the last one. -/
theorem BinaryOpening_turns_on_an_off_sample :
    BinaryOpening ieee SingleThreshold (Normalise ieee)
        [[.fin 1, .fin 1, .fin 1], [.fin 1, .fin 1, .fin 1], [.fin 1, .fin 1, .fin 0]] 3
      = .ok [[.fin 0, .fin 0, .fin 0], [.fin 0, .fin 0, .fin 0], [.fin 0, .fin 0, .fin 1]] := by
  decide!

/-- C16 amended: for a non-empty binary image and `size ≥ 1`, in an arithmetic that does
not round the counts up to `size²` nor the cut point, with a `SingleThreshold` that
binarises at its cut point and a `Normalise` that leaves at zero the zero samples of the
sums the dilation hands to it, `BinaryOpening` returns an image, and a sample of it at
`(i, j)` is non-zero only if the zero-extended input has a `size` by `size` window, its
first column between `i - size - 1` and `i` and its first row between `j - size - 1`
and `j`, in which the samples sum to at least `0.75 * size²`. -/
theorem BinaryOpening_on_needs_dense_window (env : FloatEnv)
    (threshold : Image → GoFloat → Image) (Normalise : Image → Image) (image : Image)
    (w h size : ℕ) (himg : IsRect image w h) (hw : 0 < w) (hsize : 1 ≤ size)
    (hex : CountsExactly env size)
    (hbin : ∀ i j, i < w → j < h → px image i j = .fin 0 ∨ px image i j = .fin 1)
    (hthreshold : BinarisesAt threshold)
    (hnormalise : ∀ ones eroded sums,
      BinaryErosionDilationStructuringElement (size : ℤ) = some ones →
      BinaryErosion env threshold Normalise image (size : ℤ) = .ok eroded →
      Convolution env Normalise eroded ones false = .ok sums →
      ∀ i, i < w → ∀ j, j < h → px sums i j = .fin 0 → px (Normalise sums) i j = .fin 0) :
    ∃ out, BinaryOpening env threshold Normalise image (size : ℤ) = .ok out
      ∧ ∀ i j, i < w → j < h → px out i j ≠ .fin 0 →
          ∃ x y : ℤ, (i : ℤ) - (size : ℤ) - 1 ≤ x ∧ x ≤ (i : ℤ)
            ∧ (j : ℤ) - (size : ℤ) - 1 ≤ y ∧ y ≤ (j : ℤ)
            ∧ (size : ℚ) * (size : ℚ) * (3 / 4) ≤ windowSum image w h size x y := by
  have hE := BinaryErosion_eq env threshold Normalise image w h size himg hw hsize hex
  rw [erosion_grid_eq env image w h size himg hw hsize hex hbin] at hE
  generalize hsummed : tabulate w h (fun i j =>
    GoFloat.fin ((onCount image w h size ((i : ℤ) - (halfCeil size : ℤ))
      ((j : ℤ) - (halfCeil size : ℤ)) : ℕ) : ℚ)) = summed at hE
  generalize heroded : threshold summed (.fin ((size : ℚ) * (size : ℚ) * (3 / 4))) = eroded
    at hE
  have hrect : IsRect eroded w h := by
    rw [← heroded]
    apply hthreshold.shape
    rw [← hsummed]
    exact isRect_tabulate _ _ _
  have hbinE : ∀ i j, i < w → j < h → px eroded i j = .fin 0 ∨ px eroded i j = .fin 1 := by
    intro i j _ _
    rw [← heroded]
    exact hthreshold.values _ _ i j
  have hD := erosion_sums env Normalise eroded w h size false hrect hw hsize hex hbinE
  have hD' := erosion_sums env Normalise eroded w h size true hrect hw hsize hex hbinE
  simp only [finish, Bool.false_eq_true, if_false] at hD
  simp only [finish, if_true] at hD'
  have hN := hnormalise _ eroded _ (structuringElement_eq size) hE hD
  refine ⟨Normalise (tabulate w h (fun i j =>
    GoFloat.fin ((onCount eroded w h size ((i : ℤ) - (halfCeil size : ℤ))
      ((j : ℤ) - (halfCeil size : ℤ)) : ℕ) : ℚ))), ?_, ?_⟩
  · unfold BinaryOpening
    rw [hE]
    simp only []
    unfold BinaryDilation
    rw [structuringElement_eq]
    simp only []
    exact hD'
  · intro i j hi hj hne
    have h1 : px (tabulate w h (fun i j =>
        GoFloat.fin ((onCount eroded w h size ((i : ℤ) - (halfCeil size : ℤ))
          ((j : ℤ) - (halfCeil size : ℤ)) : ℕ) : ℚ))) i j ≠ .fin 0 :=
      fun hz => hne (hN i hi j hj hz)
    unfold px at h1
    rw [getPx_tabulate _ _ _ i j hi hj] at h1
    have h2 : onCount eroded w h size ((i : ℤ) - (halfCeil size : ℤ))
        ((j : ℤ) - (halfCeil size : ℤ)) ≠ 0 := by
      intro hz
      apply h1
      rw [hz]
      simp
    obtain ⟨kI, kJ, hkI, hkJ, hon⟩ := onCount_ne_zero eroded w h size _ _ h2
    unfold zeroExt at hon
    split_ifs at hon with hin
    swap
    · simp at hon
    obtain ⟨hx0, hx1, hy0, hy1⟩ := hin
    have hp : ((i : ℤ) - (halfCeil size : ℤ) + (kI : ℤ)).toNat < w := by omega
    have hq : ((j : ℤ) - (halfCeil size : ℤ) + (kJ : ℤ)).toNat < h := by omega
    rw [← heroded] at hon
    have hab := hthreshold.on_only_above _ _ _ _ hon
    rw [← hsummed] at hab
    unfold px at hab
    rw [getPx_tabulate _ _ _ _ _ hp hq] at hab
    have hle : (size : ℚ) * (size : ℚ) * (3 / 4)
        ≤ ((onCount image w h size
          ((((i : ℤ) - (halfCeil size : ℤ) + (kI : ℤ)).toNat : ℤ) - (halfCeil size : ℤ))
          ((((j : ℤ) - (halfCeil size : ℤ) + (kJ : ℤ)).toNat : ℤ) - (halfCeil size : ℤ)) : ℕ)
            : ℚ) := by
      simpa [fle] using hab
    rw [onCount_eq_windowSum image w h size hbin] at hle
    have hc1 := le_two_halfCeil size
    have hc2 := two_halfCeil_le size
    exact ⟨_, _, by omega, by omega, by omega, by omega, hle⟩

/-- An instance of the amended C16 in `float32` and `float64`: the opening with
`size = 3` of the 3 by 3 image whose only off sample is the last one. -/
theorem BinaryOpening_on_needs_dense_window_witness :
    ∃ out, BinaryOpening ieee SingleThreshold (Normalise ieee)
        [[.fin 1, .fin 1, .fin 1], [.fin 1, .fin 1, .fin 1], [.fin 1, .fin 1, .fin 0]]
        ((3 : ℕ) : ℤ) = .ok out
      ∧ ∀ i j, i < 3 → j < 3 → px out i j ≠ .fin 0 →
          ∃ x y : ℤ, (i : ℤ) - ((3 : ℕ) : ℤ) - 1 ≤ x ∧ x ≤ (i : ℤ)
            ∧ (j : ℤ) - ((3 : ℕ) : ℤ) - 1 ≤ y ∧ y ≤ (j : ℤ)
            ∧ ((3 : ℕ) : ℚ) * ((3 : ℕ) : ℚ) * (3 / 4)
              ≤ windowSum
                [[.fin 1, .fin 1, .fin 1], [.fin 1, .fin 1, .fin 1], [.fin 1, .fin 1, .fin 0]]
                3 3 3 x y :=
  BinaryOpening_on_needs_dense_window ieee SingleThreshold (Normalise ieee)
    [[.fin 1, .fin 1, .fin 1], [.fin 1, .fin 1, .fin 1], [.fin 1, .fin 1, .fin 0]] 3 3 3
    (by decide) (by decide) (by decide) (ieee_countsExactly 3 (by decide))
    (by
      intro i j hi hj
      interval_cases i <;> interval_cases j <;> decide!)
    singleThreshold_binarises
    (by
      intro ones eroded sums h1 h2 h3
      have e1 : BinaryErosionDilationStructuringElement ((3 : ℕ) : ℤ)
          = some [[.fin 1, .fin 1, .fin 1], [.fin 1, .fin 1, .fin 1],
            [.fin 1, .fin 1, .fin 1]] := by decide!
      have e2 : BinaryErosion ieee SingleThreshold (Normalise ieee)
          [[.fin 1, .fin 1, .fin 1], [.fin 1, .fin 1, .fin 1], [.fin 1, .fin 1, .fin 0]]
          ((3 : ℕ) : ℤ)
          = .ok [[.fin 0, .fin 0, .fin 0], [.fin 0, .fin 0, .fin 0],
            [.fin 0, .fin 0, .fin 1]] := by decide!
      have e3 : Convolution ieee (Normalise ieee)
          [[.fin 0, .fin 0, .fin 0], [.fin 0, .fin 0, .fin 0], [.fin 0, .fin 0, .fin 1]]
          [[.fin 1, .fin 1, .fin 1], [.fin 1, .fin 1, .fin 1], [.fin 1, .fin 1, .fin 1]]
          false
          = .ok [[.fin 0, .fin 0, .fin 0], [.fin 0, .fin 0, .fin 0],
            [.fin 0, .fin 0, .fin 1]] := by decide!
      rw [e1] at h1
      cases h1
      rw [e2] at h2
      cases h2
      rw [e3] at h3
      cases h3
      decide!)

/-! ## The goroutines -/

/-- C19 fails on the code for `L2Norm`: the rows of a grid operator are written by
goroutines that share no location, but every goroutine of `L2Norm` writes the one
variable `accumulator`. On the signature `[1, 1]`, when both goroutines read
`accumulator` before either writes it, one addition is lost and `L2Norm` returns 1
instead of the `float32` nearest the square root of 2, `11863283 / 8388608`, that it
returns when the goroutines run one after the other. -/
theorem L2Norm_goroutines_share_accumulator :
    (∀ imageWidth j j', j ≠ j' →
        ∀ loc ∈ rowWrites imageWidth j, loc ∉ rowWrites imageWidth j')
    ∧ (∀ i i', ∃ loc, loc ∈ L2NormWrites i ∧ loc ∈ L2NormWrites i')
    ∧ isSchedule 2 [.read 0, .write 0, .read 1, .write 1] = true
    ∧ isSchedule 2 [.read 0, .read 1, .write 0, .write 1] = true
    ∧ L2Norm ieee [1, 1] [.read 0, .write 0, .read 1, .write 1] = .fin (11863283 / 8388608)
    ∧ L2Norm ieee [1, 1] [.read 0, .read 1, .write 0, .write 1] = .fin 1
    ∧ (11863283 / 8388608 : ℚ) ≠ 1 := by
  refine ⟨?_, ?_, ?_, ?_, ?_, ?_, ?_⟩
  · intro imageWidth j j' hne loc hloc hloc'
    obtain ⟨i, _, rfl⟩ := List.mem_map.mp hloc
    obtain ⟨i', _, h⟩ := List.mem_map.mp hloc'
    injection h with _ h2
    exact hne h2.symm
  · intro i i'
    exact ⟨.accumulator, by simp [L2NormWrites], by simp [L2NormWrites]⟩
  · decide
  · decide
  · decide!
  · decide!
  · norm_num


/-! ## The cut point of BinaryErosion in float32 -/

theorem BinaryErosion_structure (env : FloatEnv) (threshold : Image → GoFloat → Image)
    (Normalise : Image → Image) (image : Image) (w h size : ℕ) (himg : IsRect image w h)
    (hw : 0 < w) (hsize : 1 ≤ size) :
    BinaryErosionDilationStructuringElement (size : ℤ)
        = some (tabulate size size (fun _ _ => .fin 1))
    ∧ Convolution env Normalise image (tabulate size size (fun _ _ => .fin 1)) false
        = .ok (tabulate w h (fun i j => convSample env image
            (tabulate size size (fun _ _ => .fin 1)) w h size size i j))
    ∧ BinaryErosion env threshold Normalise image (size : ℤ)
        = .ok (threshold (tabulate w h (fun i j => convSample env image
            (tabulate size size (fun _ _ => .fin 1)) w h size size i j))
          (fmul env.f32 (fmul env.f32 (env.f32.round (((size : ℕ) : ℤ) : ℚ))
            (env.f32.round (((size : ℕ) : ℤ) : ℚ))) (.fin (3 / 4)))) := by
  have hconv := Convolution_eq env Normalise image
    (tabulate size size (fun _ _ => .fin 1)) w h size size false himg hw
    (isRect_tabulate _ _ _) (by omega)
  simp only [finish, Bool.false_eq_true, if_false] at hconv
  refine ⟨structuringElement_eq size, hconv, ?_⟩
  unfold BinaryErosion
  rw [structuringElement_eq]
  simp only []
  rw [hconv]

theorem sum_ite_lt (b a : ℕ) : ∀ n : ℕ,
    ((List.range n).map (fun i => if i < a then b else 0)).sum = min a n * b := by
  intro n
  induction n with
  | zero => simp
  | succ n ih =>
    rw [List.range_succ, List.map_append, List.sum_append, ih]
    simp only [List.map_cons, List.map_nil, List.sum_cons, List.sum_nil, add_zero]
    by_cases h : n < a
    · rw [if_pos h, Nat.min_eq_right (le_of_lt h), Nat.min_eq_right (Nat.succ_le_of_lt h),
        Nat.succ_mul]
    · rw [if_neg h, Nat.min_eq_left (not_lt.mp h),
        Nat.min_eq_left (le_trans (not_lt.mp h) (Nat.le_succ n))]
      ring

/-- The window that starts at the origin and covers an image of ones counts all of its
samples. -/
theorem onCount_ones (w h size : ℕ) (hw : w ≤ size) (hh : h ≤ size) :
    onCount (tabulate w h (fun _ _ => .fin 1)) w h size 0 0 = w * h := by
  unfold onCount
  have hind : ∀ kI kJ : ℕ,
      (if zeroExt (tabulate w h (fun _ _ => .fin 1)) w h ((0 : ℤ) + (kI : ℤ))
          ((0 : ℤ) + (kJ : ℤ)) = .fin 1 then 1 else 0 : ℕ)
        = if kJ < h then (if kI < w then 1 else 0) else 0 := by
    intro kI kJ
    unfold zeroExt
    by_cases hJ : kJ < h
    · by_cases hI : kI < w
      · have hc : (0 : ℤ) ≤ 0 + (kI : ℤ) ∧ (0 : ℤ) + (kI : ℤ) < (w : ℤ)
            ∧ (0 : ℤ) ≤ 0 + (kJ : ℤ) ∧ (0 : ℤ) + (kJ : ℤ) < (h : ℤ) := by omega
        have e1 : ((0 : ℤ) + (kI : ℤ)).toNat = kI := by omega
        have e2 : ((0 : ℤ) + (kJ : ℤ)).toNat = kJ := by omega
        rw [if_pos hc, e1, e2, if_pos hJ, if_pos hI]
        unfold px
        rw [getPx_tabulate _ _ _ kI kJ hI hJ]
        simp
      · have hc : ¬ ((0 : ℤ) ≤ 0 + (kI : ℤ) ∧ (0 : ℤ) + (kI : ℤ) < (w : ℤ)
            ∧ (0 : ℤ) ≤ 0 + (kJ : ℤ) ∧ (0 : ℤ) + (kJ : ℤ) < (h : ℤ)) := by omega
        rw [if_neg hc, if_pos hJ, if_neg hI]
        simp
    · have hc : ¬ ((0 : ℤ) ≤ 0 + (kI : ℤ) ∧ (0 : ℤ) + (kI : ℤ) < (w : ℤ)
          ∧ (0 : ℤ) ≤ 0 + (kJ : ℤ) ∧ (0 : ℤ) + (kJ : ℤ) < (h : ℤ)) := by omega
      rw [if_neg hc, if_neg hJ]
      simp
  have hinner : ∀ kJ : ℕ,
      ((List.range size).map (fun (kI : ℕ) =>
        (if zeroExt (tabulate w h (fun _ _ => .fin 1)) w h ((0 : ℤ) + (kI : ℤ))
          ((0 : ℤ) + (kJ : ℤ)) = .fin 1 then 1 else 0 : ℕ))).sum
        = if kJ < h then w else 0 := by
    intro kJ
    simp only [hind]
    by_cases hJ : kJ < h
    · simp only [if_pos hJ]
      rw [sum_ite_lt 1 w size, Nat.min_eq_left hw, mul_one]
    · simp only [if_neg hJ]
      simp
  simp only [hinner]
  rw [sum_ite_lt w h size, Nat.min_eq_left hh, Nat.mul_comm]

/-- The sample `Convolution` stores for the structuring element at a pixel of a binary
image, when `float64` holds the integers up to `size²` and `float32` the count. -/
theorem convSample_count (env : FloatEnv) (image : Image) (w h size i j : ℕ)
    (hsize : 1 ≤ size)
    (h64 : ∀ m : ℕ, m ≤ size * size → env.f64.round (m : ℚ) = .fin (m : ℚ))
    (hbin : ∀ i j, i < w → j < h → px image i j = .fin 0 ∨ px image i j = .fin 1)
    (h32 : env.f32.round ((onCount image w h size ((i : ℤ) - (halfCeil size : ℤ))
        ((j : ℤ) - (halfCeil size : ℤ)) : ℕ) : ℚ)
      = .fin ((onCount image w h size ((i : ℤ) - (halfCeil size : ℤ))
        ((j : ℤ) - (halfCeil size : ℤ)) : ℕ) : ℚ)) :
    convSample env image (tabulate size size (fun _ _ => .fin 1)) w h size size i j
      = .fin ((onCount image w h size ((i : ℤ) - (halfCeil size : ℤ))
          ((j : ℤ) - (halfCeil size : ℤ)) : ℕ) : ℚ) := by
  have h1 : 1 ≤ size * size := Nat.mul_pos hsize hsize
  have hterm : ∀ kI kJ, kI < size → kJ < size →
      fmul env.f64
        (toFloat64 (zeroExt image w h ((i : ℤ) + (kI : ℤ) - (halfCeil size : ℤ))
          ((j : ℤ) + (kJ : ℤ) - (halfCeil size : ℤ))))
        (toFloat64 (px (tabulate size size (fun _ _ => .fin 1)) kI kJ))
      = .fin (((if zeroExt image w h ((i : ℤ) - (halfCeil size : ℤ) + (kI : ℤ))
          ((j : ℤ) - (halfCeil size : ℤ) + (kJ : ℤ)) = .fin 1 then 1 else 0 : ℕ)) : ℚ) := by
    intro kI kJ hkI hkJ
    have e1 : (i : ℤ) + (kI : ℤ) - (halfCeil size : ℤ)
        = (i : ℤ) - (halfCeil size : ℤ) + (kI : ℤ) := by ring
    have e2 : (j : ℤ) + (kJ : ℤ) - (halfCeil size : ℤ)
        = (j : ℤ) - (halfCeil size : ℤ) + (kJ : ℤ) := by ring
    have e3 : px (tabulate size size (fun _ _ => GoFloat.fin 1)) kI kJ = .fin 1 := by
      unfold px
      rw [getPx_tabulate _ _ _ kI kJ hkI hkJ]
      rfl
    rw [e1, e2, e3]
    rcases zeroExt_binary image w h hbin ((i : ℤ) - (halfCeil size : ℤ) + (kI : ℤ))
      ((j : ℤ) - (halfCeil size : ℤ) + (kJ : ℤ)) with h0 | h1'
    · rw [h0]
      have := h64 0 (by omega)
      simp only [Nat.cast_zero] at this
      simp [toFloat64, fmul, this]
    · rw [h1']
      have := h64 1 h1
      simp only [Nat.cast_one] at this
      simp [toFloat64, fmul, this]
  unfold convSample
  rw [dotSum_congr env _ _ size size hterm,
    dotSum_nat env (size * size) h64 _ size size
      (natGrid_le _ size size (fun i j => by split_ifs <;> omega))]
  exact h32

theorem cutPoint_4099 (size : ℕ) (hsize : size = 4099) :
    fmul ieee.f32 (fmul ieee.f32 (ieee.f32.round (((size : ℕ) : ℤ) : ℚ))
      (ieee.f32.round (((size : ℕ) : ℤ) : ℚ))) (.fin (3 / 4)) = .fin 12601350 := by
  subst hsize
  decide!
theorem sum_ite_shift (b : ℕ) (x : ℤ) (w : ℕ) : ∀ n : ℕ,
    ((List.range n).map (fun (k : ℕ) =>
        if 0 ≤ x + (k : ℤ) ∧ x + (k : ℤ) < (w : ℤ) then b else 0)).sum
      = (min (x + (n : ℤ)) (w : ℤ) - max x 0).toNat * b := by
  intro n
  induction n with
  | zero =>
    have : (min (x + ((0 : ℕ) : ℤ)) (w : ℤ) - max x 0).toNat = 0 := by omega
    simp [this]
  | succ n ih =>
    rw [List.range_succ, List.map_append, List.sum_append, ih]
    simp only [List.map_cons, List.map_nil, List.sum_cons, List.sum_nil, add_zero]
    by_cases h : 0 ≤ x + (n : ℤ) ∧ x + (n : ℤ) < (w : ℤ)
    · rw [if_pos h]
      have : (min (x + ((n + 1 : ℕ) : ℤ)) (w : ℤ) - max x 0).toNat
          = (min (x + (n : ℤ)) (w : ℤ) - max x 0).toNat + 1 := by omega
      rw [this, Nat.succ_mul]
    · rw [if_neg h]
      have : (min (x + ((n + 1 : ℕ) : ℤ)) (w : ℤ) - max x 0).toNat
          = (min (x + (n : ℤ)) (w : ℤ) - max x 0).toNat := by omega
      rw [this, add_zero]

/-- No window of the zero-extended image holds more samples equal to 1 than the image
has samples. -/
theorem onCount_le_area (image : Image) (w h size : ℕ) (x y : ℤ) :
    onCount image w h size x y ≤ w * h := by
  unfold onCount
  have hind : ∀ kI kJ : ℕ,
      (if zeroExt image w h (x + (kI : ℤ)) (y + (kJ : ℤ)) = .fin 1 then 1 else 0 : ℕ)
        ≤ if 0 ≤ y + (kJ : ℤ) ∧ y + (kJ : ℤ) < (h : ℤ) then
            (if 0 ≤ x + (kI : ℤ) ∧ x + (kI : ℤ) < (w : ℤ) then 1 else 0) else 0 := by
    intro kI kJ
    unfold zeroExt
    by_cases hc : 0 ≤ x + (kI : ℤ) ∧ x + (kI : ℤ) < (w : ℤ)
        ∧ 0 ≤ y + (kJ : ℤ) ∧ y + (kJ : ℤ) < (h : ℤ)
    · have hy : 0 ≤ y + (kJ : ℤ) ∧ y + (kJ : ℤ) < (h : ℤ) := ⟨hc.2.2.1, hc.2.2.2⟩
      have hx : 0 ≤ x + (kI : ℤ) ∧ x + (kI : ℤ) < (w : ℤ) := ⟨hc.1, hc.2.1⟩
      simp only [if_pos hy, if_pos hx]
      split_ifs <;> omega
    · have : (GoFloat.fin 0 = GoFloat.fin 1) = False := by
        simp
      simp only [if_neg hc, this, if_false]
      exact Nat.zero_le _
  have hinner : ∀ kJ : ℕ,
      ((List.range size).map (fun (kI : ℕ) =>
        (if zeroExt image w h (x + (kI : ℤ)) (y + (kJ : ℤ)) = .fin 1 then 1 else 0 : ℕ))).sum
        ≤ if 0 ≤ y + (kJ : ℤ) ∧ y + (kJ : ℤ) < (h : ℤ) then w else 0 := by
    intro kJ
    refine le_trans (List.sum_le_sum (fun kI _ => hind kI kJ)) ?_
    by_cases hJ : 0 ≤ y + (kJ : ℤ) ∧ y + (kJ : ℤ) < (h : ℤ)
    · simp only [if_pos hJ]
      rw [sum_ite_shift 1 x w size, mul_one]
      omega
    · simp only [if_neg hJ]
      simp
  refine le_trans (List.sum_le_sum (fun kJ _ => hinner kJ)) ?_
  rw [sum_ite_shift w y h size]
  have : (min (y + (size : ℤ)) (h : ℤ) - max y 0).toNat ≤ h := by omega
  calc (min (y + (size : ℤ)) (h : ℤ) - max y 0).toNat * w ≤ h * w :=
        Nat.mul_le_mul_right w this
    _ = w * h := Nat.mul_comm h w

theorem BinaryErosion_keeps_at (size w h i : ℕ) (hsize : size = 4099) (hw : w = 3075)
    (hh : h = 4098) (hi : i = 2050) :
    ∃ ones summed,
      BinaryErosionDilationStructuringElement (size : ℤ) = some ones
      ∧ Convolution ieee (Normalise ieee) (tabulate w h (fun _ _ => .fin 1)) ones false
          = .ok summed
      ∧ BinaryErosion ieee SingleThreshold (Normalise ieee)
            (tabulate w h (fun _ _ => .fin 1)) (size : ℤ)
          = .ok (SingleThreshold summed (.fin 12601350))
      ∧ px summed i i = .fin 12601350
      ∧ px (SingleThreshold summed (.fin 12601350)) i i = .fin 1
      ∧ (∀ x y : ℤ, windowSum (tabulate w h (fun _ _ => .fin 1)) w h size x y ≤ 12601350)
      ∧ (12601350 : ℚ) < (size : ℚ) * (size : ℚ) * (3 / 4) := by
  obtain ⟨h1, h2, h3⟩ := BinaryErosion_structure ieee SingleThreshold (Normalise ieee)
    (tabulate w h (fun _ _ => .fin 1)) w h size (isRect_tabulate _ _ _) (by omega) (by omega)
  rw [cutPoint_4099 size hsize] at h3
  have hbin : ∀ i j, i < w → j < h →
      px (tabulate w h (fun _ _ => GoFloat.fin 1)) i j = .fin 0
        ∨ px (tabulate w h (fun _ _ => GoFloat.fin 1)) i j = .fin 1 := by
    intro i j hi hj
    right
    unfold px
    rw [getPx_tabulate _ _ _ i j hi hj]
    rfl
  have harea : w * h = 12601350 := by
    subst hw hh
    rfl
  have hhc : halfCeil size = i := by
    rw [halfCeil_eq]
    omega
  have hcount : onCount (tabulate w h (fun _ _ => GoFloat.fin 1)) w h size
      ((i : ℤ) - (halfCeil size : ℤ)) ((i : ℤ) - (halfCeil size : ℤ)) = 12601350 := by
    rw [hhc, sub_self, onCount_ones w h size (by omega) (by omega)]
    exact harea
  have h64 : ∀ m : ℕ, m ≤ size * size → ieee.f64.round (m : ℚ) = .fin (m : ℚ) := by
    intro m hm
    have hb : size * size < 2 ^ 53 := by
      subst hsize
      norm_num
    have := binary64_int_exact (m : ℤ) (by
      rw [abs_of_nonneg (Int.natCast_nonneg m)]
      exact_mod_cast lt_of_le_of_lt hm hb)
    simpa using this
  have h32 : ieee.f32.round ((12601350 : ℕ) : ℚ) = .fin ((12601350 : ℕ) : ℚ) := by
    have := binary32_int_exact (12601350 : ℤ) (by norm_num)
    simpa using this
  have hsample : convSample ieee (tabulate w h (fun _ _ => GoFloat.fin 1))
      (tabulate size size (fun _ _ => .fin 1)) w h size size i i = .fin 12601350 := by
    have := convSample_count ieee (tabulate w h (fun _ _ => GoFloat.fin 1)) w h size i i
      (by omega) h64 hbin (by rw [hcount]; exact h32)
    rw [this, hcount]
    norm_num
  have hpx : px (tabulate w h (fun i j => convSample ieee
      (tabulate w h (fun _ _ => GoFloat.fin 1))
      (tabulate size size (fun _ _ => .fin 1)) w h size size i j)) i i = .fin 12601350 := by
    unfold px
    rw [getPx_tabulate _ _ _ i i (by omega) (by omega), hsample]
    rfl
  refine ⟨_, _, h1, h2, h3, hpx, ?_, ?_, ?_⟩
  · unfold px SingleThreshold
    rw [getPx_map, getPx_tabulate _ _ _ i i (by omega) (by omega), hsample]
    simp [fle]
  · intro x y
    rw [← onCount_eq_windowSum _ w h size hbin x y]
    have := onCount_le_area (tabulate w h (fun _ _ => GoFloat.fin 1)) w h size x y
    rw [harea] at this
    exact_mod_cast this
  · rw [hsize]
    norm_num

/-- C17 fails in `float32` for a large structuring element: `4099 * 4099 = 16801801`
needs 25 bits, so `float32(size) * float32(size)` is 16801800 and the cut point handed
to `SingleThreshold` for `size = 4099` is 12601350, below `0.75 * size² = 12601350.75`.
On the 3075 by 4098 image of ones the convolved value at the pixel `(2050, 2050)` is the
number of samples of the image, `3075 * 4098 = 12601350`, which `float64` and `float32`
hold exactly, and no window of the zero-extended image sums to more; the pixel maps to
1 although the count is below `0.75 * size²`. -/
theorem BinaryErosion_keeps_a_pixel_below_the_cut :
    ∃ ones summed,
      BinaryErosionDilationStructuringElement ((4099 : ℕ) : ℤ) = some ones
      ∧ Convolution ieee (Normalise ieee) (tabulate 3075 4098 (fun _ _ => .fin 1)) ones false
          = .ok summed
      ∧ BinaryErosion ieee SingleThreshold (Normalise ieee)
            (tabulate 3075 4098 (fun _ _ => .fin 1)) ((4099 : ℕ) : ℤ)
          = .ok (SingleThreshold summed (.fin 12601350))
      ∧ px summed 2050 2050 = .fin 12601350
      ∧ px (SingleThreshold summed (.fin 12601350)) 2050 2050 = .fin 1
      ∧ (∀ x y : ℤ,
          windowSum (tabulate 3075 4098 (fun _ _ => .fin 1)) 3075 4098 4099 x y ≤ 12601350)
      ∧ (12601350 : ℚ) < ((4099 : ℕ) : ℚ) * ((4099 : ℕ) : ℚ) * (3 / 4) :=
  BinaryErosion_keeps_at 4099 3075 4098 2050 rfl rfl rfl rfl

/-! ## The samples and the accesses of Convolution -/

theorem zeroExt_finite (image : Image) (w h : ℕ)
    (hfin : ∀ i j, i < w → j < h → ∃ q, px image i j = .fin q) (x y : ℤ) :
    zeroExt image w h x y = .fin (zeroExt image w h x y).toRat := by
  unfold zeroExt
  split_ifs with hc
  · obtain ⟨q, hq⟩ := hfin x.toNat y.toNat (by omega) (by omega)
    rw [hq]
    rfl
  · rfl

theorem px_padded (image : Image) (w h hw hh x y : ℕ) (hx : x < w + hw + hw)
    (hy : y < h + hh + hh) :
    px (tabulate (w + hw + hw) (h + hh + hh) (fun x y =>
        zeroExt image w h ((x : ℤ) - (hw : ℤ)) ((y : ℤ) - (hh : ℤ)))) x y
      = if hw ≤ x ∧ x < w + hw ∧ hh ≤ y ∧ y < h + hh then px image (x - hw) (y - hh)
        else .fin 0 := by
  unfold px
  rw [getPx_tabulate _ _ _ x y hx hy]
  simp only [Option.getD_some, zeroExt]
  by_cases hc : hw ≤ x ∧ x < w + hw ∧ hh ≤ y ∧ y < h + hh
  · have hc' : 0 ≤ (x : ℤ) - (hw : ℤ) ∧ (x : ℤ) - (hw : ℤ) < (w : ℤ)
        ∧ 0 ≤ (y : ℤ) - (hh : ℤ) ∧ (y : ℤ) - (hh : ℤ) < (h : ℤ) := by omega
    have e1 : ((x : ℤ) - (hw : ℤ)).toNat = x - hw := by omega
    have e2 : ((y : ℤ) - (hh : ℤ)).toNat = y - hh := by omega
    rw [if_pos hc', if_pos hc, e1, e2]
    rfl
  · have hc' : ¬ (0 ≤ (x : ℤ) - (hw : ℤ) ∧ (x : ℤ) - (hw : ℤ) < (w : ℤ)
        ∧ 0 ≤ (y : ℤ) - (hh : ℤ) ∧ (y : ℤ) - (hh : ℤ) < (h : ℤ)) := by omega
    rw [if_neg hc', if_neg hc]

theorem convSample_exact (sqrt : ℚ → ℚ) (image kernel : Image) (w h kw kh i j : ℕ)
    (hfin : ∀ i j, i < w → j < h → ∃ q, px image i j = .fin q)
    (hkfin : ∀ kI kJ, kI < kw → kJ < kh → ∃ q, px kernel kI kJ = .fin q) :
    convSample (exactArith sqrt) image kernel w h kw kh i j
      = .fin (gridSum (fun kI kJ => (px kernel kI kJ).toRat
          * (zeroExt image w h ((i : ℤ) + (kI : ℤ) - (halfCeil kw : ℤ))
              ((j : ℤ) + (kJ : ℤ) - (halfCeil kh : ℤ))).toRat) kw kh) := by
  unfold convSample
  rw [dotSum_congr (exactArith sqrt) _ (fun kI kJ => .fin ((px kernel kI kJ).toRat
      * (zeroExt image w h ((i : ℤ) + (kI : ℤ) - (halfCeil kw : ℤ))
          ((j : ℤ) + (kJ : ℤ) - (halfCeil kh : ℤ))).toRat)) kw kh
    (by
      intro kI kJ hkI hkJ
      obtain ⟨q, hq⟩ := hkfin kI kJ hkI hkJ
      obtain ⟨z, hz⟩ : ∃ z, zeroExt image w h ((i : ℤ) + (kI : ℤ) - (halfCeil kw : ℤ))
          ((j : ℤ) + (kJ : ℤ) - (halfCeil kh : ℤ)) = .fin z :=
        ⟨_, zeroExt_finite image w h hfin _ _⟩
      beta_reduce
      rw [hz, hq]
      show GoFloat.fin (z * q) = GoFloat.fin (q * z)
      rw [mul_comm]),
    dotSum_exact]
  rfl

/-- C21: for a non-empty `W` by `H` image and a non-empty `kw` by `kh` kernel, with
`hw = ceil(kw / 2)` and `hh = ceil(kh / 2)`: the padded grid of `Convolution` has
`W + 2 * hw` columns of `H + 2 * hh` samples, the image copied at the offset `(hw, hh)`
and zeros elsewhere; `Convolution(image, kernel, false)` returns a `W` by `H` grid whose
sample at `(i, j)` is the sum over `kI < kw`, `kJ < kh` of
`Z(i + kI - hw, j + kJ - hh) * kernel[kI][kJ]`, accumulated in `float64` row by row of
the kernel and narrowed to `float32`, where `Z` is the image inside its bounds and 0
outside; and under exact arithmetic, on finite samples, that sample is the exact sum. -/
theorem Convolution_samples (env : FloatEnv) (Normalise : Image → Image)
    (image kernel : Image) (W H kw kh : ℕ) (himg : IsRect image W H) (hW : 0 < W)
    (hk : IsRect kernel kw kh) (hkw : 0 < kw) :
    halfCeil kw = (kw + 1) / 2 ∧ halfCeil kh = (kh + 1) / 2
    ∧ (∃ padded, padImage image W H (halfCeil kw) (halfCeil kh) = some padded
        ∧ IsRect padded (W + 2 * halfCeil kw) (H + 2 * halfCeil kh)
        ∧ ∀ x y, x < W + 2 * halfCeil kw → y < H + 2 * halfCeil kh →
            px padded x y
              = if halfCeil kw ≤ x ∧ x < W + halfCeil kw ∧ halfCeil kh ≤ y
                  ∧ y < H + halfCeil kh
                then px image (x - halfCeil kw) (y - halfCeil kh) else .fin 0)
    ∧ (∃ out, Convolution env Normalise image kernel false = .ok out ∧ IsRect out W H
        ∧ ∀ i j, i < W → j < H →
            px out i j = toFloat32 env (dotSum env (fun kI kJ =>
              fmul env.f64
                (toFloat64 (zeroExt image W H ((i : ℤ) + (kI : ℤ) - (halfCeil kw : ℤ))
                  ((j : ℤ) + (kJ : ℤ) - (halfCeil kh : ℤ))))
                (toFloat64 (px kernel kI kJ))) kw kh))
    ∧ ∀ sqrt : ℚ → ℚ,
        (∀ i j, i < W → j < H → ∃ q, px image i j = .fin q) →
        (∀ kI kJ, kI < kw → kJ < kh → ∃ q, px kernel kI kJ = .fin q) →
        ∃ out, Convolution (exactArith sqrt) Normalise image kernel false = .ok out
          ∧ ∀ i j, i < W → j < H →
              px out i j = .fin (gridSum (fun kI kJ => (px kernel kI kJ).toRat
                * (zeroExt image W H ((i : ℤ) + (kI : ℤ) - (halfCeil kw : ℤ))
                    ((j : ℤ) + (kJ : ℤ) - (halfCeil kh : ℤ))).toRat) kw kh) := by
  have e1 : W + 2 * halfCeil kw = W + halfCeil kw + halfCeil kw := by omega
  have e2 : H + 2 * halfCeil kh = H + halfCeil kh + halfCeil kh := by omega
  refine ⟨halfCeil_eq kw, halfCeil_eq kh, ?_, ?_, ?_⟩
  · refine ⟨_, padImage_eq image W H (halfCeil kw) (halfCeil kh) himg, ?_, ?_⟩
    · rw [e1, e2]
      exact isRect_tabulate _ _ _
    · intro x y hx hy
      exact px_padded image W H (halfCeil kw) (halfCeil kh) x y (by omega) (by omega)
  · refine ⟨tabulate W H (fun i j => convSample env image kernel W H kw kh i j), ?_,
      isRect_tabulate W H _, ?_⟩
    · rw [Convolution_eq env Normalise image kernel W H kw kh false himg hW hk hkw]
      simp only [finish, Bool.false_eq_true, if_false]
    · intro i j hi hj
      unfold px
      rw [getPx_tabulate _ _ _ i j hi hj]
      rfl
  · intro sqrt hfin hkfin
    refine ⟨tabulate W H (fun i j =>
      convSample (exactArith sqrt) image kernel W H kw kh i j), ?_, ?_⟩
    · rw [Convolution_eq (exactArith sqrt) Normalise image kernel W H kw kh false himg hW
        hk hkw]
      simp only [finish, Bool.false_eq_true, if_false]
    · intro i j hi hj
      unfold px
      rw [getPx_tabulate _ _ _ i j hi hj]
      exact convSample_exact sqrt image kernel W H kw kh i j hfin hkfin

/-- An instance of C21 in `float32` and `float64`: a 2 by 2 image and a 2 by 1 kernel. -/
theorem Convolution_samples_witness :
    halfCeil 2 = (2 + 1) / 2 ∧ halfCeil 1 = (1 + 1) / 2
    ∧ (∃ padded, padImage [[.fin 1, .fin 2], [.fin 3, .fin 4]] 2 2 (halfCeil 2) (halfCeil 1)
          = some padded
        ∧ IsRect padded (2 + 2 * halfCeil 2) (2 + 2 * halfCeil 1)
        ∧ ∀ x y : ℕ, x < 2 + 2 * halfCeil 2 → y < 2 + 2 * halfCeil 1 →
            px padded x y
              = if halfCeil 2 ≤ x ∧ x < 2 + halfCeil 2 ∧ halfCeil 1 ≤ y ∧ y < 2 + halfCeil 1
                then px [[.fin 1, .fin 2], [.fin 3, .fin 4]] (x - halfCeil 2) (y - halfCeil 1)
                else .fin 0)
    ∧ (∃ out, Convolution ieee id [[.fin 1, .fin 2], [.fin 3, .fin 4]]
          [[.fin 1], [.fin (-1)]] false = .ok out ∧ IsRect out 2 2
        ∧ ∀ i j : ℕ, i < 2 → j < 2 →
            px out i j = toFloat32 ieee (dotSum ieee (fun kI kJ =>
              fmul ieee.f64
                (toFloat64 (zeroExt [[.fin 1, .fin 2], [.fin 3, .fin 4]] 2 2
                  ((i : ℤ) + (kI : ℤ) - (halfCeil 2 : ℤ))
                  ((j : ℤ) + (kJ : ℤ) - (halfCeil 1 : ℤ))))
                (toFloat64 (px [[.fin 1], [.fin (-1)]] kI kJ))) 2 1))
    ∧ ∀ sqrt : ℚ → ℚ,
        (∀ i j : ℕ, i < 2 → j < 2 → ∃ q, px [[.fin 1, .fin 2], [.fin 3, .fin 4]] i j = .fin q) →
        (∀ kI kJ : ℕ, kI < 2 → kJ < 1 → ∃ q, px [[.fin 1], [.fin (-1)]] kI kJ = .fin q) →
        ∃ out, Convolution (exactArith sqrt) id [[.fin 1, .fin 2], [.fin 3, .fin 4]]
            [[.fin 1], [.fin (-1)]] false = .ok out
          ∧ ∀ i j : ℕ, i < 2 → j < 2 →
              px out i j = .fin (gridSum (fun kI kJ => (px [[.fin 1], [.fin (-1)]] kI kJ).toRat
                * (zeroExt [[.fin 1, .fin 2], [.fin 3, .fin 4]] 2 2
                    ((i : ℤ) + (kI : ℤ) - (halfCeil 2 : ℤ))
                    ((j : ℤ) + (kJ : ℤ) - (halfCeil 1 : ℤ))).toRat) 2 1) :=
  Convolution_samples ieee id [[.fin 1, .fin 2], [.fin 3, .fin 4]] [[.fin 1], [.fin (-1)]]
    2 2 2 1 (by decide) (by decide) (by decide) (by decide)

/-- C22: for a non-empty `W` by `H` image and a non-empty `kw` by `kh` kernel, the
indices `i + kI` and `j + kJ` at which `Convolution` reads the padded grid are below its
width `W + 2 * ceil(kw / 2)` and its height `H + 2 * ceil(kh / 2)`; the padding loops
run without an index out of range, every read of the padded grid and of the kernel
finds a sample, the dot product at every pixel is computed, and `Convolution` returns a
grid: no access of it panics. -/
theorem Convolution_accesses_in_bounds (env : FloatEnv) (Normalise : Image → Image)
    (image kernel : Image) (W H kw kh : ℕ) (normalise : Bool) (himg : IsRect image W H)
    (hW : 0 < W) (hk : IsRect kernel kw kh) (hkw : 0 < kw) :
    (∀ i kI, i < W → kI < kw → i + kI < W + 2 * halfCeil kw)
    ∧ (∀ j kJ, j < H → kJ < kh → j + kJ < H + 2 * halfCeil kh)
    ∧ (∃ padded, padImage image W H (halfCeil kw) (halfCeil kh) = some padded
        ∧ ∀ i j, i < W → j < H →
            (∀ kI kJ, kI < kw → kJ < kh →
              (getPxInt padded
                ((i : ℤ) + ((kI : ℤ) - (halfCeil kw : ℤ)) + (halfCeil kw : ℤ))
                ((j : ℤ) + ((kJ : ℤ) - (halfCeil kh : ℤ)) + (halfCeil kh : ℤ))).isSome = true
              ∧ (getPx kernel kI kJ).isSome = true)
            ∧ (dotAt env padded kernel kw kh (halfCeil kw) (halfCeil kh) i j).isSome = true)
    ∧ ∃ out, Convolution env Normalise image kernel normalise = .ok out := by
  have c1 := le_two_halfCeil kw
  have c2 := le_two_halfCeil kh
  refine ⟨fun i kI hi hkI => by omega, fun j kJ hj hkJ => by omega, ?_, ?_⟩
  · refine ⟨_, padImage_eq image W H (halfCeil kw) (halfCeil kh) himg, ?_⟩
    intro i j hi hj
    refine ⟨?_, ?_⟩
    · intro kI kJ hkI hkJ
      rw [getPxInt_tabulate _ _ _ _ _ (by omega) (by push_cast; omega) (by omega)
        (by push_cast; omega), getPx_eq_px kernel kw kh kI kJ hk hkI hkJ]
      exact ⟨rfl, rfl⟩
    · rw [dotAt_eq env image kernel W H kw kh _ _ i j hk hi hj c1 c2]
      rfl
  · rw [Convolution_eq env Normalise image kernel W H kw kh normalise himg hW hk hkw]
    cases normalise
    · exact ⟨_, rfl⟩
    · exact ⟨_, rfl⟩

/-- An instance of C22 in `float32` and `float64`: a 2 by 2 image and a 3 by 3 kernel. -/
theorem Convolution_accesses_in_bounds_witness :
    (∀ i kI : ℕ, i < 2 → kI < 3 → i + kI < 2 + 2 * halfCeil 3)
    ∧ (∀ j kJ : ℕ, j < 2 → kJ < 3 → j + kJ < 2 + 2 * halfCeil 3)
    ∧ (∃ padded, padImage [[.fin 1, .fin 2], [.fin 3, .fin 4]] 2 2 (halfCeil 3) (halfCeil 3)
          = some padded
        ∧ ∀ i j : ℕ, i < 2 → j < 2 →
            (∀ kI kJ : ℕ, kI < 3 → kJ < 3 →
              (getPxInt padded
                ((i : ℤ) + ((kI : ℤ) - (halfCeil 3 : ℤ)) + (halfCeil 3 : ℤ))
                ((j : ℤ) + ((kJ : ℤ) - (halfCeil 3 : ℤ)) + (halfCeil 3 : ℤ))).isSome = true
              ∧ (getPx (tabulate 3 3 (fun _ _ => .fin 1)) kI kJ).isSome = true)
            ∧ (dotAt ieee padded (tabulate 3 3 (fun _ _ => .fin 1)) 3 3 (halfCeil 3)
                (halfCeil 3) i j).isSome = true)
    ∧ ∃ out, Convolution ieee id [[.fin 1, .fin 2], [.fin 3, .fin 4]]
        (tabulate 3 3 (fun _ _ => .fin 1)) true = .ok out :=
  Convolution_accesses_in_bounds ieee id [[.fin 1, .fin 2], [.fin 3, .fin 4]]
    (tabulate 3 3 (fun _ _ => .fin 1)) 2 2 3 3 true (by decide) (by decide)
    (isRect_tabulate 3 3 _) (by decide)

/-! ## GradientMagnitude -/

theorem binaryImage_comm (op : GoFloat → GoFloat → GoFloat) (hop : ∀ x y, op x y = op y x)
    (Normalise : Image → Image) (a b : Image) (normalise : Bool) :
    binaryImage op Normalise a b normalise = binaryImage op Normalise b a normalise := by
  have hf : (fun i j => match getPx a i j, getPx b i j with
        | some x, some y => some (op x y)
        | _, _ => none)
      = (fun i j => match getPx b i j, getPx a i j with
        | some x, some y => some (op x y)
        | _, _ => none) := by
    funext i j
    cases getPx a i j <;> cases getPx b i j <;> simp [hop]
  unfold binaryImage checkDims
  by_cases hl : a.length = b.length
  · have hl' : b.length = a.length := hl.symm
    cases a with
    | nil =>
      cases b with
      | nil => rfl
      | cons b0 bs => simp at hl
    | cons a0 as =>
      cases b with
      | nil => simp at hl
      | cons b0 bs =>
        by_cases hh : a0.length = b0.length
        · have hh' : b0.length = a0.length := hh.symm
          rw [if_neg (not_not.mpr hl), if_neg (not_not.mpr hl')]
          simp only [List.getElem?_cons_zero]
          rw [if_neg (not_not.mpr hh), if_neg (not_not.mpr hh')]
          simp only [Dimensions, List.headD_cons]
          rw [hl, hh]
          exact congrArg (fun f => finish Normalise normalise
            (pixelLoop (b0 :: bs).length b0.length f)) hf
        · have hh' : ¬ b0.length = a0.length := fun e => hh e.symm
          rw [if_neg (not_not.mpr hl), if_neg (not_not.mpr hl')]
          simp only [List.getElem?_cons_zero]
          rw [if_pos hh, if_pos hh']
  · have hl' : ¬ b.length = a.length := fun e => hl e.symm
    rw [if_pos hl, if_pos hl']

theorem AddImage_comm (env : FloatEnv) (Normalise : Image → Image) (a b : Image)
    (normalise : Bool) :
    AddImage env Normalise a b normalise = AddImage env Normalise b a normalise :=
  binaryImage_comm (fadd env.f32) (fadd_comm env.f32) Normalise a b normalise

theorem GradientMagnitude_eq_spec (env : FloatEnv) (Normalise : Image → Image)
    (image X1 X2 Y1 Y2 : Image) (xFirst : Bool) (order : SquaresOrder)
    (horder : order ≠ .bFirstBeforeRead) :
    GradientMagnitude env Normalise image X1 X2 Y1 Y2 xFirst order
      = gradientMagnitudeSpec env Normalise image X1 X2 Y1 Y2 := by
  unfold GradientMagnitude gradientMagnitudeSpec
  cases hx : SepConvolution env Normalise image X1 X2 true with
  | error m => rfl
  | panic => rfl
  | ok gx =>
    cases hy : SepConvolution env Normalise image Y1 Y2 true with
    | error m => rfl
    | panic => rfl
    | ok gy =>
      simp only []
      cases hxx : dropError (MultiplyImage env Normalise gx gx false) with
      | error m => cases xFirst <;> cases order <;> simp_all
      | panic => cases xFirst <;> cases order <;> simp_all
      | ok xx =>
        cases hyy : dropError (MultiplyImage env Normalise gy gy false) with
        | error m => cases xFirst <;> cases order <;> simp_all
        | panic => cases xFirst <;> cases order <;> simp_all
        | ok yy =>
          cases xFirst <;> cases order <;>
            simp_all [AddImage_comm env Normalise yy xx false]

/-- C24 fails on the code: the goroutine that squares `a` reads the variable `a` when it
runs, and `GradientMagnitude` assigns to `a` the first grid it receives from `ch2`.
When the square of `b` arrives before that goroutine has read `a`, it squares the
square of `b`, and the function returns `Normalise(Sqrt(b*b + (b*b)*(b*b)))`. With the
Sobel halves `[1, 2, 1]` and `[-1, 0, 1]` on a 4 by 4 image, the sample at `(1, 1)` is
then another one than that of `Normalise(Sqrt(gx*gx + gy*gy))`, which the function
returns in the other orders of the receptions. -/
theorem GradientMagnitude_depends_on_the_schedule :
    sampleOf (gradientMagnitudeSpec ieee (Normalise ieee)
        [[.fin 1, .fin 2, .fin 0, .fin 1], [.fin 0, .fin 3, .fin 1, .fin 0],
          [.fin 2, .fin 0, .fin 1, .fin 1], [.fin 1, .fin 1, .fin 0, .fin 2]]
        [[.fin 1, .fin 2, .fin 1]] [[.fin (-1)], [.fin 0], [.fin 1]]
        [[.fin (-1), .fin 0, .fin 1]] [[.fin 1], [.fin 2], [.fin 1]]) 1 1
      = some (.fin (1295767 / 4194304))
    ∧ sampleOf (GradientMagnitude ieee (Normalise ieee)
        [[.fin 1, .fin 2, .fin 0, .fin 1], [.fin 0, .fin 3, .fin 1, .fin 0],
          [.fin 2, .fin 0, .fin 1, .fin 1], [.fin 1, .fin 1, .fin 0, .fin 2]]
        [[.fin 1, .fin 2, .fin 1]] [[.fin (-1)], [.fin 0], [.fin 1]]
        [[.fin (-1), .fin 0, .fin 1]] [[.fin 1], [.fin 2], [.fin 1]] true .bFirst) 1 1
      = some (.fin (1295767 / 4194304))
    ∧ sampleOf (GradientMagnitude ieee (Normalise ieee)
        [[.fin 1, .fin 2, .fin 0, .fin 1], [.fin 0, .fin 3, .fin 1, .fin 0],
          [.fin 2, .fin 0, .fin 1, .fin 1], [.fin 1, .fin 1, .fin 0, .fin 2]]
        [[.fin 1, .fin 2, .fin 1]] [[.fin (-1)], [.fin 0], [.fin 1]]
        [[.fin (-1), .fin 0, .fin 1]] [[.fin 1], [.fin 2], [.fin 1]] true
        .bFirstBeforeRead) 1 1
      = some (.fin (10802377 / 67108864)) := by
  refine ⟨?_, ?_, ?_⟩ <;> decide!

/-! ## The shape of the Gaussian kernel -/

theorem Gaussian_exact_samples (sqrt : ℚ → ℚ) (powE : GoFloat → GoFloat) (size : ℕ)
    (sigma : ℚ) (hsize : 1 ≤ size) (hsigma : 0 < sigma) (e : ℚ → ℚ)
    (he : ∀ q, 0 < e q ∧ powE (.fin q) = .fin (e q)) :
    ∃ out S, 0 < S ∧ Gaussian (exactArith sqrt) powE (size : ℤ) (.fin sigma) = .ok out
      ∧ IsRect out size size
      ∧ ∀ i j, i < size → j < size →
          px out i j = .fin (1 / (twoPi * sigma * sigma)
            * e (-1 * (((i : ℤ) * (i : ℤ) + (j : ℤ) * (j : ℤ) : ℚ) / (2 * sigma * sigma)))
            / S) := by
  have h2 : (2 : ℚ) * sigma * sigma ≠ 0 := by positivity
  have hpi : twoPi * sigma * sigma ≠ 0 := by
    have : 0 < twoPi := by norm_num [twoPi]
    positivity
  have hA : 0 < 1 / (twoPi * sigma * sigma) := by
    have : 0 < twoPi := by norm_num [twoPi]
    positivity
  let x : ℕ → ℕ → ℚ := fun i j =>
    -1 * (((i : ℤ) * (i : ℤ) + (j : ℤ) * (j : ℤ) : ℚ) / (2 * sigma * sigma))
  let q : ℕ → ℕ → ℚ := fun i j => 1 / (twoPi * sigma * sigma) * e (x i j)
  have hq : ∀ i j, 0 < q i j := fun i j => mul_pos hA (he (x i j)).1
  have hloop : pixelLoop size size (fun i j =>
        let a := fdiv (exactArith sqrt).f64 (.fin 1)
          (fmul (exactArith sqrt).f64 (fmul (exactArith sqrt).f64 (.fin twoPi)
            (toFloat64 (.fin sigma))) (toFloat64 (.fin sigma)))
        let b := powE (fmul (exactArith sqrt).f64 (.fin (-1))
          (fdiv (exactArith sqrt).f64
            (fadd (exactArith sqrt).f64
              (fmul (exactArith sqrt).f64 (intToFloat64 (exactArith sqrt) (i : ℤ))
                (intToFloat64 (exactArith sqrt) (i : ℤ)))
              (fmul (exactArith sqrt).f64 (intToFloat64 (exactArith sqrt) (j : ℤ))
                (intToFloat64 (exactArith sqrt) (j : ℤ))))
            (fmul (exactArith sqrt).f64 (fmul (exactArith sqrt).f64 (.fin 2)
              (toFloat64 (.fin sigma))) (toFloat64 (.fin sigma)))))
        some (toFloat32 (exactArith sqrt) (fmul (exactArith sqrt).f64 a b)))
      = some (tabulate size size (fun i j => .fin (q i j))) := by
    apply pixelLoop_eq
    intro i j _ _
    have e1 : fdiv (exactArith sqrt).f64 (.fin 1) (.fin (twoPi * sigma * sigma))
        = .fin (1 / (twoPi * sigma * sigma)) := by
      simp only [fdiv, hpi, if_false]
      rfl
    have e2 : fdiv (exactArith sqrt).f64
        (.fin ((i : ℤ) * (i : ℤ) + (j : ℤ) * (j : ℤ) : ℚ)) (.fin (2 * sigma * sigma))
        = .fin (((i : ℤ) * (i : ℤ) + (j : ℤ) * (j : ℤ) : ℚ) / (2 * sigma * sigma)) := by
      simp only [fdiv, h2, if_false]
      rfl
    show some (toFloat32 (exactArith sqrt) (fmul (exactArith sqrt).f64
      (fdiv (exactArith sqrt).f64 (.fin 1) (.fin (twoPi * sigma * sigma)))
      (powE (fmul (exactArith sqrt).f64 (.fin (-1))
        (fdiv (exactArith sqrt).f64
          (.fin ((i : ℤ) * (i : ℤ) + (j : ℤ) * (j : ℤ) : ℚ)) (.fin (2 * sigma * sigma))))))) = _
    rw [e1, e2]
    show some (toFloat32 (exactArith sqrt) (fmul (exactArith sqrt).f64
      (.fin (1 / (twoPi * sigma * sigma))) (powE (.fin (x i j))))) = _
    rw [(he (x i j)).2]
    rfl
  have hSpos := gridSum_pos q size size (by omega) (by omega) (fun i j _ _ => hq i j)
  obtain ⟨out, hout, hrect, hpx, _⟩ := NormaliseKernel_exact sqrt
    (tabulate size size (fun i j => .fin (q i j))) size size q (isRect_tabulate _ _ _)
    (by omega)
    (by
      intro i j hi hj
      unfold px
      rw [getPx_tabulate _ _ _ i j hi hj]
      rfl) (ne_of_gt hSpos)
  refine ⟨out, gridSum q size size, hSpos, ?_, hrect, hpx⟩
  unfold Gaussian
  have hneg : ¬ ((size : ℤ) < 0) := by omega
  simp only [hneg, if_false, Int.toNat_natCast]
  rw [hloop]
  exact hout

/-- C23 fails on the code: `NormaliseKernel` divides by the sum of the coefficients
without testing it against zero. With `sigma = 2^100` every coefficient of
`Gaussian(2, sigma)` underflows to 0 in `float32` before the normalisation, and the
kernel returned holds four NaN; a NaN is not greater than or equal to anything, itself
included, so `kernel[0][0] >= kernel[i][j]` holds for no `(i, j)`. -/
theorem Gaussian_wide_sigma_has_no_peak :
    Gaussian ieee (powEStandIn ieee) 2 (.fin (2 ^ 100)) = .ok [[.nan, .nan], [.nan, .nan]]
    ∧ fle .nan .nan = false := by
  refine ⟨?_, rfl⟩
  decide!

/-- Under exact arithmetic, with an exponential that is positive, finite and
non-decreasing on finite arguments, for every `size ≥ 1` and every finite `sigma > 0`
the kernel `Gaussian` returns has finite coefficients `c i j` with `c i j ≤ c 0 0`,
non-increasing in `i` and in `j`, and `c i j = c j i`. -/
theorem Gaussian_exact_peak_at_corner (sqrt : ℚ → ℚ) (powE : GoFloat → GoFloat) (size : ℕ)
    (sigma : ℚ) (hsize : 1 ≤ size) (hsigma : 0 < sigma)
    (hpow : ∀ q, ∃ y, 0 < y ∧ powE (.fin q) = .fin y)
    (hmono : ∀ q q' y y', q ≤ q' → powE (.fin q) = .fin y → powE (.fin q') = .fin y' →
      y ≤ y') :
    ∃ (out : Image) (c : ℕ → ℕ → ℚ),
      Gaussian (exactArith sqrt) powE (size : ℤ) (.fin sigma) = .ok out
      ∧ (∀ i j, i < size → j < size → px out i j = .fin (c i j))
      ∧ (∀ i j, i < size → j < size → c i j ≤ c 0 0)
      ∧ (∀ i i' j, i ≤ i' → i' < size → j < size → c i' j ≤ c i j)
      ∧ (∀ i j j', j ≤ j' → i < size → j' < size → c i j' ≤ c i j)
      ∧ (∀ i j, i < size → j < size → c i j = c j i) := by
  choose e he using hpow
  obtain ⟨out, S, hS, hout, _, hpx⟩ :=
    Gaussian_exact_samples sqrt powE size sigma hsize hsigma e he
  have hA : 0 < 1 / (twoPi * sigma * sigma) := by
    have : 0 < twoPi := by norm_num [twoPi]
    positivity
  have h2 : 0 < 2 * sigma * sigma := by positivity
  have hemono : ∀ q q', q ≤ q' → e q ≤ e q' :=
    fun q q' h => hmono q q' (e q) (e q') h (he q).2 (he q').2
  have key : ∀ i j i' j' : ℕ, i ≤ i' → j ≤ j' →
      1 / (twoPi * sigma * sigma)
          * e (-1 * (((i' : ℤ) * (i' : ℤ) + (j' : ℤ) * (j' : ℤ) : ℚ) / (2 * sigma * sigma))) / S
        ≤ 1 / (twoPi * sigma * sigma)
          * e (-1 * (((i : ℤ) * (i : ℤ) + (j : ℤ) * (j : ℤ) : ℚ) / (2 * sigma * sigma))) / S := by
    intro i j i' j' hi hj
    apply div_le_div_of_nonneg_right _ (le_of_lt hS)
    apply mul_le_mul_of_nonneg_left _ (le_of_lt hA)
    apply hemono
    have h1 : ((i : ℤ) * (i : ℤ) + (j : ℤ) * (j : ℤ) : ℚ)
        ≤ ((i' : ℤ) * (i' : ℤ) + (j' : ℤ) * (j' : ℤ) : ℚ) := by
      have hi' : (i : ℚ) ≤ (i' : ℚ) := by exact_mod_cast hi
      have hj' : (j : ℚ) ≤ (j' : ℚ) := by exact_mod_cast hj
      have hi0 : (0 : ℚ) ≤ (i : ℚ) := by positivity
      have hj0 : (0 : ℚ) ≤ (j : ℚ) := by positivity
      push_cast
      nlinarith
    have h3 := div_le_div_of_nonneg_right h1 (le_of_lt h2)
    linarith
  refine ⟨out, fun i j => 1 / (twoPi * sigma * sigma)
    * e (-1 * (((i : ℤ) * (i : ℤ) + (j : ℤ) * (j : ℤ) : ℚ) / (2 * sigma * sigma))) / S,
    hout, hpx, ?_, ?_, ?_, ?_⟩
  · intro i j _ _
    exact key 0 0 i j (Nat.zero_le i) (Nat.zero_le j)
  · intro i i' j hi _ _
    exact key i j i' j hi (le_refl j)
  · intro i j j' hj _ _
    exact key i j i j' (le_refl i) hj
  · intro i j _ _
    beta_reduce
    rw [add_comm ((i : ℤ) * (i : ℤ) : ℚ)]

/-- The 2 by 2 Gaussian kernel of `sigma = 1` under exact arithmetic, with the stand-in
for the exponential. -/
theorem Gaussian_exact_peak_at_corner_witness :
    ∃ (out : Image) (c : ℕ → ℕ → ℚ),
      Gaussian (exactArith id) (powEStandIn (exactArith id)) ((2 : ℕ) : ℤ) (.fin 1) = .ok out
      ∧ (∀ i j, i < 2 → j < 2 → px out i j = .fin (c i j))
      ∧ (∀ i j, i < 2 → j < 2 → c i j ≤ c 0 0)
      ∧ (∀ i i' j, i ≤ i' → i' < 2 → j < 2 → c i' j ≤ c i j)
      ∧ (∀ i j j', j ≤ j' → i < 2 → j' < 2 → c i j' ≤ c i j)
      ∧ (∀ i j, i < 2 → j < 2 → c i j = c j i) :=
  Gaussian_exact_peak_at_corner id (powEStandIn (exactArith id)) 2 1 (by decide)
    (by norm_num)
    (fun q => ⟨if q ≤ 0 then 1 / (1 - q) else 1 + q, by
      split_ifs with h
      · exact div_pos one_pos (by linarith)
      · linarith [not_le.mp h], rfl⟩)
    (by
      intro q q' y y' hqq hy hy'
      have e1 : y = if q ≤ 0 then 1 / (1 - q) else 1 + q := by
        have : powEStandIn (exactArith id) (.fin q)
            = .fin (if q ≤ 0 then 1 / (1 - q) else 1 + q) := rfl
        rw [this] at hy
        injection hy with hy
        exact hy.symm
      have e2 : y' = if q' ≤ 0 then 1 / (1 - q') else 1 + q' := by
        have : powEStandIn (exactArith id) (.fin q')
            = .fin (if q' ≤ 0 then 1 / (1 - q') else 1 + q') := rfl
        rw [this] at hy'
        injection hy' with hy'
        exact hy'.symm
      rw [e1, e2]
      split_ifs with h1 h2 h2
      · exact div_le_div_of_nonneg_left (by norm_num) (by linarith) (by linarith)
      · have : 1 / (1 - q) ≤ 1 := by
          rw [div_le_one (by linarith)]
          linarith
        linarith [not_le.mp h2]
      · linarith [not_le.mp h1]
      · linarith)

/-! ## The distance under lost updates -/

/-- C25 fails on the code: the goroutines of `L2Norm` add to one variable without a
lock, and an addition that is lost makes a norm too small. In exact arithmetic, with a
square root that is exact on the sums met, for `A = [3, 4]` and `B = [-3, -4]` the norm
of the difference is 10 when its goroutines run in turn, and the norms of `A` and of `B`
are 4 instead of 5 when both goroutines read `accumulator` before either writes it:
`SignatureDifference(A, B)` is `5 / 4`, above 1. For `A = [1, 0]` and `B = [0, 0]` the
norm of the difference is 0 when the addition of the element 0 is lost, and
`SignatureDifference(A, B)` is 0 although `A` and `B` differ. -/
theorem SignatureDifference_leaves_unit_interval :
    isSchedule 2 [.read 0, .write 0, .read 1, .write 1] = true
    ∧ isSchedule 2 [.read 0, .read 1, .write 0, .write 1] = true
    ∧ SignatureDifference (exactArith (fun q => (isqrt q.num.toNat : ℚ))) [3, 4] [-3, -4]
        ⟨[.read 0, .write 0, .read 1, .write 1], [.read 0, .read 1, .write 0, .write 1],
          [.read 0, .read 1, .write 0, .write 1]⟩
        ⟨[.read 0, .write 0, .read 1, .write 1], [.read 0, .read 1, .write 0, .write 1],
          [.read 0, .read 1, .write 0, .write 1]⟩ = .fin (5 / 4)
    ∧ (1 : ℚ) < 5 / 4
    ∧ SignatureDifference (exactArith (fun q => (isqrt q.num.toNat : ℚ))) [1, 0] [0, 0]
        ⟨[.read 0, .read 1, .write 0, .write 1], [.read 0, .write 0, .read 1, .write 1],
          [.read 0, .write 0, .read 1, .write 1]⟩
        ⟨[.read 0, .read 1, .write 0, .write 1], [.read 0, .write 0, .read 1, .write 1],
          [.read 0, .write 0, .read 1, .write 1]⟩ = .fin 0
    ∧ ([1, 0] : List ℤ) ≠ [0, 0] := by
  refine ⟨?_, ?_, ?_, ?_, ?_, ?_⟩
  · decide
  · decide
  · decide!
  · norm_num
  · decide!
  · decide


end ImageTools
